import Mathlib

/-!
# ClusterTools: block store pruning and EVM state extraction

A shallow embedding of `blockstore/block_store.go`, `blockstore/util.go`,
`blockstore/tx_index_store.go`, `blockstore/index_blocks.go`, `appstore/copy_vm.go`,
`appstore/copy_evm_auxiliary.go`, `appstore/extract_kvs.go`, `appstore/util.go`,
`appstore/stats.go` and the progress callback of `appstore/clone.go`.

Byte strings are lists of naturals (each below 256).  A key-value store is an
association list; `DB.get` returns the first binding of a key.  The Tendermint
and amino routines the source calls (block-meta decoding, block loading, the
JSON state record, transaction hashing) are collaborators outside the
repository and enter as the fields of `Collab`.
-/

namespace ClusterTools

/-! ## Byte strings and their order -/

/-- A Go `[]byte` / `string`: the list of its byte values. -/
abbrev Bytes := List Nat

/-- Strict lexicographic byte order, the order of `bytes.Compare` and of store iteration. -/
def bytesLt : Bytes → Bytes → Bool
  | [], [] => false
  | [], _ :: _ => true
  | _ :: _, [] => false
  | a :: as, b :: bs => decide (a < b) || (decide (a = b) && bytesLt as bs)

/-- Non-strict lexicographic byte order. -/
def bytesLe (a b : Bytes) : Bool := !(bytesLt b a)

/-- The Go `bytes.HasPrefix`. -/
def bytesHasPrefix : Bytes → Bytes → Bool
  | _, [] => true
  | [], _ :: _ => false
  | k :: ks, p :: ps => decide (k = p) && bytesHasPrefix ks ps

/-! ## Key-value stores and write batches -/

/-- A key-value store (LevelDB): the first binding of a key is its value. -/
abbrev DB := List (Bytes × Bytes)

/-- Value stored under a key, `none` when the key is absent. -/
def DB.get : DB → Bytes → Option Bytes
  | [], _ => none
  | (k', v) :: rest, k => if k' = k then some v else DB.get rest k

/-- The `Has` method of the store. -/
def DB.has (db : DB) (k : Bytes) : Bool := (DB.get db k).isSome

/-- Remove every binding of a key. -/
def DB.delete (db : DB) (k : Bytes) : DB := db.filter (fun e => !decide (e.1 = k))

/-- Bind a key, replacing earlier bindings. -/
def DB.set (db : DB) (k v : Bytes) : DB := (k, v) :: DB.delete db k

/-- One pending mutation of a write batch. -/
inductive Op where
  | put (k v : Bytes)
  | del (k : Bytes)
  deriving DecidableEq, Repr

/-- Apply one batch entry. -/
def Op.apply (db : DB) : Op → DB
  | .put k v => DB.set db k v
  | .del k => DB.delete db k

/-- The `Write` / `WriteSync` of a batch: its entries applied in the order they were added. -/
def DB.write (db : DB) (batch : List Op) : DB := batch.foldl Op.apply db

/-- Insert a key into an ascending key list that has no repetition. -/
def insertKey (k : Bytes) : List Bytes → List Bytes
  | [] => [k]
  | x :: xs =>
    if bytesLt x k then x :: insertKey k xs
    else if x = k then x :: xs
    else k :: x :: xs

/-- Sort keys ascending in byte order. -/
def sortKeys : List Bytes → List Bytes
  | [] => []
  | k :: ks => insertKey k (sortKeys ks)

/-- The keys an `Iterator(start, end)` of the store visits, in visiting order: the keys
`k` with `start <= k < end` ascending in byte order; a nil `end` is no upper bound. -/
def DB.Iterator (db : DB) (start : Bytes) (stop : Option Bytes) : List Bytes :=
  sortKeys ((db.map Prod.fst).filter fun k =>
    bytesLe start k && (match stop with
      | none => true
      | some e => bytesLt k e))

/-! ## Decimal formatting and parsing -/

/-- Decimal digits of `n` (most significant first) pushed in front of `acc`. -/
def decAux : Nat → Nat → Bytes → Bytes
  | 0, _, acc => acc
  | fuel + 1, n, acc =>
    if n < 10 then (48 + n) :: acc else decAux fuel (n / 10) ((48 + n % 10) :: acc)

/-- Decimal rendering of a natural number in ASCII. -/
def formatUint (n : Nat) : Bytes := decAux (n + 1) n []

/-- The rendering `fmt.Sprintf("%v", x)` of an integer: decimal, `-` in front when negative. -/
def formatInt : Int → Bytes
  | Int.ofNat n => formatUint n
  | Int.negSucc n => 45 :: formatUint (n + 1)

/-- Value of a run of ASCII decimal digits continuing `acc`; `none` on any other byte. -/
def digitsVal : Nat → Bytes → Option Nat
  | acc, [] => some acc
  | acc, c :: cs => if 48 ≤ c ∧ c ≤ 57 then digitsVal (acc * 10 + (c - 48)) cs else none

/-- The call `strconv.ParseInt(s, 10, 64)`: `none` stands for every error (empty input, a
non-digit, a value outside the int64 range). -/
def parseInt64 : Bytes → Option Int
  | [] => none
  | c :: cs =>
    if c = 45 then
      match cs with
      | [] => none
      | _ => (digitsVal 0 cs).bind fun n => if n ≤ 2 ^ 63 then some (-(n : Int)) else none
    else
      let ds := if c = 43 then cs else c :: cs
      match ds with
      | [] => none
      | _ => (digitsVal 0 ds).bind fun n => if n < 2 ^ 63 then some (n : Int) else none

/-- The call `strings.Split(s, sep)` for a one-byte separator. -/
def splitBytes (sep : Nat) : Bytes → List Bytes
  | [] => [[]]
  | b :: rest =>
    if b = sep then [] :: splitBytes sep rest
    else match splitBytes sep rest with
      | [] => [[b]]
      | seg :: segs => (b :: seg) :: segs

/-! ## Block store keys (`blockstore/block_store.go`, `blockstore/util.go`) -/

/-- The prefix `"H:"` of metadata keys. -/
def calcBlockMetaPrefix : Bytes := [72, 58]

/-- The key `"blockStore"` of the state record holding the recorded height. -/
def blockStoreKey : Bytes := [98, 108, 111, 99, 107, 83, 116, 111, 114, 101]

/-- Metadata key `"H:<height>"`. -/
def calcBlockMetaKey (height : Int) : Bytes := [72, 58] ++ formatInt height

/-- Part key `"P:<height>:<partIndex>"`. -/
def calcBlockPartKey (height : Int) (partIndex : Int) : Bytes :=
  [80, 58] ++ formatInt height ++ [58] ++ formatInt partIndex

/-- Commit key `"C:<height>"`. -/
def calcBlockCommitKey (height : Int) : Bytes := [67, 58] ++ formatInt height

/-- Seen-commit key `"SC:<height>"`. -/
def calcSeenCommitKey (height : Int) : Bytes := [83, 67, 58] ++ formatInt height

/-- Height parsed from the text between the first and the second `:` of a key; 0 when the
key has no `:` or the text does not parse. -/
def getHeightFromKey (key : Bytes) : Int :=
  match splitBytes 58 key with
  | _ :: v1 :: _ =>
    match parseInt64 v1 with
    | some height => height
    | none => 0
  | _ => 0

/-- Result of `prefixRangeEnd`: a byte string, Go nil, or an index-out-of-range fault. -/
inductive RangeEnd where
  | key (k : Bytes)
  | unbounded
  | fault
  deriving DecidableEq, Repr

/-- The loop of `prefixRangeEnd` on the reversed working copy `end` (last byte first). -/
def prefixRangeEndRev : Bytes → RangeEnd
  | [] => .fault
  | last :: front =>
    if last ≠ 255 then .key (front.reverse ++ [last + 1])
    else match front with
      | [] => .unbounded
      | _ => prefixRangeEndRev front

/-- The bytes that mark the end of the key range of a prefix (`none` is a Go nil prefix);
the function is the same in `blockstore/util.go` and `appstore/stats.go`. -/
def prefixRangeEnd : Option Bytes → RangeEnd
  | none => .unbounded
  | some p => prefixRangeEndRev p.reverse

/-! ## Collaborators outside the repository -/

/-- The fields of a block's metadata that the tools read: `BlockID.PartsHeader.Total` and
`BlockID.Hash`. -/
structure BlockMeta where
  partsTotal : Int
  hash : Bytes
  deriving DecidableEq, Repr

/-- The fields of a stored transaction result that the tools read. -/
structure TxResult where
  height : Int
  index : Nat
  deriving DecidableEq, Repr

/-- Tendermint and amino routines called by the source.  A decoder returns `none` where the
Go routine reports an error. -/
structure Collab where
  /-- Amino decoding of a stored block meta. -/
  unmarshalBlockMeta : Bytes → Option BlockMeta
  /-- JSON encoding of the state record `BlockStoreStateJSON` with the given height. -/
  marshalState : Int → Bytes
  /-- JSON decoding of the state record to its height. -/
  unmarshalState : Bytes → Option Int
  /-- Transactions of `LoadBlock(height).Data.Txs`; `none` when `LoadBlock` returns nil or
  panics, in both of which the caller faults. -/
  loadBlockTxs : DB → Int → Option (List Bytes)
  /-- Hash of a transaction, `tx.Hash()`. -/
  txHash : Bytes → Bytes
  /-- Amino decoding of a stored transaction result. -/
  unmarshalTxResult : Bytes → Option TxResult
  /-- The constant `types.TxHeightKey`. -/
  txHeightKey : Bytes

/-- What `LoadBlockMeta` yields: Go nil, a decoded meta, or a panic on undecodable bytes. -/
inductive Loaded where
  | missing
  | found (m : BlockMeta)
  | corrupt
  deriving DecidableEq, Repr

/-- The Tendermint `LoadBlockMeta`: nil when the stored value is absent or empty, a panic
when it does not decode. -/
def LoadBlockMeta (c : Collab) (db : DB) (height : Int) : Loaded :=
  match DB.get db (calcBlockMetaKey height) with
  | none => .missing
  | some bz =>
    if bz.length = 0 then .missing
    else match c.unmarshalBlockMeta bz with
      | none => .corrupt
      | some m => .found m

/-- The recorded height `bs.Height()`: 0 when the state record is absent or empty, `none`
when decoding it panics. -/
def Height (c : Collab) (db : DB) : Option Int :=
  match DB.get db blockStoreKey with
  | none => some 0
  | some bz => if bz.length = 0 then some 0 else c.unmarshalState bz

/-- The `Save` of the state record with the given height. -/
def saveState (c : Collab) (db : DB) (height : Int) : DB :=
  DB.set db blockStoreKey (c.marshalState height)

/-! ## Transaction index (`blockstore/tx_index_store.go`) -/

/-- Key `"<TxHeightKey>/<height>/<height>/<index>"`. -/
def txIndexHeightKey (c : Collab) (result : TxResult) : Bytes :=
  c.txHeightKey ++ [47] ++ formatInt result.height ++ [47] ++ formatInt result.height
    ++ [47] ++ formatInt (result.index : Int)

/-- The loop of `TxIndexStore.Delete`: the batch it builds, `none` on a decoding error. -/
def txDeleteBatch (c : Collab) (txIndexDB : DB) : List Bytes → List Op → Option (List Op)
  | [], batch => some batch
  | tx :: rest, batch =>
    match DB.get txIndexDB (c.txHash tx) with
    | none => txDeleteBatch c txIndexDB rest batch
    | some rawTxResult =>
      if rawTxResult.length > 0 then
        match c.unmarshalTxResult rawTxResult with
        | none => none
        | some txResult =>
          txDeleteBatch c txIndexDB rest
            (batch ++ [Op.del (c.txHash tx), Op.del (txIndexHeightKey c txResult)])
      else txDeleteBatch c txIndexDB rest batch

/-- The method `TxIndexStore.Delete`: the store after the batch is written, `none` when it
returns an error (nothing is written then). -/
def TxIndexStore.Delete (c : Collab) (txIndexDB : DB) (txs : List Bytes) : Option DB :=
  (txDeleteBatch c txIndexDB txs []).map (DB.write txIndexDB)

/-! ## Rollback and purge (`blockstore/block_store.go`) -/

/-- How a run of `Rollback` or `Purge` ends. -/
inductive Outcome where
  /-- Returned nil. -/
  | ok
  /-- Returned the error of the height check against the recorded height. -/
  | rangeError
  /-- Returned the error `no block below block`. -/
  | nothingBelow
  /-- Returned an error of reopening or compacting the store. -/
  | compactionError
  /-- Returned the error of `TxIndexStore.Delete`. -/
  | txIndexError
  /-- Panicked. -/
  | fault
  /-- The int64 loop counter of `Purge` wrapped around and a further pass over all int64
  heights did not end the loop; the run is followed no further. -/
  | wrapped
  deriving DecidableEq, Repr

/-- End state of a run: how it ended, the block store and the tx index (when one is given). -/
structure Result where
  outcome : Outcome
  blockDB : DB
  txIndexDB : Option DB
  deriving DecidableEq, Repr

/-- The heights `hi, hi-1, ...`, `n` of them: the values of a descending loop counter. -/
def descFrom (hi : Int) : Nat → List Int
  | 0 => []
  | n + 1 => hi :: descFrom (hi - 1) n

/-- The deletions queued for one height: metadata, parts `0 .. total-1`, the commit keyed by
`height - 1`, the seen commit. -/
def deleteBlockOps (height : Int) (total : Int) : List Op :=
  [Op.del (calcBlockMetaKey height)]
    ++ (List.range total.toNat).map (fun i : Nat => Op.del (calcBlockPartKey height (i : Int)))
    ++ [Op.del (calcBlockCommitKey (height - 1)), Op.del (calcSeenCommitKey height)]

/-- The loop of `Rollback` over the heights it visits: the batch and the collected
transactions, `none` when an iteration panics (nil or undecodable meta, nil block). -/
def rollbackLoop (c : Collab) (db : DB) (withTxIndex : Bool) :
    List Int → List Op × List Bytes → Option (List Op × List Bytes)
  | [], acc => some acc
  | height :: rest, (batch, txs) =>
    match LoadBlockMeta c db height with
    | .found m =>
      match (if withTxIndex then c.loadBlockTxs db height else some []) with
      | none => none
      | some blockTxs =>
        rollbackLoop c db withTxIndex rest
          (batch ++ deleteBlockOps height m.partsTotal, txs ++ blockTxs)
    | _ => none

/-- The method `BlockStore.Rollback(targetHeight, txIndexStore)`; `txIndexDB = none` is a
nil `txIndexStore`. -/
def Rollback (c : Collab) (db : DB) (txIndexDB : Option DB) (targetHeight : Int) : Result :=
  match Height c db with
  | none => ⟨.fault, db, txIndexDB⟩
  | some latestHeight =>
    if targetHeight ≥ latestHeight then ⟨.rangeError, db, txIndexDB⟩
    else
      match rollbackLoop c db txIndexDB.isSome
          (descFrom latestHeight (latestHeight - targetHeight).toNat) ([], []) with
      | none => ⟨.fault, db, txIndexDB⟩
      | some (batch, txs) =>
        let db1 := saveState c (DB.write db batch) targetHeight
        match txIndexDB with
        | none => ⟨.ok, db1, none⟩
        | some tdb =>
          match TxIndexStore.Delete c tdb txs with
          | none => ⟨.txIndexError, db1, some tdb⟩
          | some tdb1 => ⟨.ok, db1, some tdb1⟩

/-- The oldest height as `Purge` computes it: `getHeightFromKey` of the first key the
iterator over `["H:", prefixRangeEnd("H:"))` yields, -1 when it yields none. -/
def oldestHeight (db : DB) : Int :=
  let keys :=
    match prefixRangeEnd (some calcBlockMetaPrefix) with
    | .key e => DB.Iterator db calcBlockMetaPrefix (some e)
    | _ => DB.Iterator db calcBlockMetaPrefix none
  match keys with
  | [] => -1
  | oldestBlockMetaKey :: _ => getHeightFromKey oldestBlockMetaKey

/-- The variables of the purge loop: the store (with the batches written so far), the
pending batch, the collected transactions and the count of purged heights. -/
structure PurgeState where
  db : DB
  batch : List Op
  txs : List Bytes
  numHeight : Int
  deriving DecidableEq, Repr

/-- How the purge loop is left. -/
inductive LoopExit where
  /-- The loop condition failed: every height was visited. -/
  | finished
  /-- The `break` at a missing height. -/
  | broke
  /-- A panic: nil or undecodable meta, nil block, or `numHeight % 0`. -/
  | panicked
  deriving DecidableEq, Repr

/-- The int64 expression `height - 1` for an int64 `height`: it wraps from `-2^63` to
`2^63 - 1`. -/
def subOneInt64 (height : Int) : Int :=
  if height = -(2 : Int) ^ 63 then 2 ^ 63 - 1 else height - 1

/-- The deletions one iteration of `Purge` queues: metadata, parts `0 .. total-1`, the commit
keyed by the int64 `height - 1`, the seen commit.  Unlike the loop of `Rollback`, whose
heights lie above the target, this loop can visit the height `-2^63`. -/
def purgeBlockOps (height : Int) (total : Int) : List Op :=
  [Op.del (calcBlockMetaKey height)]
    ++ (List.range total.toNat).map (fun i : Nat => Op.del (calcBlockPartKey height (i : Int)))
    ++ [Op.del (calcBlockCommitKey (subOneInt64 height)), Op.del (calcSeenCommitKey height)]

/-- The loop of `Purge` over the heights it visits, in visiting order. -/
def purgeLoop (c : Collab) (withTxIndex : Bool) (batchSize : Int) (skipMissing : Bool) :
    List Int → PurgeState → PurgeState × LoopExit
  | [], st => (st, .finished)
  | height :: rest, st =>
    if !DB.has st.db (calcBlockMetaKey height) then
      if skipMissing then purgeLoop c withTxIndex batchSize skipMissing rest st
      else (st, .broke)
    else
      match LoadBlockMeta c st.db height with
      | .found m =>
        match (if withTxIndex then c.loadBlockTxs st.db height else some []) with
        | none => (st, .panicked)
        | some blockTxs =>
          let batch := st.batch ++ purgeBlockOps height m.partsTotal
          if batchSize = 0 then (st, .panicked)
          else if Int.tmod st.numHeight batchSize = 0 then
            purgeLoop c withTxIndex batchSize skipMissing rest
              ⟨DB.write st.db batch, [], st.txs ++ blockTxs, st.numHeight + 1⟩
          else
            purgeLoop c withTxIndex batchSize skipMissing rest
              ⟨st.db, batch, st.txs ++ blockTxs, st.numHeight + 1⟩
      | _ => (st, .panicked)

/-- The part of `Purge` after its loop: the final `WriteSync`, the compaction unless
skipped (`reopenOk` and `compactOk` say whether reopening the store and `CompactRange`
succeed) and the tx index deletion. -/
def purgeFinish (c : Collab) (st : PurgeState) (txIndexDB : Option DB)
    (skipCompaction reopenOk compactOk : Bool) : Result :=
  let db1 := DB.write st.db st.batch
  if !skipCompaction && !(reopenOk && compactOk) then ⟨.compactionError, db1, txIndexDB⟩
  else
    match txIndexDB with
    | none => ⟨.ok, db1, none⟩
    | some tdb =>
      match TxIndexStore.Delete c tdb st.txs with
      | none => ⟨.txIndexError, db1, some tdb⟩
      | some tdb1 => ⟨.ok, db1, some tdb1⟩

/-- The deletion loop of `Purge` and what follows it, entered once both checks have passed.
The loop counter is an int64 running from `targetHeight - 1` down to the computed oldest
height.  When that height is `-2^63` the test `height >= oldestHeight` never fails: the
counter wraps to `2^63 - 1` and the loop goes on.  The run is then followed through one
further pass over all int64 heights, and a loop not left by then ends in `Outcome.wrapped`. -/
def purgeRun (c : Collab) (db : DB) (txIndexDB : Option DB) (targetHeight batchSize : Int)
    (skipMissing skipCompaction : Bool) (reopenOk compactOk : Bool) : Result :=
  if oldestHeight db = -(2 : Int) ^ 63 then
    match purgeLoop c txIndexDB.isSome batchSize skipMissing
        (descFrom (targetHeight - 1) (targetHeight - oldestHeight db).toNat
          ++ descFrom (2 ^ 63 - 1) (2 ^ 64))
        ⟨db, [], [], 0⟩ with
    | (st, .panicked) => ⟨.fault, st.db, txIndexDB⟩
    | (st, .broke) => purgeFinish c st txIndexDB skipCompaction reopenOk compactOk
    | (st, .finished) => ⟨.wrapped, st.db, txIndexDB⟩
  else
    match purgeLoop c txIndexDB.isSome batchSize skipMissing
        (descFrom (targetHeight - 1) (targetHeight - oldestHeight db).toNat)
        ⟨db, [], [], 0⟩ with
    | (st, .panicked) => ⟨.fault, st.db, txIndexDB⟩
    | (st, .broke) => purgeFinish c st txIndexDB skipCompaction reopenOk compactOk
    | (st, .finished) => purgeFinish c st txIndexDB skipCompaction reopenOk compactOk

/-- The method `BlockStore.Purge`; `txIndexDB = none` is a nil `txIndexStore`.  `logLevel`
only sets how often progress is logged and does not enter the result. -/
def Purge (c : Collab) (db : DB) (txIndexDB : Option DB) (targetHeight batchSize : Int)
    (_logLevel : Int) (skipMissing skipCompaction : Bool) (reopenOk compactOk : Bool) :
    Result :=
  match Height c db with
  | none => ⟨.fault, db, txIndexDB⟩
  | some latestHeight =>
    if targetHeight > latestHeight then ⟨.rangeError, db, txIndexDB⟩
    else if oldestHeight db ≥ targetHeight then ⟨.nothingBelow, db, txIndexDB⟩
    else purgeRun c db txIndexDB targetHeight batchSize skipMissing skipCompaction
      reopenOk compactOk

/-! ## EVM state extraction (`appstore/copy_vm.go`, `appstore/util.go`) -/

/-- The constant `prefixStart = "vm"`. -/
def prefixStart : Bytes := [118, 109]

/-- The constant `prefixEnd = "vn"`. -/
def prefixEnd : Bytes := [118, 110]

/-- The constant `rootKey = "vmroot"`. -/
def rootKey : Bytes := [118, 109, 114, 111, 111, 116]

/-- The constant `evmRootPrefix = "evmroot"`. -/
def evmRootPrefix : Bytes := [101, 118, 109, 114, 111, 111, 116]

/-- The value `defaultRoot = []byte{1}`. -/
def defaultRoot : Bytes := [1]

/-- Whether `key` starts with `prefix` followed by a zero byte; false for an empty prefix. -/
def hasPrefix (key pre : Bytes) : Bool :=
  if pre.length = 0 then false else bytesHasPrefix key (pre ++ [0])

/-- The append loop of `prefixKey`: the parts with one zero byte between neighbours. -/
def joinKeys : List Bytes → Bytes
  | [] => []
  | [k] => k
  | k :: rest => k ++ 0 :: joinKeys rest

/-- The function `prefixKey(keys...)`; `none` for no argument at all, where the negative
capacity `len(keys) - 1` makes `make` panic. -/
def prefixKey (keys : List Bytes) : Option Bytes :=
  if keys.length = 0 then none else some (joinKeys keys)

/-- The 8 bytes `binary.BigEndian.PutUint64` writes. -/
def uint64ToByteBigEndian (height : Nat) : Bytes :=
  [height / 2 ^ 56 % 256, height / 2 ^ 48 % 256, height / 2 ^ 40 % 256,
   height / 2 ^ 32 % 256, height / 2 ^ 24 % 256, height / 2 ^ 16 % 256,
   height / 2 ^ 8 % 256, height % 256]

/-- The conversion `uint64(x)` of an int64. -/
def uint64OfInt (x : Int) : Nat := (x % 2 ^ 64).toNat

/-- The conversion `int(x)` of a uint64. -/
def intOfUint64 (x : Nat) : Int :=
  if x % 2 ^ 64 < 2 ^ 63 then (x % 2 ^ 64 : Nat) else (x % 2 ^ 64 : Nat) - 2 ^ 64

/-- The key `"vm" 0x00 "evmroot" 0x00 <8-byte big-endian height>`. -/
def evmRootKey (blockHeight : Int) : Bytes :=
  match prefixKey [prefixStart, evmRootPrefix, uint64ToByteBigEndian (uint64OfInt blockHeight)] with
  | some k => k
  | none => []

/-- A loaded tree version: its number and its leaves ascending by key, a Go nil value being
`none`. -/
structure Tree where
  version : Int
  leaves : List (Bytes × Option Bytes)
  deriving DecidableEq, Repr

/-- The leaves `IterateRange(start, end, true, fn)` passes to the callback, in order: those
with `start <= key < end`. -/
def Tree.rangeLeaves (t : Tree) (start stop : Bytes) : List (Bytes × Option Bytes) :=
  t.leaves.filter fun e => bytesLe start e.1 && bytesLt e.1 stop

/-- The variables of the copy loop: destination store, pending batch, keys counted, and the
number of `Write` calls made on the destination. -/
structure CopyState where
  dest : DB
  batch : List Op
  numKeys : Nat
  writes : Nat
  deriving DecidableEq, Repr

/-- The bytes a batch `Put` stores for a Go value: nil is stored as the empty value. -/
def putValue (value : Option Bytes) : Bytes := value.getD []

/-- The callback of `CopyEvmToLevelDb` run over the visited leaves.  `writeFails n` says
whether the destination `Write` that follows `n` earlier ones fails; the flag returned is
true when the callback panics, which it does on a failed write by assigning through the
nil pointer `itError`. -/
def copyEvmLoop (writeFails : Nat → Bool) (appVersion : Int) (batchSize : Nat) :
    List (Bytes × Option Bytes) → CopyState → CopyState × Bool
  | [], st => (st, false)
  | (key, value) :: rest, st =>
    if !hasPrefix key prefixStart then copyEvmLoop writeFails appVersion batchSize rest st
    else
      let numKeys := st.numKeys + 1
      let isRoot := decide (prefixKey [prefixStart, rootKey] = some key)
      let value1 := if isRoot && value.isNone then some defaultRoot else value
      let batch0 :=
        if isRoot then st.batch ++ [Op.put (evmRootKey appVersion) (putValue value1)]
        else st.batch
      let batch := batch0 ++ [Op.put key (putValue value1)]
      if (batch.length : Int) > intOfUint64 batchSize then
        if writeFails st.writes then (⟨st.dest, batch, numKeys, st.writes + 1⟩, true)
        else
          copyEvmLoop writeFails appVersion batchSize rest
            ⟨DB.write st.dest batch, [], numKeys, st.writes + 1⟩
      else copyEvmLoop writeFails appVersion batchSize rest ⟨st.dest, batch, numKeys, st.writes⟩

/-- How a run of `CopyEvmToLevelDb` ends. -/
inductive CopyOutcome where
  /-- Returned nil. -/
  | ok
  /-- Returned the wrapped error of the final `Write`. -/
  | writeError
  /-- Panicked. -/
  | fault
  deriving DecidableEq, Repr

/-- The function `CopyEvmToLevelDb` from the point where the source tree version is loaded
and the destination store is open: the way it ends and the destination store.  `logLevel`
only sets how often progress is logged. -/
def CopyEvmToLevelDb (writeFails : Nat → Bool) (tree : Tree) (destDB : DB)
    (batchSize _logLevel : Nat) : CopyOutcome × DB :=
  match copyEvmLoop writeFails tree.version batchSize (tree.rangeLeaves prefixStart prefixEnd)
      ⟨destDB, [], 0, 0⟩ with
  | (st, true) => (.fault, st.dest)
  | (st, false) =>
    let batch :=
      if st.numKeys = 0 then st.batch ++ [Op.put (evmRootKey tree.version) defaultRoot]
      else st.batch
    if writeFails st.writes then (.writeError, st.dest)
    else (.ok, DB.write st.dest batch)


/-! ## Predicates used by the statements -/

/-- The keys whose deletion `deleteBlockOps` queues for one height. -/
def blockKeys (height total : Int) : List Bytes :=
  [calcBlockMetaKey height]
    ++ (List.range total.toNat).map (fun i : Nat => calcBlockPartKey height (i : Int))
    ++ [calcBlockCommitKey (height - 1), calcSeenCommitKey height]

/-- The part total declared by the metadata stored at a height (0 when none is found). -/
def declaredTotal (c : Collab) (db : DB) (k : Int) : Int :=
  match LoadBlockMeta c db k with
  | .found m => m.partsTotal
  | _ => 0

/-- The store holds no record of a block group above height `h`: no metadata, seen-commit or
part key of a height `k > h`, and no commit key `C:k` with `k >= h` (the commit of the group
of `k + 1`). -/
def NoGroupAbove (db : DB) (h : Int) : Prop :=
  ∀ k : Int,
    (h < k → DB.has db (calcBlockMetaKey k) = false ∧ DB.has db (calcSeenCommitKey k) = false
      ∧ ∀ i : Int, DB.has db (calcBlockPartKey k i) = false)
    ∧ (h ≤ k → DB.has db (calcBlockCommitKey k) = false)

/-- Every part record stored for a height in `(lo, hi]` has an index from 0 up to, not
including, the part total its metadata declares. -/
def PartsWithinTotal (c : Collab) (db : DB) (lo hi : Int) : Prop :=
  ∀ k i : Int, lo < k → k ≤ hi → DB.has db (calcBlockPartKey k i) = true →
    0 ≤ i ∧ i < declaredTotal c db k

/-- The state record written for height `h` reads back as `h`. -/
def StateRoundTrip (c : Collab) (h : Int) : Prop :=
  c.marshalState h ≠ [] ∧ c.unmarshalState (c.marshalState h) = some h


/-! ## Sample collaborators and stores -/

/-- A concrete set of collaborators: a block meta is stored as its part total followed by
its hash, the state record as `{` followed by the decimal height, a block carries one
transaction (the bytes of its part 0), a transaction is its own hash, and a transaction
result is stored as the two bytes height and index. -/
def sampleCollab : Collab where
  unmarshalBlockMeta := fun bz =>
    match bz with
    | [] => none
    | total :: hash => if total < 128 then some ⟨(total : Int), hash⟩ else none
  marshalState := fun h => 123 :: formatInt h
  unmarshalState := fun bz =>
    match bz with
    | 123 :: rest => parseInt64 rest
    | _ => none
  loadBlockTxs := fun db height => (DB.get db (calcBlockPartKey height 0)).map fun p => [p]
  txHash := fun tx => tx
  unmarshalTxResult := fun raw =>
    match raw with
    | [height, index] => some ⟨(height : Int), index⟩
    | _ => none
  txHeightKey := [116, 120, 46, 104, 101, 105, 103, 104, 116]

/-- The records of one block group: metadata declaring `declared` parts, the parts
`0 .. stored-1`, the commit keyed by `height - 1` and the seen commit. -/
def sampleBlock (height : Int) (declared stored : Nat) : DB :=
  [(calcBlockMetaKey height, [declared])]
    ++ (List.range stored).map (fun i : Nat => (calcBlockPartKey height (i : Int), [7]))
    ++ [(calcBlockCommitKey (height - 1), [8]), (calcSeenCommitKey height, [9])]

/-- A block store with the given recorded height and block groups
`(height, declared parts, stored parts)`. -/
def sampleStore (recorded : Int) (blocks : List (Int × Nat × Nat)) : DB :=
  (blockStoreKey, sampleCollab.marshalState recorded)
    :: blocks.flatMap fun b => sampleBlock b.1 b.2.1 b.2.2

/-- The block store with complete groups of two parts at heights `1 .. 10`, recorded
height 10. -/
def tenBlocks : DB :=
  sampleStore 10 ((List.range 10).map fun i : Nat => ((i : Int) + 1, 2, 2))

/-- A block store at recorded height 1 whose only group declares no part but stores one. -/
def extraPartStore : DB := sampleStore 1 [(1, 0, 1)]

/-- A block store at recorded height 1 with one complete group of one part. -/
def oneBlock : DB := sampleStore 1 [(1, 1, 1)]

/-- A tx index whose entry for the transaction of `oneBlock` does not decode. -/
def badTxIndex : DB := [([7], [1, 2, 3])]

/-- Whether a run ended by returning an error value. -/
def Outcome.isError : Outcome → Bool
  | .rangeError => true
  | .nothingBelow => true
  | .compactionError => true
  | .txIndexError => true
  | _ => false

/-- A key of the forms `Purge` with target `t` may delete: `H:k`, `SC:k`, `P:k:i` with
`k < t`, or `C:k` with `k < t - 1`. -/
def PurgeKey (t : Int) (key : Bytes) : Prop :=
  ∃ k : Int, (k < t ∧ (key = calcBlockMetaKey k ∨ key = calcSeenCommitKey k
      ∨ ∃ i : Int, key = calcBlockPartKey k i))
    ∨ (k < t - 1 ∧ key = calcBlockCommitKey k)

/-- A block store at recorded height 10 holding the groups of heights 9 and 10. -/
def nineTen : DB := sampleStore 10 [(9, 1, 1), (10, 1, 1)]

/-- A block store at recorded height 5 holding the group of height 1 only. -/
def gapStore : DB := sampleStore 5 [(1, 1, 1)]

/-- The purge loop has so far written and queued only deletions of keys `Purge` with target
`t` may delete. -/
def PurgeInv (db0 : DB) (t : Int) (st : PurgeState) : Prop :=
  ∃ flushed pending : List Bytes,
    st.db = DB.write db0 (flushed.map Op.del) ∧ st.batch = pending.map Op.del
      ∧ ∀ key ∈ flushed ++ pending, PurgeKey t key

/-- A block store at recorded height 10 whose only group sits at height `-2^63` (one part),
together with the commit record `C:9223372036854775807`. -/
def minHeightStore : DB :=
  [(blockStoreKey, sampleCollab.marshalState 10),
    (calcBlockMetaKey (-(2 : Int) ^ 63), [1]),
    (calcBlockPartKey (-(2 : Int) ^ 63) 0, [7]),
    (calcSeenCommitKey (-(2 : Int) ^ 63), [9]),
    (calcBlockCommitKey (2 ^ 63 - 1), [8])]

/-- The heights whose groups the purge loop deletes among the heights it is to visit, judged
on the store as it was before the call: with `skipMissing` those that hold a metadata key,
otherwise those visited before the first that holds none. -/
def purgedHeights (db0 : DB) (skipMissing : Bool) (hs : List Int) : List Int :=
  if skipMissing then hs.filter fun k => DB.has db0 (calcBlockMetaKey k)
  else hs.takeWhile fun k => DB.has db0 (calcBlockMetaKey k)

/-- A block store at recorded height 10 holding complete groups of two parts at the heights
1..4 and 6..10; height 5 is missing. -/
def gappedBlocks : DB :=
  sampleStore 10 ([1, 2, 3, 4, 6, 7, 8, 9, 10].map fun k : Int => (k, 2, 2))

/-- A block store at recorded height 2 whose group of height 1 declares no part but stores
one, and whose group of height 2 is complete. -/
def extraPartBelow : DB := sampleStore 2 [(1, 0, 1), (2, 1, 1)]

/-- The puts the callback of `CopyEvmToLevelDb` queues for one leaf that has the prefix: the
evmroot record first when the key is `"vm" 0x00 "vmroot"`, then the leaf itself. -/
def entryPuts (appVersion : Int) (key : Bytes) (value : Option Bytes) : List Op :=
  let isRoot := decide (prefixKey [prefixStart, rootKey] = some key)
  let value1 := if isRoot && value.isNone then some defaultRoot else value
  (if isRoot then [Op.put (evmRootKey appVersion) (putValue value1)] else [])
    ++ [Op.put key (putValue value1)]

/-- The puts the callback queues over the visited leaves, in order. -/
def copyPuts (appVersion : Int) : List (Bytes × Option Bytes) → List Op
  | [] => []
  | (key, value) :: rest =>
    if hasPrefix key prefixStart then entryPuts appVersion key value ++ copyPuts appVersion rest
    else copyPuts appVersion rest

/-- The number of visited leaves that have the prefix: the final `numKeys`. -/
def countCopied (leaves : List (Bytes × Option Bytes)) : Nat :=
  (leaves.filter fun e => hasPrefix e.1 prefixStart).length

/-- The three bytes `"vm" 0x00`. -/
def vmSeparator : Bytes := [118, 109, 0]

/-- The tree of `TestCopyEvmToLevelDb`: its 15 records in key order, saved as version 1. -/
def testTree : Tree where
  version := 1
  leaves := [
    ([98, 101, 102, 111, 114, 101], some [97, 97]),
    ([118, 108], some [98, 98]),
    ([118, 109], some [99, 99]),
    ([118, 109, 0], some [100, 100]),
    ([118, 109, 0, 49], some [101, 101]),
    ([118, 109, 0, 102, 102, 102, 102], some [102, 102]),
    ([118, 109, 0, 103, 103, 103], some [103, 103]),
    ([118, 109, 0, 104, 104, 104], some [104, 104]),
    ([118, 109, 95, 102, 102, 102, 102], some [102, 102]),
    ([118, 109, 113], some [100, 100]),
    ([118, 110], some [105, 105]),
    ([118, 110, 0, 50], some [108, 108]),
    ([118, 110, 95], some [107, 107]),
    ([118, 110, 95, 50], some [108, 108]),
    ([122, 95, 97, 102, 116, 101, 114], some [106, 106])]

/-- The tree of the scenario: keys `"vm"`, `"vm" 0x00 "0"`, `"vn"` with the given values. -/
def scenarioTree (v : Int) (a b c : Option Bytes) : Tree where
  version := v
  leaves := [([118, 109], a), ([118, 109, 0, 48], b), ([118, 110], c)]

/-- A tree at version 5 holding `"vl"`, `"vm"`, `"vmq"` and `"vn"`: no key begins with
`"vm" 0x00`. -/
def emptyEvmTree : Tree where
  version := 5
  leaves := [([118, 108], some [1]), ([118, 109], some [2]), ([118, 109, 113], some [3]),
    ([118, 110], some [4])]

/-! ## Key codec (`appstore/util.go`, `appstore/extract_kvs.go`) -/

/-- Every value of the byte string is a byte. -/
def IsBytes (b : Bytes) : Prop := ∀ x ∈ b, x < 256

/-- The function `unprefixKey(key, prefix)`: the bytes of `key` from index
`len(prefix) + 1` on, `none` for the error returned when `len(prefix) + 1 > len(key)`. -/
def unprefixKey (key pre : Bytes) : Option Bytes :=
  if pre.length + 1 > key.length then none else some (key.drop (pre.length + 1))

/-- The exported `PrefixKey(keys...)` of `extract_kvs.go`, its append loop run over the
indexed arguments; `none` for no argument at all, where the negative capacity
`len(keys) - 1` makes `make` panic. -/
def PrefixKey (keys : List Bytes) : Option Bytes :=
  if keys.length = 0 then none
  else some (keys.enum.foldl
    (fun buf ik => (if ik.1 > 0 then buf ++ [0] else buf) ++ ik.2) [])

/-- The call `binary.LittleEndian.Uint64(b)`: the value of the first 8 bytes, least
significant first; `none` for the index-out-of-range panic on fewer than 8 bytes. -/
def byteToUint64LittleEndian : Bytes → Option Nat
  | b0 :: b1 :: b2 :: b3 :: b4 :: b5 :: b6 :: b7 :: _ =>
    some (b0 + b1 * 2 ^ 8 + b2 * 2 ^ 16 + b3 * 2 ^ 24 + b4 * 2 ^ 32 + b5 * 2 ^ 40
      + b6 * 2 ^ 48 + b7 * 2 ^ 56)
  | _ => none

/-- What `formatPrefixes` yields: a key, its error value, or a panic. -/
inductive Formatted where
  | ok (key : Bytes)
  | error
  | fault
  deriving DecidableEq, Repr

/-- The function `formatPrefixes(key, oldPrefix, newPrefix)`: strip the old prefix and its
separator, read what follows as a little-endian uint64, and join the new prefix with the
big-endian bytes of that number. -/
def formatPrefixes (key oldPrefix newPrefix : Bytes) : Formatted :=
  match unprefixKey key oldPrefix with
  | none => .error
  | some heightByteL =>
    match byteToUint64LittleEndian heightByteL with
    | none => .fault
    | some height =>
      match prefixKey [newPrefix, uint64ToByteBigEndian height] with
      | some k => .ok k
      | none => .fault

/-- Whether `k` lies in the half-open interval from `p` to a range end; a nil end is no
upper bound. -/
def inPrefixRange (p : Bytes) (stop : RangeEnd) (k : Bytes) : Bool :=
  bytesLe p k && (match stop with
    | .key e => bytesLt k e
    | .unbounded => true
    | .fault => false)

/-- The range end of a prefix read from its front: the prefix with its trailing 255s cut
and the byte before them raised by one, `none` when every byte is 255. -/
def rangeEndFront : Bytes → Option Bytes
  | [] => none
  | a :: rest =>
    match rangeEndFront rest with
    | some e => some (a :: e)
    | none => if a ≠ 255 then some [a + 1] else none

/-- The keys `TxIndexStore.Delete` queues for deletion: for each transaction whose primary
entry is present, non-empty and decodes, the hash key and the height key of the result. -/
def txDeleteKeys (c : Collab) (txIndexDB : DB) : List Bytes → List Bytes
  | [] => []
  | tx :: rest =>
    (match DB.get txIndexDB (c.txHash tx) with
      | none => []
      | some rawTxResult =>
        if rawTxResult.length > 0 then
          match c.unmarshalTxResult rawTxResult with
          | none => []
          | some txResult => [c.txHash tx, txIndexHeightKey c txResult]
        else []) ++ txDeleteKeys c txIndexDB rest

/-- A tx index holding the result (height 1, index 0) of the transaction `[7]`, its height
key, and an unrelated record. -/
def sampleTxIndex : DB :=
  [([7], [1, 0]), (txIndexHeightKey sampleCollab ⟨1, 0⟩, [7]), ([9], [5, 5])]

/-! ## EVM auxiliary extraction (`appstore/copy_evm_auxiliary.go`) -/

/-- The constant `bfPrefixStart = "bloomFilter"`. -/
def bfPrefixStart : Bytes := [98, 108, 111, 111, 109, 70, 105, 108, 116, 101, 114]

/-- The constant `bfPrefixEnd = "bloomFiltes"`. -/
def bfPrefixEnd : Bytes := [98, 108, 111, 111, 109, 70, 105, 108, 116, 101, 115]

/-- The constant `txHashPrefixStart = "txHash"`. -/
def txHashPrefixStart : Bytes := [116, 120, 72, 97, 115, 104]

/-- The constant `txHashPrefixEnd = "txHasi"`. -/
def txHashPrefixEnd : Bytes := [116, 120, 72, 97, 115, 105]

/-- The constant `newBfPrefix = "bf"`. -/
def newBfPrefix : Bytes := [98, 102]

/-- The constant `newThPrefix = "th"`. -/
def newThPrefix : Bytes := [116, 104]

/-- The callback of one scan of `CopyEvmAuxiliary` run over the visited leaves.  The flag
returned is true when the callback panics: in `formatPrefixes`, or on a failed write by
assigning through the nil pointer `itError`. -/
def auxLoop (writeFails : Nat → Bool) (batchSize : Nat) (oldPrefix newPrefix : Bytes) :
    List (Bytes × Option Bytes) → CopyState → CopyState × Bool
  | [], st => (st, false)
  | (key, value) :: rest, st =>
    if !hasPrefix key oldPrefix then auxLoop writeFails batchSize oldPrefix newPrefix rest st
    else
      let numKeys := st.numKeys + 1
      match formatPrefixes key oldPrefix newPrefix with
      | .error =>
        auxLoop writeFails batchSize oldPrefix newPrefix rest
          ⟨st.dest, st.batch, numKeys, st.writes⟩
      | .fault => (⟨st.dest, st.batch, numKeys, st.writes⟩, true)
      | .ok newKey =>
        let batch := st.batch ++ [Op.put newKey (putValue value)]
        if (batch.length : Int) > intOfUint64 batchSize then
          if writeFails st.writes then (⟨st.dest, batch, numKeys, st.writes + 1⟩, true)
          else
            auxLoop writeFails batchSize oldPrefix newPrefix rest
              ⟨DB.write st.dest batch, [], numKeys, st.writes + 1⟩
        else
          auxLoop writeFails batchSize oldPrefix newPrefix rest
            ⟨st.dest, batch, numKeys, st.writes⟩

/-- One scan of `CopyEvmAuxiliary` with the durable write that follows it; the batch is not
reset after that write.  The outcome is `some` when the function returns or panics there. -/
def auxPhase (writeFails : Nat → Bool) (tree : Tree) (batchSize : Nat)
    (start stop oldPrefix newPrefix : Bytes) (st : CopyState) :
    CopyState × Option CopyOutcome :=
  match auxLoop writeFails batchSize oldPrefix newPrefix (tree.rangeLeaves start stop) st with
  | (st1, true) => (st1, some .fault)
  | (st1, false) =>
    if writeFails st1.writes then
      (⟨st1.dest, st1.batch, st1.numKeys, st1.writes + 1⟩, some .writeError)
    else (⟨DB.write st1.dest st1.batch, st1.batch, st1.numKeys, st1.writes + 1⟩, none)

/-- The function `CopyEvmAuxiliary` from the point where the latest tree version is loaded
and the destination store is open: the way it ends and the destination store.  `logLevel`
only sets how often progress is logged. -/
def CopyEvmAuxiliary (writeFails : Nat → Bool) (tree : Tree) (destDB : DB)
    (batchSize _logLevel : Nat) (bloomFilter txHash : Bool) : CopyOutcome × DB :=
  match (if bloomFilter then
      auxPhase writeFails tree batchSize bfPrefixStart bfPrefixEnd bfPrefixStart newBfPrefix
        ⟨destDB, [], 0, 0⟩
    else (⟨destDB, [], 0, 0⟩, none)) with
  | (st1, some o) => (o, st1.dest)
  | (st1, none) =>
    match (if txHash then
        auxPhase writeFails tree batchSize txHashPrefixStart txHashPrefixEnd
          txHashPrefixStart newThPrefix st1
      else (st1, none)) with
    | (st2, some o) => (o, st2.dest)
    | (st2, none) => (.ok, st2.dest)

/-- A tree holding the bloom filter of height 1 and the tx hash list of height 2, both keyed
with a little-endian height. -/
def auxTree : Tree where
  version := 2
  leaves := [
    (bfPrefixStart ++ [0] ++ [1, 0, 0, 0, 0, 0, 0, 0], some [11]),
    (txHashPrefixStart ++ [0] ++ [2, 0, 0, 0, 0, 0, 0, 0], some [22])]

/-! ## Block index (`blockstore/index_blocks.go`) -/

/-- The function `hashKey`: the hash behind the prefix `"BH:"`. -/
def hashKey (hash : Bytes) : Bytes := [66, 72, 58] ++ hash

/-- The variables of the index loop: destination store, pending batch, and the number of
`Write` calls made on the destination. -/
structure IndexState where
  dest : DB
  batch : List Op
  writes : Nat
  deriving DecidableEq, Repr

/-- The loop of `IndexBlockStore` over the heights it visits.  The outcome is `some` when
the function returns or panics inside the loop: a panic on undecodable metadata or on
`height % 0`, the error of a failed batch write. -/
def indexLoop (c : Collab) (blockDB : DB) (writeFails : Nat → Bool) (batchSize : Int) :
    List Nat → IndexState → IndexState × Option CopyOutcome
  | [], st => (st, none)
  | height :: rest, st =>
    match LoadBlockMeta c blockDB (intOfUint64 height) with
    | .corrupt => (st, some .fault)
    | .missing => indexLoop c blockDB writeFails batchSize rest st
    | .found m =>
      let batch := st.batch ++ [Op.put (hashKey m.hash) (uint64ToByteBigEndian height)]
      if uint64OfInt batchSize = 0 then (⟨st.dest, batch, st.writes⟩, some .fault)
      else if height % uint64OfInt batchSize = 0 then
        if writeFails st.writes then (⟨st.dest, batch, st.writes + 1⟩, some .writeError)
        else
          indexLoop c blockDB writeFails batchSize rest
            ⟨DB.write st.dest batch, [], st.writes + 1⟩
      else indexLoop c blockDB writeFails batchSize rest ⟨st.dest, batch, st.writes⟩

/-- The function `IndexBlockStore` from the point where the block store and the destination
store are open: the way it ends and the destination store.  The loop runs over the heights
`1 .. uint64(Height) - 1`; `logLevel` only sets how often progress is logged. -/
def IndexBlockStore (c : Collab) (blockDB : DB) (writeFails : Nat → Bool) (destDB : DB)
    (batchSize _logLevel : Int) : CopyOutcome × DB :=
  match Height c blockDB with
  | none => (.fault, destDB)
  | some latestHeight =>
    match indexLoop c blockDB writeFails batchSize
        (List.range' 1 (uint64OfInt latestHeight - 1)) ⟨destDB, [], 0⟩ with
    | (st, some o) => (o, st.dest)
    | (st, none) =>
      if writeFails st.writes then (.writeError, st.dest)
      else (.ok, DB.write st.dest st.batch)

/-- The ten block hashes of `TestIndexBlockStore`, for the heights 1 to 10. -/
def indexTestHashes : List Bytes := [
    [48, 56, 56, 49, 70, 51, 52, 67, 50, 69, 70, 56, 66, 51, 68, 70, 54, 51, 56, 68, 68,
     66, 51, 53, 65, 51, 66, 49, 66, 55, 66, 52, 67, 53, 67, 53, 48, 70, 48, 67, 66, 51,
     67, 68, 52, 70, 69, 55, 69, 50, 68, 66, 57, 55, 68, 53, 69, 51, 49, 55, 48, 66, 66, 48],
    [49, 49, 69, 48, 48, 68, 56, 69, 66, 68, 50, 56, 69, 67, 54, 55, 52, 52, 50, 67, 50,
     70, 51, 66, 68, 55, 65, 53, 67, 54, 50, 55, 48, 70, 56, 55, 67, 49, 48, 53, 49, 48,
     70, 49, 48, 54, 50, 67, 56, 50, 52, 54, 51, 52, 53, 53, 48, 52, 67, 53, 50, 53, 68, 57],
    [49, 51, 66, 65, 55, 53, 55, 54, 49, 57, 54, 52, 69, 66, 53, 48, 48, 68, 54, 54, 54,
     53, 54, 52, 66, 69, 70, 56, 48, 57, 52, 53, 70, 70, 49, 50, 67, 70, 65, 57, 69, 69,
     53, 53, 54, 57, 52, 50, 65, 56, 57, 50, 57, 53, 52, 65, 69, 48, 55, 66, 53, 57, 54, 65],
    [49, 53, 51, 51, 53, 50, 67, 65, 52, 67, 66, 67, 52, 57, 56, 70, 51, 53, 67, 53, 69,
     69, 49, 48, 56, 53, 52, 54, 49, 55, 70, 54, 52, 65, 49, 66, 69, 69, 70, 68, 55, 53,
     68, 48, 54, 70, 67, 55, 68, 70, 49, 65, 69, 52, 70, 55, 54, 53, 68, 49, 54, 69, 67, 50],
    [49, 55, 70, 52, 66, 54, 49, 65, 53, 65, 69, 50, 53, 53, 56, 54, 69, 55, 70, 53, 49,
     65, 56, 69, 65, 67, 49, 66, 66, 70, 50, 48, 57, 55, 68, 56, 54, 49, 68, 53, 55, 65,
     69, 55, 52, 70, 55, 54, 53, 48, 54, 65, 54, 68, 69, 67, 68, 53, 67, 51, 50, 49, 52, 69],
    [50, 70, 49, 55, 48, 65, 51, 69, 49, 54, 70, 57, 53, 48, 53, 49, 56, 68, 52, 69, 56,
     65, 55, 69, 51, 66, 53, 55, 48, 50, 57, 54, 67, 56, 55, 65, 70, 66, 70, 51, 57, 66,
     48, 57, 50, 55, 53, 53, 69, 70, 70, 48, 52, 53, 65, 54, 56, 50, 55, 69, 57, 56, 49, 53],
    [51, 53, 48, 67, 48, 65, 65, 68, 69, 53, 49, 51, 53, 49, 67, 49, 49, 65, 51, 53, 52,
     50, 66, 70, 57, 50, 68, 66, 66, 55, 66, 50, 68, 50, 65, 53, 65, 51, 66, 69, 51, 48,
     49, 53, 52, 52, 52, 70, 52, 70, 68, 56, 69, 68, 57, 50, 57, 51, 70, 57, 56, 70, 53, 57],
    [51, 53, 50, 57, 56, 54, 51, 57, 48, 54, 49, 65, 51, 57, 67, 68, 67, 49, 53, 56, 54,
     67, 70, 68, 68, 68, 66, 69, 48, 69, 52, 52, 53, 48, 50, 54, 54, 54, 66, 69, 50, 54,
     53, 55, 69, 57, 50, 54, 53, 66, 56, 53, 69, 48, 51, 49, 56, 70, 57, 54, 55, 68, 56, 56],
    [51, 69, 65, 49, 50, 69, 53, 51, 50, 53, 70, 55, 70, 52, 55, 70, 48, 56, 52, 55, 65,
     56, 70, 56, 66, 50, 70, 68, 48, 53, 51, 51, 55, 70, 70, 70, 52, 65, 55, 48, 57, 55,
     55, 69, 69, 51, 51, 68, 50, 52, 50, 54, 67, 57, 70, 51, 53, 55, 53, 51, 49, 51, 70, 51],
    [51, 69, 67, 48, 54, 56, 52, 57, 49, 66, 51, 65, 65, 54, 57, 69, 67, 53, 49, 54, 48,
     67, 56, 65, 50, 70, 66, 54, 51, 49, 55, 49, 50, 52, 69, 48, 57, 49, 49, 48, 48, 55,
     48, 52, 70, 49, 54, 68, 52, 53, 67, 70, 50, 54, 51, 69, 65, 57, 54, 70, 57, 70, 70, 50]]

/-- The block store of `TestIndexBlockStore`: recorded height 11 and, at each height from 1
to 10, a metadata record carrying the hash of that height. -/
def indexTestStore : DB :=
  (blockStoreKey, sampleCollab.marshalState 11)
    :: indexTestHashes.enum.map fun ih => (calcBlockMetaKey ((ih.1 : Int) + 1), 0 :: ih.2)

/-! ## Order of big-endian heights (`appstore/util.go`) -/

/-- The number a byte string denotes when read big-endian. -/
def beValue : Bytes → Nat
  | [] => 0
  | x :: xs => x * 256 ^ xs.length + beValue xs

/-! ## Store statistics and progress sampling (`appstore/stats.go`, `appstore/clone.go`) -/

/-- The counters of `IAVLStoreStats`; the elapsed time is left out. -/
structure IAVLStoreStats where
  NumKeys : Nat
  TotalKeyBytes : Nat
  TotalValueBytes : Nat
  deriving DecidableEq, Repr

/-- The leaves `IterateRangeInclusive(start, end, true, fn)` passes to the callback, in
order: those with `start <= key <= end`, a nil bound being open. -/
def Tree.rangeInclusive (t : Tree) (start : Option Bytes) (stop : RangeEnd) :
    List (Bytes × Option Bytes) :=
  t.leaves.filter fun e =>
    (match start with
      | none => true
      | some s => bytesLe s e.1) &&
    (match stop with
      | .key k => bytesLe e.1 k
      | .unbounded => true
      | .fault => false)

/-- The value `uint(math.Pow(10, float64(logLevel)))` for `10^logLevel < 2^64`, where the
float power is exact and fits the unsigned integer. -/
def powTen (logLevel : Nat) : Nat := 10 ^ logLevel

/-- The period `debugPeriod` of `TotalData` and `CloneIAVLTreeFromDB` for a tree of `size`
leaves: `size / 10^logLevel`, replaced by 10 when that is zero; `none` for the panic of an
integer division by zero. -/
def debugPeriod (size logLevel : Nat) : Option Nat :=
  if powTen logLevel = 0 then none
  else
    let period := size / powTen logLevel
    some (if period = 0 then 10 else period)

/-- The variables of the `TotalData` callback: the three uint64 counters and the values of
`numKeys` at which a progress line was logged. -/
structure TotalState where
  numKeys : Nat
  keyTotal : Nat
  valueTotal : Nat
  samples : List Nat
  deriving DecidableEq, Repr

/-- The callback of `TotalData` run over the visited leaves; `none` for the panic of a
remainder by zero. -/
def totalDataLoop (logLevel debugPeriod : Nat) :
    List (Bytes × Option Bytes) → TotalState → Option TotalState
  | [], st => some st
  | (key, value) :: rest, st =>
    let numKeys := (st.numKeys + 1) % 2 ^ 64
    let keyTotal := (st.keyTotal + key.length) % 2 ^ 64
    let valueTotal := (st.valueTotal + (value.getD []).length) % 2 ^ 64
    if logLevel > 0 then
      if debugPeriod = 0 then none
      else if numKeys % debugPeriod = 0 then
        totalDataLoop logLevel debugPeriod rest
          ⟨numKeys, keyTotal, valueTotal, st.samples ++ [numKeys]⟩
      else totalDataLoop logLevel debugPeriod rest ⟨numKeys, keyTotal, valueTotal, st.samples⟩
    else totalDataLoop logLevel debugPeriod rest ⟨numKeys, keyTotal, valueTotal, st.samples⟩

/-- The body of `TotalData` from the point where the tree version is loaded, up to the end
of the iteration; `none` for a panic. -/
def totalDataRun (tree : Tree) (pre : Bytes) (logLevel : Nat) : Option TotalState :=
  let start := if pre.length > 0 then some pre else none
  match prefixRangeEnd start with
  | .fault => none
  | stop =>
    match debugPeriod tree.leaves.length logLevel with
    | none => none
    | some period =>
      totalDataLoop logLevel period (tree.rangeInclusive start stop) ⟨0, 0, 0, []⟩

/-- The function `TotalData` from the point where the tree version is loaded: the counters
it returns, `none` for a panic. -/
def TotalData (tree : Tree) (pre : Bytes) (logLevel : Nat) : Option IAVLStoreStats :=
  (totalDataRun tree pre logLevel).map fun st => ⟨st.numKeys, st.keyTotal, st.valueTotal⟩

/-- The progress callback `CloneIAVLTreeFromDB` hands to `SaveVersionToDB`, run over the
heights of the nodes reported to it (a leaf has height 0), from a leaf count and the counts
logged so far: the leaf counts at which it logs.  `none` for the panic of a remainder by
zero. -/
def cloneHook (debugPeriod : Nat) : List Int → Nat → List Nat → Option (List Nat)
  | [], _, samples => some samples
  | height :: rest, leafCount, samples =>
    if height ≠ 0 then cloneHook debugPeriod rest leafCount samples
    else
      let leafCount1 := (leafCount + 1) % 2 ^ 64
      if debugPeriod = 0 then none
      else if leafCount1 % debugPeriod ≠ 0 then cloneHook debugPeriod rest leafCount1 samples
      else cloneHook debugPeriod rest leafCount1 (samples ++ [leafCount1])

/-- The progress lines of `CloneIAVLTreeFromDB` for a tree of `leaves` leaves whose save
reports the nodes of the given heights: no callback is installed when `logLevel < 1`. -/
def cloneSamples (leaves logLevel : Nat) (visits : List Int) : Option (List Nat) :=
  if logLevel < 1 then some []
  else
    match debugPeriod leaves logLevel with
    | none => none
    | some period => cloneHook period visits 0 []

/-! ## Value extraction (`appstore/extract_kvs.go`) -/

/-- The variable `valueDBVersionKey = PrefixKey("dbh", "v")`. -/
def valueDBVersionKey : Bytes :=
  match PrefixKey [[100, 98, 104], [118]] with
  | some k => k
  | none => []

/-- The variables of the extraction loop: destination store, pending batch and number of
`Write` calls made, with the history of the batches written by the intermediate flushes. -/
structure ExtractState where
  dest : DB
  batch : List Op
  flushed : List (List Op)
  writes : Nat
  deriving DecidableEq, Repr

/-- The callback of `ExtractIAVLTreeValuesFromDB` run over the leaves.  The flag returned is
true when the callback panics, which it does on a failed intermediate write. -/
def extractLoop (writeFails : Nat → Bool) (batchSize : Int) :
    List (Bytes × Option Bytes) → ExtractState → ExtractState × Bool
  | [], st => (st, false)
  | (key, value) :: rest, st =>
    let batch := st.batch ++ [Op.put key (putValue value)]
    if (batch.length : Int) > batchSize then
      if writeFails st.writes then (⟨st.dest, batch, st.flushed, st.writes + 1⟩, true)
      else
        extractLoop writeFails batchSize rest
          ⟨DB.write st.dest batch, [], st.flushed ++ [batch], st.writes + 1⟩
    else extractLoop writeFails batchSize rest ⟨st.dest, batch, st.flushed, st.writes⟩

/-- What a run of `ExtractIAVLTreeValuesFromDB` leaves: the way it ends, the destination
store, the batches written by intermediate flushes and the batch handed to the final
durable write. -/
structure ExtractResult where
  outcome : CopyOutcome
  dest : DB
  flushed : List (List Op)
  final : List Op
  deriving DecidableEq, Repr

/-- The function `ExtractIAVLTreeValuesFromDB` from the point where the immutable tree of
the wanted version is loaded and the destination store is open.  `logLevel` only sets how
often progress is printed. -/
def ExtractIAVLTreeValuesFromDB (writeFails : Nat → Bool) (tree : Tree) (destDB : DB)
    (_logLevel batchSize : Int) : ExtractResult :=
  match extractLoop writeFails batchSize tree.leaves ⟨destDB, [], [], 0⟩ with
  | (st, true) => ⟨.fault, st.dest, st.flushed, st.batch⟩
  | (st, false) =>
    let batch :=
      st.batch ++ [Op.put valueDBVersionKey (uint64ToByteBigEndian (uint64OfInt tree.version))]
    if writeFails st.writes then ⟨.writeError, st.dest, st.flushed, batch⟩
    else ⟨.ok, DB.write st.dest batch, st.flushed, batch⟩

/-- The puts of the leaves of a scan, in scan order. -/
def leafPuts (leaves : List (Bytes × Option Bytes)) : List Op :=
  leaves.map fun e => Op.put e.1 (putValue e.2)

/-- A tree whose first bloom filter key has only two bytes behind the separator; the second
key is well formed. -/
def shortAuxTree : Tree where
  version := 3
  leaves := [
    (bfPrefixStart ++ [0] ++ [0, 1], some [11]),
    (bfPrefixStart ++ [0] ++ [1, 0, 0, 0, 0, 0, 0, 0], some [12])]

/-- The counters of a list of leaves: their number and the total lengths of their keys and
of their values. -/
def leafStats (leaves : List (Bytes × Option Bytes)) : IAVLStoreStats :=
  ⟨leaves.length, (leaves.map fun e => e.1.length).sum,
    (leaves.map fun e => (e.2.getD []).length).sum⟩

theorem decAux_spec (fuel : Nat) : ∀ (n : Nat) (acc : Bytes), n < fuel →
    ∃ ds : Bytes, decAux fuel n acc = ds ++ acc ∧ ds ≠ [] ∧ (∀ d ∈ ds, 48 ≤ d ∧ d ≤ 57) ∧
      ∀ a rest, digitsVal a (ds ++ rest) = digitsVal (a * 10 ^ ds.length + n) rest := by
  induction fuel with
  | zero => intro n acc h; omega
  | succ fuel ih =>
    intro n acc h
    by_cases hn : n < 10
    · refine ⟨[48 + n], by simp [decAux, hn], by simp, ?_, ?_⟩
      · intro d hd
        simp at hd
        omega
      · intro a rest
        have h1 : 48 ≤ 48 + n ∧ 48 + n ≤ 57 := by omega
        simp [digitsVal, h1]
    · have hlt : n / 10 < fuel := by omega
      obtain ⟨ds, h1, _, h3, h4⟩ := ih (n / 10) ((48 + n % 10) :: acc) hlt
      refine ⟨ds ++ [48 + n % 10], ?_, by simp, ?_, ?_⟩
      · simp [decAux, hn, h1]
      · intro d hd
        rcases List.mem_append.1 hd with hd | hd
        · exact h3 d hd
        · simp at hd
          omega
      · intro a rest
        have h5 : 48 ≤ 48 + n % 10 ∧ 48 + n % 10 ≤ 57 := by omega
        have h6 : (a * 10 ^ ds.length + n / 10) * 10 + n % 10 = a * 10 ^ (ds.length + 1) + n := by
          rw [pow_succ]
          have := Nat.div_add_mod n 10
          nlinarith
        rw [List.append_assoc, h4]
        simp [digitsVal, h5, h6]

theorem formatUint_spec (n : Nat) :
    formatUint n ≠ [] ∧ (∀ d ∈ formatUint n, 48 ≤ d ∧ d ≤ 57) ∧
      digitsVal 0 (formatUint n) = some n := by
  obtain ⟨ds, h1, h2, h3, h4⟩ := decAux_spec (n + 1) n [] (Nat.lt_succ_self n)
  have h5 : formatUint n = ds := by simp [formatUint, h1]
  refine ⟨by rw [h5]; exact h2, by rw [h5]; exact h3, ?_⟩
  have := h4 0 []
  simp [digitsVal] at this
  rw [h5, this]

theorem formatUint_inj {a b : Nat} (h : formatUint a = formatUint b) : a = b := by
  have ha := (formatUint_spec a).2.2
  have hb := (formatUint_spec b).2.2
  rw [h, hb] at ha
  exact (Option.some.inj ha).symm

theorem formatInt_bytes (x : Int) : ∀ d ∈ formatInt x, d = 45 ∨ (48 ≤ d ∧ d ≤ 57) := by
  intro d hd
  cases x with
  | ofNat n => exact Or.inr ((formatUint_spec n).2.1 d hd)
  | negSucc n =>
    simp only [formatInt, List.mem_cons] at hd
    rcases hd with hd | hd
    · exact Or.inl hd
    · exact Or.inr ((formatUint_spec (n + 1)).2.1 d hd)

theorem formatInt_inj {a b : Int} (h : formatInt a = formatInt b) : a = b := by
  cases a with
  | ofNat m =>
    cases b with
    | ofNat n => exact congrArg Int.ofNat (formatUint_inj h)
    | negSucc n =>
      exfalso
      simp only [formatInt] at h
      have h1 := (formatUint_spec m).2.1 45 (by rw [h]; simp)
      omega
  | negSucc m =>
    cases b with
    | ofNat n =>
      exfalso
      simp only [formatInt] at h
      have h1 := (formatUint_spec n).2.1 45 (by rw [← h]; simp)
      omega
    | negSucc n =>
      simp only [formatInt, List.cons.injEq, true_and] at h
      have := formatUint_inj h
      have : m = n := by omega
      rw [this]

theorem sep_append_inj (s : Nat) : ∀ (a a' b b' : Bytes), s ∉ a → s ∉ a' →
    a ++ s :: b = a' ++ s :: b' → a = a' ∧ b = b' := by
  intro a
  induction a with
  | nil =>
    intro a' b b' _ h2 h
    cases a' with
    | nil => simpa using h
    | cons x xs =>
      exfalso
      simp at h
      exact h2 (by rw [h.1]; simp)
  | cons y ys ih =>
    intro a' b b' h1 h2 h
    cases a' with
    | nil =>
      exfalso
      simp at h
      exact h1 (by rw [h.1]; simp)
    | cons x xs =>
      simp only [List.cons_append, List.cons.injEq] at h
      have := ih xs b b' (fun hm => h1 (List.mem_cons_of_mem _ hm))
        (fun hm => h2 (List.mem_cons_of_mem _ hm)) h.2
      exact ⟨by rw [h.1, this.1], this.2⟩

/-! ## Stores: reading after writing -/

theorem DB.get_delete_self (db : DB) (k : Bytes) : DB.get (DB.delete db k) k = none := by
  induction db with
  | nil => rfl
  | cons e rest ih =>
    obtain ⟨k1, v⟩ := e
    by_cases h : k1 = k
    · simpa [DB.delete, List.filter_cons, h] using ih
    · simpa [DB.delete, List.filter_cons, h, DB.get] using ih

theorem DB.get_delete_ne (db : DB) {k key : Bytes} (h : key ≠ k) :
    DB.get (DB.delete db k) key = DB.get db key := by
  induction db with
  | nil => rfl
  | cons e rest ih =>
    obtain ⟨k1, v⟩ := e
    have ih1 : DB.get (List.filter (fun e => !decide (e.1 = k)) rest) key = DB.get rest key := ih
    by_cases h1 : k1 = k
    · have h2 : ¬ k1 = key := fun h3 => h (h3.symm.trans h1)
      simp only [DB.delete, List.filter_cons, h1, decide_True, Bool.not_true, Bool.false_eq_true,
        if_false, DB.get]
      rw [ih1]
      rw [← h1, if_neg h2]
    · by_cases h2 : k1 = key
      · subst h2
        simp only [DB.delete, List.filter_cons, h1, decide_False, Bool.not_false, if_true,
          DB.get]
      · simp only [DB.delete, List.filter_cons, h1, decide_False, Bool.not_false, if_true,
          DB.get, h2, if_false]
        exact ih1

theorem DB.get_set_self (db : DB) (k v : Bytes) : DB.get (DB.set db k v) k = some v := by
  simp [DB.set, DB.get]

theorem DB.get_set_ne (db : DB) {k key : Bytes} (v : Bytes) (h : key ≠ k) :
    DB.get (DB.set db k v) key = DB.get db key := by
  have h1 : k ≠ key := fun h2 => h h2.symm
  simp [DB.set, DB.get, h1, DB.get_delete_ne db h]

theorem DB.write_append (db : DB) (a b : List Op) :
    DB.write db (a ++ b) = DB.write (DB.write db a) b := by
  simp [DB.write, List.foldl_append]

/-- Writing a batch of deletions empties the deleted keys and leaves every other key. -/
theorem DB.get_write_dels (keys : List Bytes) : ∀ (db : DB) (key : Bytes),
    DB.get (DB.write db (keys.map Op.del)) key = if key ∈ keys then none else DB.get db key := by
  induction keys with
  | nil => intro db key; simp [DB.write]
  | cons k ks ih =>
    intro db key
    have h1 : DB.write db ((k :: ks).map Op.del) = DB.write (DB.delete db k) (ks.map Op.del) := by
      simp [DB.write, Op.apply]
    rw [h1, ih]
    by_cases h2 : key ∈ ks
    · simp [h2]
    · by_cases h3 : key = k
      · subst h3
        simp [DB.get_delete_self]
      · simp [h2, h3, DB.get_delete_ne db h3]


/-! ## Block store keys are distinct -/

theorem metaKey_inj {a b : Int} (h : calcBlockMetaKey a = calcBlockMetaKey b) : a = b := by
  simp only [calcBlockMetaKey, List.append_cancel_left_eq] at h
  exact formatInt_inj h

theorem commitKey_inj {a b : Int} (h : calcBlockCommitKey a = calcBlockCommitKey b) : a = b := by
  simp only [calcBlockCommitKey, List.append_cancel_left_eq] at h
  exact formatInt_inj h

theorem seenKey_inj {a b : Int} (h : calcSeenCommitKey a = calcSeenCommitKey b) : a = b := by
  simp only [calcSeenCommitKey, List.append_cancel_left_eq] at h
  exact formatInt_inj h

theorem formatInt_no_colon (x : Int) : 58 ∉ formatInt x := by
  intro h
  have := formatInt_bytes x 58 h
  omega

theorem partKey_inj {a b i j : Int} (h : calcBlockPartKey a i = calcBlockPartKey b j) :
    a = b ∧ i = j := by
  simp only [calcBlockPartKey, List.append_assoc, List.append_cancel_left_eq,
    List.singleton_append] at h
  have := sep_append_inj 58 _ _ _ _ (formatInt_no_colon a) (formatInt_no_colon b) h
  exact ⟨formatInt_inj this.1, formatInt_inj this.2⟩

theorem metaKey_ne_state (k : Int) : calcBlockMetaKey k ≠ blockStoreKey := by
  simp [calcBlockMetaKey, blockStoreKey]

theorem partKey_ne_state (k i : Int) : calcBlockPartKey k i ≠ blockStoreKey := by
  simp [calcBlockPartKey, blockStoreKey]

theorem commitKey_ne_state (k : Int) : calcBlockCommitKey k ≠ blockStoreKey := by
  simp [calcBlockCommitKey, blockStoreKey]

theorem seenKey_ne_state (k : Int) : calcSeenCommitKey k ≠ blockStoreKey := by
  simp [calcSeenCommitKey, blockStoreKey]

theorem metaKey_ne_partKey (a b i : Int) : calcBlockMetaKey a ≠ calcBlockPartKey b i := by
  simp [calcBlockMetaKey, calcBlockPartKey]

theorem metaKey_ne_commitKey (a b : Int) : calcBlockMetaKey a ≠ calcBlockCommitKey b := by
  simp [calcBlockMetaKey, calcBlockCommitKey]

theorem metaKey_ne_seenKey (a b : Int) : calcBlockMetaKey a ≠ calcSeenCommitKey b := by
  simp [calcBlockMetaKey, calcSeenCommitKey]

theorem partKey_ne_commitKey (a i b : Int) : calcBlockPartKey a i ≠ calcBlockCommitKey b := by
  simp [calcBlockPartKey, calcBlockCommitKey]

theorem partKey_ne_seenKey (a i b : Int) : calcBlockPartKey a i ≠ calcSeenCommitKey b := by
  simp [calcBlockPartKey, calcSeenCommitKey]

theorem commitKey_ne_seenKey (a b : Int) : calcBlockCommitKey a ≠ calcSeenCommitKey b := by
  simp [calcBlockCommitKey, calcSeenCommitKey]

/-! ## The heights a descending loop visits -/

theorem mem_descFrom (n : Nat) : ∀ (hi k : Int), k ∈ descFrom hi n ↔ hi - n < k ∧ k ≤ hi := by
  induction n with
  | zero => intro hi k; simp [descFrom]
  | succ n ih =>
    intro hi k
    simp only [descFrom, List.mem_cons, ih]
    push_cast
    omega

theorem deleteBlockOps_eq (height total : Int) :
    deleteBlockOps height total = (blockKeys height total).map Op.del := by
  simp [deleteBlockOps, blockKeys, List.map_append, List.map_map, Function.comp_def]

/-- Above `-2^63` the int64 `height - 1` does not wrap: an iteration of `Purge` queues the
deletions an iteration of `Rollback` queues. -/
theorem purgeBlockOps_eq (height total : Int) (h : height ≠ -(2 : Int) ^ 63) :
    purgeBlockOps height total = deleteBlockOps height total := by
  unfold purgeBlockOps deleteBlockOps subOneInt64
  rw [if_neg h]

theorem parseInt64_ge (s : Bytes) (x : Int) (h : parseInt64 s = some x) :
    -(2 : Int) ^ 63 ≤ x := by
  have hneg : ∀ o : Option Nat,
      (o.bind fun n => if n ≤ 2 ^ 63 then some (-(n : Int)) else none) = some x →
      -(2 : Int) ^ 63 ≤ x := by
    intro o ho
    cases o with
    | none => cases ho
    | some n =>
      simp only [Option.some_bind] at ho
      split at ho
      · injection ho with ho
        subst ho
        omega
      · cases ho
  have hpos : ∀ o : Option Nat,
      (o.bind fun n => if n < 2 ^ 63 then some (n : Int) else none) = some x →
      -(2 : Int) ^ 63 ≤ x := by
    intro o ho
    cases o with
    | none => cases ho
    | some n =>
      simp only [Option.some_bind] at ho
      split at ho
      · injection ho with ho
        subst ho
        omega
      · cases ho
  unfold parseInt64 at h
  split at h
  · cases h
  · split at h
    · split at h
      · cases h
      · exact hneg _ h
    · simp only at h
      split at h
      · cases h
      · exact hpos _ h

theorem getHeightFromKey_ge (key : Bytes) : -(2 : Int) ^ 63 ≤ getHeightFromKey key := by
  unfold getHeightFromKey
  split
  · split
    · rename_i h
      exact parseInt64_ge _ _ h
    · norm_num
  · norm_num

/-- The oldest height `Purge` computes is an int64. -/
theorem oldestHeight_ge (db : DB) : -(2 : Int) ^ 63 ≤ oldestHeight db := by
  unfold oldestHeight
  simp only
  split
  · norm_num
  · exact getHeightFromKey_ge _

/-- Above a computed oldest height other than `-2^63` the purge loop never visits
`-2^63`. -/
theorem descFrom_ne_min (db : DB) (t : Int) (hmin : oldestHeight db ≠ -(2 : Int) ^ 63) :
    ∀ k ∈ descFrom (t - 1) (t - oldestHeight db).toNat, k ≠ -(2 : Int) ^ 63 := by
  intro k hk
  have h1 := (mem_descFrom _ _ _).1 hk
  have h2 := oldestHeight_ge db
  omega

theorem mem_blockKeys (key : Bytes) (height total : Int) :
    key ∈ blockKeys height total ↔
      key = calcBlockMetaKey height
        ∨ (∃ i : Int, 0 ≤ i ∧ i < total ∧ key = calcBlockPartKey height i)
        ∨ key = calcBlockCommitKey (height - 1) ∨ key = calcSeenCommitKey height := by
  have hmap : key ∈ (List.range total.toNat).map
        (fun i : Nat => calcBlockPartKey height (i : Int)) ↔
      ∃ i : Int, 0 ≤ i ∧ i < total ∧ key = calcBlockPartKey height i := by
    constructor
    · intro h
      obtain ⟨i, hi, rfl⟩ := List.mem_map.1 h
      have := List.mem_range.1 hi
      exact ⟨i, by omega, by omega, rfl⟩
    · rintro ⟨i, h0, h1, rfl⟩
      exact List.mem_map.2 ⟨i.toNat, List.mem_range.2 (by omega),
        by rw [Int.toNat_of_nonneg h0]⟩
  unfold blockKeys
  rw [List.mem_append, List.mem_append, hmap]
  simp only [List.mem_cons, List.mem_singleton, List.not_mem_nil, or_false]
  exact or_assoc

/-! ## Rollback -/

theorem declaredTotal_found {c : Collab} {db : DB} {k : Int} {m : BlockMeta}
    (h : LoadBlockMeta c db k = .found m) : declaredTotal c db k = m.partsTotal := by
  simp [declaredTotal, h]

/-- With every visited metadata found and no tx index, the rollback loop queues the keys of
every visited height. -/
theorem rollbackLoop_eq (c : Collab) (db : DB) : ∀ (hs : List Int) (batch : List Op)
    (txs : List Bytes), (∀ k ∈ hs, ∃ m, LoadBlockMeta c db k = .found m) →
    rollbackLoop c db false hs (batch, txs)
      = some (batch ++ (hs.flatMap fun k => blockKeys k (declaredTotal c db k)).map Op.del,
          txs) := by
  intro hs
  induction hs with
  | nil => intro batch txs _; simp [rollbackLoop]
  | cons k rest ih =>
    intro batch txs h
    obtain ⟨m, hm⟩ := h k (List.mem_cons_self _ _)
    have h1 := ih (batch ++ deleteBlockOps k m.partsTotal) txs
      (fun j hj => h j (List.mem_cons_of_mem _ hj))
    simp only [rollbackLoop, hm, Bool.false_eq_true, if_false, List.append_nil, h1]
    simp [deleteBlockOps_eq, declaredTotal_found hm, List.flatMap_cons, List.append_assoc]


/-- The keys `Rollback` deletes: those of every height from the recorded one down to the
target, the target excluded. -/
theorem rollback_result (c : Collab) (db : DB) (h H : Int) (hH : Height c db = some H)
    (hlt : h < H) (hmeta : ∀ k, h < k → k ≤ H → ∃ m, LoadBlockMeta c db k = .found m) :
    Rollback c db none h =
      ⟨.ok, saveState c (DB.write db (((descFrom H (H - h).toNat).flatMap
          fun k => blockKeys k (declaredTotal c db k)).map Op.del)) h, none⟩ := by
  have hloop := rollbackLoop_eq c db (descFrom H (H - h).toNat) [] [] (by
    intro k hk
    have := (mem_descFrom _ _ _).1 hk
    exact hmeta k (by omega) this.2)
  have hge : ¬ h ≥ H := by omega
  simp only [Rollback, hH, hge, if_false, Option.isSome_none, hloop, List.nil_append]

theorem get_saveState_ne (c : Collab) (db : DB) (h : Int) {key : Bytes}
    (hk : key ≠ blockStoreKey) : DB.get (saveState c db h) key = DB.get db key :=
  DB.get_set_ne db _ hk

theorem height_saveState (c : Collab) (db : DB) (h : Int) (hc : StateRoundTrip c h) :
    Height c (saveState c db h) = some h := by
  have h1 : (c.marshalState h).length ≠ 0 := by
    intro h2
    exact hc.1 (List.length_eq_zero.1 h2)
  simp only [Height, saveState, DB.get_set_self, h1, if_false, hc.2]

/-- C1 (amended): for a store with recorded height `H` that holds a metadata record for
every height in `(h, H]`, no block record above `H`, and part records only at indices below
the part total declared by the metadata of their height, `Rollback(h, nil)` with `h < H`
returns nil, leaves the recorded height equal to `h` (the state record reading back what was
written) and leaves no metadata, part or seen-commit key of a height above `h` and no commit
key `C:k` with `k >= h`. -/
theorem rollback_postcondition (c : Collab) (db : DB) (h H : Int)
    (hH : Height c db = some H) (hlt : h < H)
    (hmeta : ∀ k, h < k → k ≤ H → ∃ m, LoadBlockMeta c db k = .found m)
    (habove : NoGroupAbove db H) (hparts : PartsWithinTotal c db h H)
    (hstate : StateRoundTrip c h) :
    (Rollback c db none h).outcome = .ok
      ∧ Height c (Rollback c db none h).blockDB = some h
      ∧ NoGroupAbove (Rollback c db none h).blockDB h := by
  rw [rollback_result c db h H hH hlt hmeta]
  refine ⟨rfl, height_saveState c _ h hstate, ?_⟩
  -- a key other than the state key is absent afterwards when it was deleted or absent before
  have gone : ∀ key : Bytes, key ≠ blockStoreKey →
      (DB.get db key = none ∨ ∃ k, h < k ∧ k ≤ H ∧ key ∈ blockKeys k (declaredTotal c db k)) →
      DB.has (saveState c (DB.write db (((descFrom H (H - h).toNat).flatMap
          fun k => blockKeys k (declaredTotal c db k)).map Op.del)) h) key = false := by
    intro key hne hcase
    rw [DB.has, get_saveState_ne c _ h hne, DB.get_write_dels]
    split
    · rfl
    · rename_i hnot
      rcases hcase with h1 | ⟨k, hk1, hk2, hk3⟩
      · rw [h1]; rfl
      · exfalso
        apply hnot
        rw [List.mem_flatMap]
        exact ⟨k, (mem_descFrom _ _ _).2 ⟨by omega, hk2⟩, hk3⟩
  have absent : ∀ key : Bytes, DB.has db key = false → DB.get db key = none := by
    intro key hk
    simpa [DB.has] using hk
  intro k
  constructor
  · intro hk
    by_cases hkH : k ≤ H
    · refine ⟨gone _ (metaKey_ne_state k) (Or.inr ⟨k, hk, hkH, ?_⟩),
        gone _ (seenKey_ne_state k) (Or.inr ⟨k, hk, hkH, ?_⟩), ?_⟩
      · exact (mem_blockKeys _ _ _).2 (Or.inl rfl)
      · exact (mem_blockKeys _ _ _).2 (Or.inr (Or.inr (Or.inr rfl)))
      · intro i
        apply gone _ (partKey_ne_state k i)
        by_cases hp : DB.has db (calcBlockPartKey k i) = true
        · have := hparts k i hk hkH hp
          exact Or.inr ⟨k, hk, hkH, (mem_blockKeys _ _ _).2 (Or.inr (Or.inl ⟨i, this.1, this.2, rfl⟩))⟩
        · exact Or.inl (absent _ (by simpa using hp))
    · have hb := (habove k).1 (by omega)
      exact ⟨gone _ (metaKey_ne_state k) (Or.inl (absent _ hb.1)),
        gone _ (seenKey_ne_state k) (Or.inl (absent _ hb.2.1)),
        fun i => gone _ (partKey_ne_state k i) (Or.inl (absent _ (hb.2.2 i)))⟩
  · intro hk
    apply gone _ (commitKey_ne_state k)
    by_cases hkH : k < H
    · refine Or.inr ⟨k + 1, by omega, by omega, (mem_blockKeys _ _ _).2 (Or.inr (Or.inr (Or.inl ?_)))⟩
      rw [add_sub_cancel_right]
    · exact Or.inl (absent _ ((habove k).2 (by omega)))


/-! ## Sample stores -/

theorem DB.mem_keys_of_has (db : DB) (key : Bytes) (h : DB.has db key = true) :
    key ∈ db.map Prod.fst := by
  induction db with
  | nil => simp [DB.has, DB.get] at h
  | cons e rest ih =>
    obtain ⟨k1, v⟩ := e
    by_cases h1 : k1 = key
    · simp [h1]
    · have h2 : DB.has rest key = true := by
        simpa [DB.has, DB.get, h1] using h
      exact List.mem_cons_of_mem _ (ih h2)

/-- The keys a sample store can hold. -/
theorem has_sampleStore {recorded : Int} {blocks : List (Int × Nat × Nat)} {key : Bytes}
    (h : DB.has (sampleStore recorded blocks) key = true) :
    key = blockStoreKey ∨ ∃ b ∈ blocks, key = calcBlockMetaKey b.1
      ∨ (∃ i : Nat, i < b.2.2 ∧ key = calcBlockPartKey b.1 (i : Int))
      ∨ key = calcBlockCommitKey (b.1 - 1) ∨ key = calcSeenCommitKey b.1 := by
  have h1 := DB.mem_keys_of_has _ _ h
  simp only [sampleStore, List.map_cons, List.mem_cons, List.map_flatMap, List.mem_flatMap] at h1
  rcases h1 with h1 | ⟨b, hb, h2⟩
  · exact Or.inl h1
  · refine Or.inr ⟨b, hb, ?_⟩
    simp only [sampleBlock, List.map_append, List.map_cons, List.map_nil, List.map_map,
      List.mem_append, List.mem_cons, List.mem_singleton, List.not_mem_nil, or_false,
      List.mem_map, List.mem_range, Function.comp_def] at h2
    rcases h2 with (h2 | ⟨i, hi, h2⟩) | h2 | h2
    · exact Or.inl h2
    · exact Or.inr (Or.inl ⟨i, hi, h2.symm⟩)
    · exact Or.inr (Or.inr (Or.inl h2))
    · exact Or.inr (Or.inr (Or.inr h2))

theorem sampleStore_noGroupAbove (recorded : Int) (blocks : List (Int × Nat × Nat)) (H : Int)
    (hb : ∀ b ∈ blocks, b.1 ≤ H) : NoGroupAbove (sampleStore recorded blocks) H := by
  have key_false : ∀ key : Bytes, ¬ DB.has (sampleStore recorded blocks) key = true →
      DB.has (sampleStore recorded blocks) key = false := by
    intro key h
    simpa using h
  intro k
  refine ⟨fun hk => ⟨key_false _ ?_, key_false _ ?_, fun i => key_false _ ?_⟩,
    fun hk => key_false _ ?_⟩
  · intro h
    rcases has_sampleStore h with h1 | ⟨b, hbm, h1 | ⟨i, _, h1⟩ | h1 | h1⟩
    · exact metaKey_ne_state _ h1
    · have := hb b hbm
      have := metaKey_inj h1
      omega
    · exact metaKey_ne_partKey _ _ _ h1
    · exact metaKey_ne_commitKey _ _ h1
    · exact metaKey_ne_seenKey _ _ h1
  · intro h
    rcases has_sampleStore h with h1 | ⟨b, hbm, h1 | ⟨i, _, h1⟩ | h1 | h1⟩
    · exact seenKey_ne_state _ h1
    · exact metaKey_ne_seenKey _ _ h1.symm
    · exact partKey_ne_seenKey _ _ _ h1.symm
    · exact commitKey_ne_seenKey _ _ h1.symm
    · have := hb b hbm
      have := seenKey_inj h1
      omega
  · intro h
    rcases has_sampleStore h with h1 | ⟨b, hbm, h1 | ⟨j, _, h1⟩ | h1 | h1⟩
    · exact partKey_ne_state _ _ h1
    · exact metaKey_ne_partKey _ _ _ h1.symm
    · have := hb b hbm
      have := (partKey_inj h1).1
      omega
    · exact partKey_ne_commitKey _ _ _ h1
    · exact partKey_ne_seenKey _ _ _ h1
  · intro h
    rcases has_sampleStore h with h1 | ⟨b, hbm, h1 | ⟨i, _, h1⟩ | h1 | h1⟩
    · exact commitKey_ne_state _ h1
    · exact metaKey_ne_commitKey _ _ h1.symm
    · exact partKey_ne_commitKey _ _ _ h1.symm
    · have := hb b hbm
      have := commitKey_inj h1
      omega
    · exact commitKey_ne_seenKey _ _ h1

/-- A part record of a sample store belongs to a listed group and lies below the number of
parts stored for it. -/
theorem sampleStore_part {recorded : Int} {blocks : List (Int × Nat × Nat)} {k i : Int}
    (h : DB.has (sampleStore recorded blocks) (calcBlockPartKey k i) = true) :
    ∃ b ∈ blocks, b.1 = k ∧ 0 ≤ i ∧ i < (b.2.2 : Int) := by
  rcases has_sampleStore h with h1 | ⟨b, hbm, h1 | ⟨j, hj, h1⟩ | h1 | h1⟩
  · exact absurd h1 (partKey_ne_state _ _)
  · exact absurd h1.symm (metaKey_ne_partKey _ _ _)
  · have := partKey_inj h1
    exact ⟨b, hbm, this.1.symm, by omega, by omega⟩
  · exact absurd h1 (partKey_ne_commitKey _ _ _)
  · exact absurd h1 (partKey_ne_seenKey _ _ _)


theorem tenBlocks_meta (k : Int) (h1 : 7 < k) (h2 : k ≤ 10) :
    LoadBlockMeta sampleCollab tenBlocks k = .found ⟨2, []⟩ := by
  interval_cases k <;> decide

theorem tenBlocks_parts : PartsWithinTotal sampleCollab tenBlocks 7 10 := by
  intro k i h1 h2 hp
  obtain ⟨b, hb, _, h0, hlt⟩ := sampleStore_part hp
  obtain ⟨j, _, rfl⟩ := List.mem_map.1 hb
  rw [declaredTotal_found (tenBlocks_meta k h1 h2)]
  exact ⟨h0, hlt⟩

/-- C1 witness: the store with heights 1..10 rolled back to 7 has recorded height 7, holds
no record of the heights 8, 9, 10, and `Has(calcBlockMetaKey(8))` is false. -/
theorem rollback_postcondition_witness :
    Height sampleCollab tenBlocks = some 10
      ∧ (Rollback sampleCollab tenBlocks none 7).outcome = .ok
      ∧ Height sampleCollab (Rollback sampleCollab tenBlocks none 7).blockDB = some 7
      ∧ NoGroupAbove (Rollback sampleCollab tenBlocks none 7).blockDB 7
      ∧ DB.has (Rollback sampleCollab tenBlocks none 7).blockDB (calcBlockMetaKey 8) = false :=
  have main := rollback_postcondition sampleCollab tenBlocks 7 10 (by decide) (by decide)
    (fun k h1 h2 => ⟨_, tenBlocks_meta k h1 h2⟩)
    (sampleStore_noGroupAbove _ _ 10 (by
      intro b hb
      obtain ⟨j, hj, rfl⟩ := List.mem_map.1 hb
      have := List.mem_range.1 hj
      show (j : Int) + 1 ≤ 10
      omega))
    tenBlocks_parts ⟨by decide, by decide⟩
  ⟨by decide, main.1, main.2.1, main.2.2, ((main.2.2 8).1 (by decide)).1⟩

/-- C1 counterexample: a store at recorded height 1 with metadata at height 1 and nothing
above, whose group stores part 0 while its metadata declares no part; after `Rollback(0)`
the part key `P:1:0` is still present. -/
theorem rollback_leaves_undeclared_part :
    Height sampleCollab extraPartStore = some 1
      ∧ (∀ k : Int, 0 < k → k ≤ 1 → ∃ m, LoadBlockMeta sampleCollab extraPartStore k = .found m)
      ∧ NoGroupAbove extraPartStore 1
      ∧ (Rollback sampleCollab extraPartStore none 0).outcome = .ok
      ∧ DB.has (Rollback sampleCollab extraPartStore none 0).blockDB (calcBlockPartKey 1 0) = true
      ∧ ¬ NoGroupAbove (Rollback sampleCollab extraPartStore none 0).blockDB 0 := by
  refine ⟨by decide, ?_, ?_, by decide, by decide, ?_⟩
  · intro k h1 h2
    have hk : k = 1 := by omega
    subst hk
    exact ⟨⟨0, []⟩, by decide⟩
  · apply sampleStore_noGroupAbove
    intro b hb
    simp only [List.mem_singleton] at hb
    subst hb
    exact le_refl _
  · intro h
    have h1 := ((h 1).1 (by decide)).2.2 0
    exact absurd h1 (by decide)

/-- C2 (amended): for a store with recorded height `H`, `Rollback(h, txIndexStore)` returns
its range error exactly when `h >= H`, and then the block store and the tx index are
unchanged; with a nil tx index it returns no other error, so there it returns an error
exactly when `h >= H`. -/
theorem rollback_range_error (c : Collab) (db : DB) (txIndexDB : Option DB) (h H : Int)
    (hH : Height c db = some H) :
    ((Rollback c db txIndexDB h).outcome = .rangeError ↔ h ≥ H)
      ∧ ((Rollback c db txIndexDB h).outcome = .rangeError →
          (Rollback c db txIndexDB h).blockDB = db
            ∧ (Rollback c db txIndexDB h).txIndexDB = txIndexDB)
      ∧ ((Rollback c db none h).outcome.isError = true ↔ h ≥ H) := by
  by_cases hge : h ≥ H
  · simp [Rollback, hH, hge, Outcome.isError]
  · have h1 : (Rollback c db txIndexDB h).outcome ≠ .rangeError := by
      simp only [Rollback, hH, hge, if_false]
      split
      · simp
      · cases txIndexDB with
        | none => simp
        | some tdb =>
          simp only
          split <;> simp
    have h2 : (Rollback c db none h).outcome.isError = false := by
      simp only [Rollback, hH, hge, if_false]
      split <;> simp [Outcome.isError]
    simp [h1, h2, hge]

/-- C2 witness: at recorded height 10 the targets 10 and 11 are refused and leave the store
as it was, the target 7 is not refused. -/
theorem rollback_range_error_witness :
    Height sampleCollab tenBlocks = some 10
      ∧ (Rollback sampleCollab tenBlocks none 10).outcome = .rangeError
      ∧ (Rollback sampleCollab tenBlocks none 10).blockDB = tenBlocks
      ∧ (Rollback sampleCollab tenBlocks none 7).outcome.isError = false :=
  have h10 := rollback_range_error sampleCollab tenBlocks none 10 10 (by decide)
  have h7 := rollback_range_error sampleCollab tenBlocks none 7 10 (by decide)
  ⟨by decide, h10.1.2 (by decide), (h10.2.1 (h10.1.2 (by decide))).1, by
    cases hq : (Rollback sampleCollab tenBlocks none 7).outcome.isError
    · rfl
    · exact absurd (h7.2.2.1 hq) (by decide)⟩

/-- C2 counterexample: at recorded height 1 with target 0, a tx index whose entry for the
block's transaction does not decode makes `Rollback` return the error of
`TxIndexStore.Delete` although `0 < 1`, after the block store has been rolled back. -/
theorem rollback_error_below_recorded_height :
    Height sampleCollab oneBlock = some 1
      ∧ (Rollback sampleCollab oneBlock (some badTxIndex) 0).outcome.isError = true
      ∧ ¬ ((0 : Int) ≥ 1)
      ∧ (Rollback sampleCollab oneBlock (some badTxIndex) 0).blockDB ≠ oneBlock := by
  decide


/-! ## Purge: the oldest height and the two checks -/

/-- C4 (failing input): with the metadata of heights 9 and 10 present, the iterator over
`["H:", "H;")` yields `H:10` first, so the oldest height `Purge` computes is 10 although the
metadata of height 9 is present. -/
theorem oldestHeight_follows_byte_order :
    DB.has nineTen (calcBlockMetaKey 9) = true
      ∧ prefixRangeEnd (some calcBlockMetaPrefix) = .key [72, 59]
      ∧ DB.Iterator nineTen calcBlockMetaPrefix (some [72, 59])
          = [calcBlockMetaKey 10, calcBlockMetaKey 9]
      ∧ oldestHeight nineTen = 10 := by
  decide

theorem DB.has_of_mem_keys (db : DB) (key : Bytes) (h : key ∈ db.map Prod.fst) :
    DB.has db key = true := by
  induction db with
  | nil => simp at h
  | cons e rest ih =>
    obtain ⟨k1, v⟩ := e
    by_cases h1 : k1 = key
    · simp [DB.has, DB.get, h1]
    · have h2 : key ∈ rest.map Prod.fst := by
        rcases List.mem_cons.1 h with h3 | h3
        · exact absurd h3.symm h1
        · exact h3
      simpa [DB.has, DB.get, h1] using ih h2

/-- C5 (amended): for a store with recorded height `H` and computed oldest height `o`
(`o = -1` when no key lies in `["H:", "H;")`), `Purge(t, ...)` returns one of its two
precondition errors exactly when `t > H` or `o >= t`, and then it has changed neither the
block store nor the tx index; for every other `t` it proceeds to the deletion loop. -/
theorem purge_precondition_errors (c : Collab) (db : DB) (txIndexDB : Option DB)
    (t batchSize logLevel H : Int) (skipMissing skipCompaction reopenOk compactOk : Bool)
    (hH : Height c db = some H) :
    (((Purge c db txIndexDB t batchSize logLevel skipMissing skipCompaction reopenOk
          compactOk).outcome = .rangeError ∨
        (Purge c db txIndexDB t batchSize logLevel skipMissing skipCompaction reopenOk
          compactOk).outcome = .nothingBelow) ↔ (t > H ∨ oldestHeight db ≥ t))
      ∧ ((t > H ∨ oldestHeight db ≥ t) →
          (Purge c db txIndexDB t batchSize logLevel skipMissing skipCompaction reopenOk
            compactOk).blockDB = db ∧
          (Purge c db txIndexDB t batchSize logLevel skipMissing skipCompaction reopenOk
            compactOk).txIndexDB = txIndexDB)
      ∧ (¬ (t > H ∨ oldestHeight db ≥ t) →
          Purge c db txIndexDB t batchSize logLevel skipMissing skipCompaction reopenOk
            compactOk
          = purgeRun c db txIndexDB t batchSize skipMissing skipCompaction reopenOk compactOk)
      ∧ ((∀ key : Bytes, DB.has db key = true →
            ¬ (bytesLe calcBlockMetaPrefix key = true ∧ bytesLt key [72, 59] = true)) →
          oldestHeight db = -1) := by
  have hrun : ∀ r : Result, r = purgeRun c db txIndexDB t batchSize skipMissing skipCompaction
      reopenOk compactOk → r.outcome ≠ .rangeError ∧ r.outcome ≠ .nothingBelow := by
    have hfin : ∀ st : PurgeState,
        (purgeFinish c st txIndexDB skipCompaction reopenOk compactOk).outcome
            ≠ .rangeError
          ∧ (purgeFinish c st txIndexDB skipCompaction reopenOk compactOk).outcome
            ≠ .nothingBelow := by
      intro st
      simp only [purgeFinish]
      split
      · simp
      · split
        · simp
        · split <;> simp
    intro r hr
    subst hr
    unfold purgeRun
    split
    · split
      · simp
      · exact hfin _
      · simp
    · split
      · simp
      · exact hfin _
      · exact hfin _
  refine ⟨?_, ?_, ?_, ?_⟩
  · by_cases h1 : t > H
    · simp [Purge, hH, h1]
    · by_cases h2 : oldestHeight db ≥ t
      · simp [Purge, hH, h1, h2]
      · have := hrun _ rfl
        simp only [Purge, hH, h1, h2, if_false, or_self, iff_false, not_or]
        exact this
  · intro h
    by_cases h1 : t > H
    · simp [Purge, hH, h1]
    · have h2 : oldestHeight db ≥ t := by tauto
      simp [Purge, hH, h1, h2]
  · intro h
    have h1 : ¬ t > H := fun h1 => h (Or.inl h1)
    have h2 : ¬ oldestHeight db ≥ t := fun h2 => h (Or.inr h2)
    simp only [Purge, hH, h1, h2, if_false]
  · intro h
    have hnil : (db.map Prod.fst).filter (fun k => bytesLe calcBlockMetaPrefix k
        && bytesLt k [72, 59]) = [] := by
      rw [List.filter_eq_nil_iff]
      intro key hkey
      have := h key (DB.has_of_mem_keys db key hkey)
      simpa using this
    have hend : prefixRangeEnd (some calcBlockMetaPrefix) = .key [72, 59] := by decide
    simp only [oldestHeight, hend, DB.Iterator, hnil, sortKeys]

/-- C5 witness: at recorded height 10 with oldest height 1, the target 11 is refused by the
height check and the target 1 by the oldest-height check, both leaving the store as it was,
and the target 8 enters the deletion loop. -/
theorem purge_precondition_errors_witness :
    Height sampleCollab tenBlocks = some 10 ∧ oldestHeight tenBlocks = 1
      ∧ (Purge sampleCollab tenBlocks none 11 3 0 false true true true).outcome = .rangeError
      ∧ (Purge sampleCollab tenBlocks none 1 3 0 false true true true).outcome = .nothingBelow
      ∧ (Purge sampleCollab tenBlocks none 1 3 0 false true true true).blockDB = tenBlocks
      ∧ Purge sampleCollab tenBlocks none 8 3 0 false true true true
          = purgeRun sampleCollab tenBlocks none 8 3 false true true true :=
  have h1 := purge_precondition_errors sampleCollab tenBlocks none 1 3 0 10 false true true
    true (by decide)
  have h8 := purge_precondition_errors sampleCollab tenBlocks none 8 3 0 10 false true true
    true (by decide)
  ⟨by decide, by decide, by decide, by decide, (h1.2.1 (Or.inr (by decide))).1,
    h8.2.2.1 (by decide)⟩

/-- C5 counterexample: at recorded height 5 with the only group at height 1, `Purge(5)`
without `skipMissing` passes both checks (`5 <= 5`, `1 < 5`), breaks at the missing height 4
having deleted nothing, and returns an error because the store cannot be reopened for
compaction. -/
theorem purge_error_without_deletion_past_checks :
    Height sampleCollab gapStore = some 5 ∧ oldestHeight gapStore = 1
      ∧ (Purge sampleCollab gapStore none 5 1 0 false false false true).outcome.isError = true
      ∧ (Purge sampleCollab gapStore none 5 1 0 false false false true).blockDB = gapStore
      ∧ ¬ ((5 : Int) > 5 ∨ (1 : Int) ≥ 5) := by
  decide


/-! ## Purge: the frame -/

theorem blockKeys_purgeKey (t k total : Int) (hk : k < t) :
    ∀ key ∈ blockKeys k total, PurgeKey t key := by
  intro key hkey
  rcases (mem_blockKeys _ _ _).1 hkey with h | ⟨i, _, _, h⟩ | h | h
  · exact ⟨k, Or.inl ⟨hk, Or.inl h⟩⟩
  · exact ⟨k, Or.inl ⟨hk, Or.inr (Or.inr ⟨i, h⟩)⟩⟩
  · exact ⟨k - 1, Or.inr ⟨by omega, h⟩⟩
  · exact ⟨k, Or.inl ⟨hk, Or.inr (Or.inl h)⟩⟩

/-- Whatever the store holds and however the loop is left, it writes and queues only
deletions of keys of the permitted forms. -/
theorem purgeLoop_inv (c : Collab) (db0 : DB) (t : Int) (withTxIndex : Bool) (batchSize : Int)
    (skipMissing : Bool) : ∀ (hs : List Int) (st : PurgeState), (∀ k ∈ hs, k < t) →
    (∀ k ∈ hs, k ≠ -(2 : Int) ^ 63) →
    PurgeInv db0 t st →
    PurgeInv db0 t (purgeLoop c withTxIndex batchSize skipMissing hs st).1 := by
  intro hs
  induction hs with
  | nil => intro st _ _ hinv; simpa [purgeLoop] using hinv
  | cons k rest ih =>
    intro st hlt hne hinv
    have hrest : ∀ j ∈ rest, j < t := fun j hj => hlt j (List.mem_cons_of_mem _ hj)
    have hk : k < t := hlt k (List.mem_cons_self _ _)
    have hnrest : ∀ j ∈ rest, j ≠ -(2 : Int) ^ 63 :=
      fun j hj => hne j (List.mem_cons_of_mem _ hj)
    have hops := fun total : Int =>
      purgeBlockOps_eq k total (hne k (List.mem_cons_self _ _))
    unfold purgeLoop
    split
    · split
      · exact ih st hrest hnrest hinv
      · exact hinv
    · split
      · rename_i m _
        split
        · exact hinv
        · split
          · exact hinv
          · obtain ⟨flushed, pending, h1, h2, h3⟩ := hinv
            have hall : ∀ key ∈ flushed ++ (pending ++ blockKeys k m.partsTotal),
                PurgeKey t key := by
              intro key hkey
              rcases List.mem_append.1 hkey with h | h
              · exact h3 key (List.mem_append_left _ h)
              · rcases List.mem_append.1 h with h | h
                · exact h3 key (List.mem_append_right _ h)
                · exact blockKeys_purgeKey t k _ hk key h
            split
            · apply ih _ hrest hnrest
              refine ⟨flushed ++ (pending ++ blockKeys k m.partsTotal), [], ?_, rfl, ?_⟩
              · simp only [h1, h2, hops, deleteBlockOps_eq, List.map_append, DB.write_append]
              · simpa using hall
            · apply ih _ hrest hnrest
              refine ⟨flushed, pending ++ blockKeys k m.partsTotal, h1, ?_, hall⟩
              simp only [h2, hops, deleteBlockOps_eq, List.map_append]
      · exact hinv

/-- When the computed oldest height is not `-2^63`, the block store `Purge` leaves is the
given one with some keys of the permitted forms deleted, however the run ends. -/
theorem purge_blockDB (c : Collab) (db : DB) (txIndexDB : Option DB)
    (t batchSize logLevel : Int) (skipMissing skipCompaction reopenOk compactOk : Bool)
    (hmin : oldestHeight db ≠ -(2 : Int) ^ 63) :
    ∃ keys : List Bytes, (∀ key ∈ keys, PurgeKey t key) ∧
      (Purge c db txIndexDB t batchSize logLevel skipMissing skipCompaction reopenOk
        compactOk).blockDB = DB.write db (keys.map Op.del) := by
  have hnone : ∃ keys : List Bytes, (∀ key ∈ keys, PurgeKey t key) ∧
      db = DB.write db (keys.map Op.del) := ⟨[], by simp, rfl⟩
  unfold Purge
  split
  · exact hnone
  · split
    · exact hnone
    · split
      · exact hnone
      · have hinv := purgeLoop_inv c db t txIndexDB.isSome batchSize skipMissing
          (descFrom (t - 1) (t - oldestHeight db).toNat) ⟨db, [], [], 0⟩
          (by
            intro k hk
            have := (mem_descFrom _ _ _).1 hk
            omega)
          (descFrom_ne_min db t hmin)
          ⟨[], [], rfl, rfl, by simp⟩
        obtain ⟨flushed, pending, h1, h2, h3⟩ := hinv
        have hdb : ∃ keys : List Bytes, (∀ key ∈ keys, PurgeKey t key) ∧
            (purgeLoop c txIndexDB.isSome batchSize skipMissing
              (descFrom (t - 1) (t - oldestHeight db).toNat) ⟨db, [], [], 0⟩).1.db
              = DB.write db (keys.map Op.del) :=
          ⟨flushed, fun key hkey => h3 key (List.mem_append_left _ hkey), h1⟩
        have hfin : ∀ (sc ro co : Bool), ∃ keys : List Bytes, (∀ key ∈ keys, PurgeKey t key) ∧
            (purgeFinish c (purgeLoop c txIndexDB.isSome batchSize skipMissing
              (descFrom (t - 1) (t - oldestHeight db).toNat) ⟨db, [], [], 0⟩).1 txIndexDB
              sc ro co).blockDB = DB.write db (keys.map Op.del) := by
          intro sc ro co
          refine ⟨flushed ++ pending, h3, ?_⟩
          have : ∀ r : Result, r = purgeFinish c (purgeLoop c txIndexDB.isSome batchSize
              skipMissing (descFrom (t - 1) (t - oldestHeight db).toNat) ⟨db, [], [], 0⟩).1
              txIndexDB sc ro co →
              r.blockDB = DB.write db ((flushed ++ pending).map Op.del) := by
            intro r hr
            subst hr
            simp only [purgeFinish, h1, h2, List.map_append, DB.write_append]
            split
            · rfl
            · split
              · rfl
              · split <;> rfl
          exact this _ rfl
        unfold purgeRun
        rw [if_neg hmin]
        split
        · rename_i st heq
          have : st = (purgeLoop c txIndexDB.isSome batchSize skipMissing
              (descFrom (t - 1) (t - oldestHeight db).toNat) ⟨db, [], [], 0⟩).1 := by
            rw [heq]
          subst this
          exact hdb
        · rename_i st heq
          have : st = (purgeLoop c txIndexDB.isSome batchSize skipMissing
              (descFrom (t - 1) (t - oldestHeight db).toNat) ⟨db, [], [], 0⟩).1 := by
            rw [heq]
          subst this
          exact hfin _ _ _
        · rename_i st heq
          have : st = (purgeLoop c txIndexDB.isSome batchSize skipMissing
              (descFrom (t - 1) (t - oldestHeight db).toNat) ⟨db, [], [], 0⟩).1 := by
            rw [heq]
          subst this
          exact hfin _ _ _


theorem not_purgeKey_meta {t k : Int} (hk : t ≤ k) : ¬ PurgeKey t (calcBlockMetaKey k) := by
  rintro ⟨j, ⟨hj, h | h | ⟨i, h⟩⟩ | ⟨hj, h⟩⟩
  · have := metaKey_inj h
    omega
  · exact metaKey_ne_seenKey _ _ h
  · exact metaKey_ne_partKey _ _ _ h
  · exact metaKey_ne_commitKey _ _ h

theorem not_purgeKey_seen {t k : Int} (hk : t ≤ k) : ¬ PurgeKey t (calcSeenCommitKey k) := by
  rintro ⟨j, ⟨hj, h | h | ⟨i, h⟩⟩ | ⟨hj, h⟩⟩
  · exact metaKey_ne_seenKey _ _ h.symm
  · have := seenKey_inj h
    omega
  · exact partKey_ne_seenKey _ _ _ h.symm
  · exact commitKey_ne_seenKey _ _ h.symm

theorem not_purgeKey_part {t k : Int} (i : Int) (hk : t ≤ k) :
    ¬ PurgeKey t (calcBlockPartKey k i) := by
  rintro ⟨j, ⟨hj, h | h | ⟨i1, h⟩⟩ | ⟨hj, h⟩⟩
  · exact metaKey_ne_partKey _ _ _ h.symm
  · exact partKey_ne_seenKey _ _ _ h
  · have := (partKey_inj h).1
    omega
  · exact partKey_ne_commitKey _ _ _ h

theorem not_purgeKey_commit {t k : Int} (hk : t - 1 ≤ k) :
    ¬ PurgeKey t (calcBlockCommitKey k) := by
  rintro ⟨j, ⟨hj, h | h | ⟨i, h⟩⟩ | ⟨hj, h⟩⟩
  · exact metaKey_ne_commitKey _ _ h.symm
  · exact commitKey_ne_seenKey _ _ h
  · exact partKey_ne_commitKey _ _ _ h.symm
  · have := commitKey_inj h
    omega

theorem not_purgeKey_state (t : Int) : ¬ PurgeKey t blockStoreKey := by
  rintro ⟨j, ⟨hj, h | h | ⟨i, h⟩⟩ | ⟨hj, h⟩⟩
  · exact metaKey_ne_state _ h.symm
  · exact seenKey_ne_state _ h.symm
  · exact partKey_ne_state _ _ h.symm
  · exact commitKey_ne_state _ h.symm

/-- C6, as amended: for every store whose computed oldest height is not `-2^63`, every
target `t` and every setting of the other arguments, and however the run ends, a key whose
value differs after `Purge` is of one of the forms `H:k`, `P:k:i`, `SC:k` with `k < t` or
`C:k` with `k < t - 1` and is absent afterwards; so the records `H:k`, `P:k:i`, `SC:k` of
every `k >= t`, the records `C:k` of every `k >= t - 1` and the recorded height are
unchanged. -/
theorem purge_frame (c : Collab) (db : DB) (txIndexDB : Option DB)
    (t batchSize logLevel : Int) (skipMissing skipCompaction reopenOk compactOk : Bool)
    (hmin : oldestHeight db ≠ -(2 : Int) ^ 63) :
    (∀ key : Bytes,
        DB.get (Purge c db txIndexDB t batchSize logLevel skipMissing skipCompaction reopenOk
          compactOk).blockDB key ≠ DB.get db key →
        PurgeKey t key ∧
          DB.get (Purge c db txIndexDB t batchSize logLevel skipMissing skipCompaction
            reopenOk compactOk).blockDB key = none)
      ∧ (∀ k : Int, t ≤ k →
          DB.get (Purge c db txIndexDB t batchSize logLevel skipMissing skipCompaction
              reopenOk compactOk).blockDB (calcBlockMetaKey k) = DB.get db (calcBlockMetaKey k)
            ∧ DB.get (Purge c db txIndexDB t batchSize logLevel skipMissing skipCompaction
              reopenOk compactOk).blockDB (calcSeenCommitKey k)
              = DB.get db (calcSeenCommitKey k)
            ∧ ∀ i : Int, DB.get (Purge c db txIndexDB t batchSize logLevel skipMissing
              skipCompaction reopenOk compactOk).blockDB (calcBlockPartKey k i)
              = DB.get db (calcBlockPartKey k i))
      ∧ (∀ k : Int, t - 1 ≤ k →
          DB.get (Purge c db txIndexDB t batchSize logLevel skipMissing skipCompaction
            reopenOk compactOk).blockDB (calcBlockCommitKey k)
            = DB.get db (calcBlockCommitKey k))
      ∧ Height c (Purge c db txIndexDB t batchSize logLevel skipMissing skipCompaction
          reopenOk compactOk).blockDB = Height c db := by
  obtain ⟨keys, hkeys, hdb⟩ := purge_blockDB c db txIndexDB t batchSize logLevel skipMissing
    skipCompaction reopenOk compactOk hmin
  rw [hdb]
  have same : ∀ key : Bytes, ¬ PurgeKey t key →
      DB.get (DB.write db (keys.map Op.del)) key = DB.get db key := by
    intro key hkey
    rw [DB.get_write_dels, if_neg (fun h => hkey (hkeys key h))]
  refine ⟨?_, fun k hk => ⟨same _ (not_purgeKey_meta hk), same _ (not_purgeKey_seen hk),
    fun i => same _ (not_purgeKey_part i hk)⟩, fun k hk => same _ (not_purgeKey_commit hk), ?_⟩
  · intro key hne
    rw [DB.get_write_dels] at hne ⊢
    by_cases hmem : key ∈ keys
    · exact ⟨hkeys key hmem, by rw [if_pos hmem]⟩
    · rw [if_neg hmem] at hne
      exact absurd rfl hne
  · simp only [Height, same _ (not_purgeKey_state t)]

/-- C6 witness: purging the store of heights 1..10 below 8 leaves the metadata of height 8,
the commit `C:7` and the recorded height as they were, while the metadata of height 7 is
gone. -/
theorem purge_frame_witness :
    DB.get (Purge sampleCollab tenBlocks none 8 3 0 false true true true).blockDB
        (calcBlockMetaKey 8) = DB.get tenBlocks (calcBlockMetaKey 8)
      ∧ DB.get (Purge sampleCollab tenBlocks none 8 3 0 false true true true).blockDB
        (calcBlockCommitKey 7) = DB.get tenBlocks (calcBlockCommitKey 7)
      ∧ Height sampleCollab (Purge sampleCollab tenBlocks none 8 3 0 false true true
        true).blockDB = some 10
      ∧ DB.has (Purge sampleCollab tenBlocks none 8 3 0 false true true true).blockDB
        (calcBlockMetaKey 7) = false :=
  have h := purge_frame sampleCollab tenBlocks none 8 3 0 false true true true (by decide)
  ⟨(h.2.1 8 (by decide)).1, h.2.2.1 7 (by decide), h.2.2.2.trans (by decide), by decide⟩

/-- C6, as stated, fails where the first metadata key parses to `-2^63`: with target
`-2^63 + 1`, batch size 1 and `skipMissing = false` the loop visits the height `-2^63`, where
the int64 `height - 1` is `2^63 - 1`, and deletes the commit `C:9223372036854775807`; the
counter then wraps to `2^63 - 1`, no metadata is found there and the run returns nil.  The
deleted key is a `C:k` with `k >= t - 1`. -/
theorem purge_wraps_below_minimum_height :
    Height sampleCollab minHeightStore = some 10
      ∧ oldestHeight minHeightStore = -(2 : Int) ^ 63
      ∧ (Purge sampleCollab minHeightStore none (-(2 : Int) ^ 63 + 1) 1 0 false true true
          true).outcome = Outcome.ok
      ∧ DB.get minHeightStore (calcBlockCommitKey (2 ^ 63 - 1)) = some [8]
      ∧ DB.get (Purge sampleCollab minHeightStore none (-(2 : Int) ^ 63 + 1) 1 0 false true
          true true).blockDB (calcBlockCommitKey (2 ^ 63 - 1)) = none
      ∧ ¬ ((2 : Int) ^ 63 - 1 < (-(2 : Int) ^ 63 + 1) - 1) := by
  decide


/-! ## Purge: what the loop deletes -/

theorem LoadBlockMeta_congr (c : Collab) {a b : DB} {k : Int}
    (h : DB.get a (calcBlockMetaKey k) = DB.get b (calcBlockMetaKey k)) :
    LoadBlockMeta c a k = LoadBlockMeta c b k := by
  simp only [LoadBlockMeta, h]

theorem metaKey_not_mem_blockKeys {j k : Int} (total : Int) (h : j ≠ k) :
    calcBlockMetaKey j ∉ blockKeys k total := by
  intro hm
  rcases (mem_blockKeys _ _ _).1 hm with h1 | ⟨i, _, _, h1⟩ | h1 | h1
  · exact h (metaKey_inj h1)
  · exact metaKey_ne_partKey _ _ _ h1
  · exact metaKey_ne_commitKey _ _ h1
  · exact metaKey_ne_seenKey _ _ h1

/-- Without a tx index, with a non-zero batch size and every present metadata decodable, the
purge loop does not panic, and the writes it makes and queues amount to deleting the keys of
the heights `purgedHeights` names. -/
theorem purgeLoop_spec (c : Collab) (db0 : DB) (batchSize : Int) (skipMissing : Bool)
    (hbs : batchSize ≠ 0) : ∀ (hs : List Int) (st : PurgeState) (pend : List Bytes),
    (∀ k ∈ hs, k ≠ -(2 : Int) ^ 63) →
    hs.Nodup →
    (∀ k ∈ hs, DB.get st.db (calcBlockMetaKey k) = DB.get db0 (calcBlockMetaKey k)) →
    st.batch = pend.map Op.del →
    (∀ key ∈ pend, ∀ k ∈ hs, key ≠ calcBlockMetaKey k) →
    (∀ k ∈ purgedHeights db0 skipMissing hs, ∃ m, LoadBlockMeta c db0 k = .found m) →
    (purgeLoop c false batchSize skipMissing hs st).2 ≠ .panicked
      ∧ (skipMissing = true → (purgeLoop c false batchSize skipMissing hs st).2 = .finished)
      ∧ DB.write (purgeLoop c false batchSize skipMissing hs st).1.db
          (purgeLoop c false batchSize skipMissing hs st).1.batch
        = DB.write (DB.write st.db st.batch)
            (((purgedHeights db0 skipMissing hs).flatMap
              fun k => blockKeys k (declaredTotal c db0 k)).map Op.del) := by
  intro hs
  induction hs with
  | nil =>
    intro st pend _ _ _ _ _ _
    cases skipMissing <;> simp [purgeLoop, purgedHeights, DB.write]
  | cons k rest ih =>
    intro st pend hne hnd hget hbatch hpend hdec
    have hne1 : ∀ j ∈ rest, j ≠ -(2 : Int) ^ 63 :=
      fun j hj => hne j (List.mem_cons_of_mem _ hj)
    have hops := fun total : Int =>
      purgeBlockOps_eq k total (hne k (List.mem_cons_self _ _))
    have hnd1 : rest.Nodup := (List.nodup_cons.1 hnd).2
    have hk_rest : ∀ j ∈ rest, j ≠ k := by
      intro j hj hjk
      exact (List.nodup_cons.1 hnd).1 (hjk ▸ hj)
    have hget1 : ∀ j ∈ rest, DB.get st.db (calcBlockMetaKey j)
        = DB.get db0 (calcBlockMetaKey j) := fun j hj => hget j (List.mem_cons_of_mem _ hj)
    have hhas : DB.has st.db (calcBlockMetaKey k) = DB.has db0 (calcBlockMetaKey k) := by
      simp only [DB.has, hget k (List.mem_cons_self _ _)]
    by_cases hp : DB.has db0 (calcBlockMetaKey k) = true
    · -- the height holds metadata: its keys are queued
      have hpurged : purgedHeights db0 skipMissing (k :: rest)
          = k :: purgedHeights db0 skipMissing rest := by
        cases skipMissing <;> simp [purgedHeights, hp]
      rw [hpurged] at hdec
      obtain ⟨m, hm⟩ := hdec k (List.mem_cons_self _ _)
      have hdec1 : ∀ j ∈ purgedHeights db0 skipMissing rest,
          ∃ m, LoadBlockMeta c db0 j = .found m :=
        fun j hj => hdec j (List.mem_cons_of_mem _ hj)
      have hm1 : LoadBlockMeta c st.db k = .found m := by
        rw [LoadBlockMeta_congr c (hget k (List.mem_cons_self _ _)), hm]
      have hfresh : ∀ key ∈ pend ++ blockKeys k m.partsTotal, ∀ j ∈ rest,
          key ≠ calcBlockMetaKey j := by
        intro key hkey j hj hkj
        rcases List.mem_append.1 hkey with h | h
        · exact hpend key h j (List.mem_cons_of_mem _ hj) hkj
        · exact metaKey_not_mem_blockKeys m.partsTotal (hk_rest j hj) (hkj ▸ h)
      have hstep : purgeLoop c false batchSize skipMissing (k :: rest) st
          = if Int.tmod st.numHeight batchSize = 0 then
              purgeLoop c false batchSize skipMissing rest
                ⟨DB.write st.db (st.batch ++ deleteBlockOps k m.partsTotal), [],
                  st.txs ++ [], st.numHeight + 1⟩
            else
              purgeLoop c false batchSize skipMissing rest
                ⟨st.db, st.batch ++ deleteBlockOps k m.partsTotal, st.txs ++ [],
                  st.numHeight + 1⟩ := by
        rw [purgeLoop]
        simp only [hhas, hp, Bool.not_true, Bool.false_eq_true, if_false, hm1, hbs, hops]
      have hbatch1 : st.batch ++ deleteBlockOps k m.partsTotal
          = (pend ++ blockKeys k m.partsTotal).map Op.del := by
        simp only [hbatch, deleteBlockOps_eq, List.map_append]
      have htarget : DB.write (DB.write st.db st.batch)
            (((purgedHeights db0 skipMissing (k :: rest)).flatMap
              fun k => blockKeys k (declaredTotal c db0 k)).map Op.del)
          = DB.write (DB.write st.db (st.batch ++ deleteBlockOps k m.partsTotal))
            (((purgedHeights db0 skipMissing rest).flatMap
              fun k => blockKeys k (declaredTotal c db0 k)).map Op.del) := by
        rw [hpurged, List.flatMap_cons, List.map_append, DB.write_append, DB.write_append,
          declaredTotal_found hm, deleteBlockOps_eq]
      rw [hstep, htarget]
      split
      · -- the batch is written
        have hget2 : ∀ j ∈ rest,
            DB.get (DB.write st.db (st.batch ++ deleteBlockOps k m.partsTotal))
              (calcBlockMetaKey j) = DB.get db0 (calcBlockMetaKey j) := by
          intro j hj
          rw [hbatch1, DB.get_write_dels,
            if_neg (fun hmem => hfresh _ hmem j hj rfl), hget1 j hj]
        have := ih ⟨DB.write st.db (st.batch ++ deleteBlockOps k m.partsTotal), [],
          st.txs ++ [], st.numHeight + 1⟩ [] hne1 hnd1 hget2 rfl (by simp) hdec1
        simpa [DB.write] using this
      · have := ih ⟨st.db, st.batch ++ deleteBlockOps k m.partsTotal, st.txs ++ [],
          st.numHeight + 1⟩ (pend ++ blockKeys k m.partsTotal) hne1 hnd1 hget1 hbatch1 hfresh
          hdec1
        exact this
    · -- the height holds no metadata
      have hp1 : DB.has db0 (calcBlockMetaKey k) = false := by simpa using hp
      cases skipMissing with
      | true =>
        have hstep : purgeLoop c false batchSize true (k :: rest) st
            = purgeLoop c false batchSize true rest st := by
          rw [purgeLoop]
          simp only [hhas, hp1, Bool.not_false, if_true]
        have hpurged : purgedHeights db0 true (k :: rest) = purgedHeights db0 true rest := by
          simp [purgedHeights, hp1]
        rw [hpurged] at hdec
        rw [hstep, hpurged]
        exact ih st pend hne1 hnd1 hget1 hbatch
          (fun key hkey j hj => hpend key hkey j (List.mem_cons_of_mem _ hj)) hdec
      | false =>
        have hstep : purgeLoop c false batchSize false (k :: rest) st = (st, .broke) := by
          rw [purgeLoop]
          simp only [hhas, hp1, Bool.not_false, if_true, Bool.false_eq_true, if_false]
        have hpurged : purgedHeights db0 false (k :: rest) = [] := by
          simp [purgedHeights, hp1]
        rw [hstep, hpurged]
        simp [DB.write]


theorem descFrom_nodup (n : Nat) : ∀ hi : Int, (descFrom hi n).Nodup := by
  induction n with
  | zero => intro hi; simp [descFrom]
  | succ n ih =>
    intro hi
    rw [descFrom, List.nodup_cons]
    refine ⟨fun h => ?_, ih _⟩
    have := (mem_descFrom _ _ _).1 h
    omega

/-- The end state of `Purge` without a tx index, for a target that passes both checks, a
non-zero batch size, a computed oldest height above `-2^63` and decodable metadata at the
heights it deletes: no panic, and the keys of the purged heights deleted. -/
theorem purge_result (c : Collab) (db : DB) (t batchSize logLevel H : Int)
    (skipMissing skipCompaction reopenOk compactOk : Bool)
    (hH : Height c db = some H) (ht : t ≤ H) (ho : oldestHeight db < t)
    (hmin : oldestHeight db ≠ -(2 : Int) ^ 63) (hbs : batchSize ≠ 0)
    (hdec : ∀ k ∈ purgedHeights db skipMissing
        (descFrom (t - 1) (t - oldestHeight db).toNat),
      ∃ m, LoadBlockMeta c db k = .found m) :
    (Purge c db none t batchSize logLevel skipMissing skipCompaction reopenOk
        compactOk).outcome
        = (if !skipCompaction && !(reopenOk && compactOk) then Outcome.compactionError
           else Outcome.ok)
      ∧ (Purge c db none t batchSize logLevel skipMissing skipCompaction reopenOk
          compactOk).blockDB
        = DB.write db (((purgedHeights db skipMissing
            (descFrom (t - 1) (t - oldestHeight db).toNat)).flatMap
              fun k => blockKeys k (declaredTotal c db k)).map Op.del) := by
  have hloop := purgeLoop_spec c db batchSize skipMissing hbs
    (descFrom (t - 1) (t - oldestHeight db).toNat) ⟨db, [], [], 0⟩ []
    (descFrom_ne_min db t hmin) (descFrom_nodup _ _) (fun _ _ => rfl) rfl (by simp) hdec
  have h1 : ¬ t > H := by omega
  have h2 : ¬ oldestHeight db ≥ t := by omega
  have hfin : ∀ st : PurgeState,
      (purgeFinish c st none skipCompaction reopenOk compactOk).outcome
        = (if !skipCompaction && !(reopenOk && compactOk) then Outcome.compactionError
           else Outcome.ok)
      ∧ (purgeFinish c st none skipCompaction reopenOk compactOk).blockDB
        = DB.write st.db st.batch := by
    intro st
    simp only [purgeFinish]
    split <;> simp
  simp only [Purge, hH, h1, h2, if_false, purgeRun, hmin, Option.isSome_none]
  simp only [DB.write, List.foldl_nil] at hloop
  split
  · rename_i st heq
    rw [heq] at hloop
    exact absurd rfl hloop.1
  · rename_i st heq
    rw [heq] at hloop
    exact ⟨(hfin st).1, (hfin st).2.trans hloop.2.2⟩
  · rename_i st heq
    rw [heq] at hloop
    exact ⟨(hfin st).1, (hfin st).2.trans hloop.2.2⟩


/-! ## Purge past gaps -/

theorem has_eq_false_of_get {db : DB} {key : Bytes} (h : DB.get db key = none) :
    DB.has db key = false := by
  simp [DB.has, h]

theorem get_of_has_eq_false {db : DB} {key : Bytes} (h : DB.has db key = false) :
    DB.get db key = none := by
  simpa [DB.has] using h

/-- After a batch of deletions a key is absent when it was deleted or absent before. -/
theorem has_write_dels_false (db : DB) (keys : List Bytes) (key : Bytes)
    (h : key ∈ keys ∨ DB.has db key = false) :
    DB.has (DB.write db (keys.map Op.del)) key = false := by
  apply has_eq_false_of_get
  rw [DB.get_write_dels]
  split
  · rfl
  · rcases h with h | h
    · contradiction
    · exact get_of_has_eq_false h

theorem has_meta_of_found {c : Collab} {db : DB} {k : Int} {m : BlockMeta}
    (h : LoadBlockMeta c db k = .found m) : DB.has db (calcBlockMetaKey k) = true := by
  unfold LoadBlockMeta at h
  cases hg : DB.get db (calcBlockMetaKey k) with
  | none => rw [hg] at h; cases h
  | some bz => simp [DB.has, hg]

/-- C7 (amended): for a store in which every height in `[o, t)` either holds metadata that
decodes or holds no metadata, seen-commit or part record at all, and in which part records
lie below the part total their metadata declares, for a target `t <= H` and computed oldest
height `o` with `-2^63 < o < t`, `Purge(t, nil, batchSize > 0, logLevel, skipMissing = true,
skipCompaction = true)` returns nil and leaves no metadata, seen-commit or part record of any
height in `[o, t)`, whichever of those heights were missing beforehand. -/
theorem purge_skipMissing (c : Collab) (db : DB) (t batchSize logLevel H : Int)
    (reopenOk compactOk : Bool)
    (hH : Height c db = some H) (ht : t ≤ H) (ho : oldestHeight db < t)
    (hmin : oldestHeight db ≠ -(2 : Int) ^ 63) (hbs : 0 < batchSize)
    (hgroup : ∀ k : Int, oldestHeight db ≤ k → k < t →
      (∃ m, LoadBlockMeta c db k = .found m)
        ∨ (DB.has db (calcBlockMetaKey k) = false ∧ DB.has db (calcSeenCommitKey k) = false
            ∧ ∀ i : Int, DB.has db (calcBlockPartKey k i) = false))
    (hparts : PartsWithinTotal c db (oldestHeight db - 1) (t - 1)) :
    (Purge c db none t batchSize logLevel true true reopenOk compactOk).outcome = .ok
      ∧ ∀ k : Int, oldestHeight db ≤ k → k < t →
        DB.has (Purge c db none t batchSize logLevel true true reopenOk compactOk).blockDB
            (calcBlockMetaKey k) = false
          ∧ DB.has (Purge c db none t batchSize logLevel true true reopenOk compactOk).blockDB
            (calcSeenCommitKey k) = false
          ∧ ∀ i : Int,
            DB.has (Purge c db none t batchSize logLevel true true reopenOk compactOk).blockDB
              (calcBlockPartKey k i) = false := by
  have hres := purge_result c db t batchSize logLevel H true true reopenOk compactOk hH ht ho
    hmin (by omega) (by
      intro k hk
      simp only [purgedHeights, if_true, List.mem_filter] at hk
      have hr := (mem_descFrom _ _ _).1 hk.1
      rcases hgroup k (by omega) (by omega) with h | h
      · exact h
      · rw [h.1] at hk
        exact absurd hk.2 (by simp))
  rw [hres.2]
  refine ⟨by simpa using hres.1, ?_⟩
  intro k hk1 hk2
  rcases hgroup k hk1 hk2 with ⟨m, hm⟩ | habs
  · -- the height held metadata: it is purged
    have hmem : k ∈ purgedHeights db true (descFrom (t - 1) (t - oldestHeight db).toNat) := by
      simp only [purgedHeights, if_true, List.mem_filter]
      exact ⟨(mem_descFrom _ _ _).2 ⟨by omega, by omega⟩, has_meta_of_found hm⟩
    have hin : ∀ key ∈ blockKeys k (declaredTotal c db k),
        key ∈ (purgedHeights db true (descFrom (t - 1) (t - oldestHeight db).toNat)).flatMap
          fun k => blockKeys k (declaredTotal c db k) :=
      fun key hkey => List.mem_flatMap.2 ⟨k, hmem, hkey⟩
    refine ⟨has_write_dels_false _ _ _ (Or.inl (hin _ ((mem_blockKeys _ _ _).2 (Or.inl rfl)))),
      has_write_dels_false _ _ _
        (Or.inl (hin _ ((mem_blockKeys _ _ _).2 (Or.inr (Or.inr (Or.inr rfl)))))), ?_⟩
    intro i
    by_cases hp : DB.has db (calcBlockPartKey k i) = true
    · have := hparts k i (by omega) (by omega) hp
      exact has_write_dels_false _ _ _ (Or.inl (hin _ ((mem_blockKeys _ _ _).2
        (Or.inr (Or.inl ⟨i, this.1, this.2, rfl⟩)))))
    · exact has_write_dels_false _ _ _ (Or.inr (by simpa using hp))
  · exact ⟨has_write_dels_false _ _ _ (Or.inr habs.1),
      has_write_dels_false _ _ _ (Or.inr habs.2.1),
      fun i => has_write_dels_false _ _ _ (Or.inr (habs.2.2 i))⟩

/-- A sample store holds no metadata, seen-commit or part record of a height that is not
listed. -/
theorem sampleStore_absent (recorded : Int) (blocks : List (Int × Nat × Nat)) (k : Int)
    (hk : ∀ b ∈ blocks, b.1 ≠ k) :
    DB.has (sampleStore recorded blocks) (calcBlockMetaKey k) = false
      ∧ DB.has (sampleStore recorded blocks) (calcSeenCommitKey k) = false
      ∧ ∀ i : Int, DB.has (sampleStore recorded blocks) (calcBlockPartKey k i) = false := by
  have key_false : ∀ key : Bytes, ¬ DB.has (sampleStore recorded blocks) key = true →
      DB.has (sampleStore recorded blocks) key = false := by
    intro key h
    simpa using h
  refine ⟨key_false _ ?_, key_false _ ?_, fun i => key_false _ ?_⟩
  · intro h
    rcases has_sampleStore h with h1 | ⟨b, hbm, h1 | ⟨i, _, h1⟩ | h1 | h1⟩
    · exact metaKey_ne_state _ h1
    · exact hk b hbm (metaKey_inj h1).symm
    · exact metaKey_ne_partKey _ _ _ h1
    · exact metaKey_ne_commitKey _ _ h1
    · exact metaKey_ne_seenKey _ _ h1
  · intro h
    rcases has_sampleStore h with h1 | ⟨b, hbm, h1 | ⟨i, _, h1⟩ | h1 | h1⟩
    · exact seenKey_ne_state _ h1
    · exact metaKey_ne_seenKey _ _ h1.symm
    · exact partKey_ne_seenKey _ _ _ h1.symm
    · exact commitKey_ne_seenKey _ _ h1.symm
    · exact hk b hbm (seenKey_inj h1).symm
  · intro h
    rcases has_sampleStore h with h1 | ⟨b, hbm, h1 | ⟨j, _, h1⟩ | h1 | h1⟩
    · exact partKey_ne_state _ _ h1
    · exact metaKey_ne_partKey _ _ _ h1.symm
    · exact hk b hbm (partKey_inj h1).1.symm
    · exact partKey_ne_commitKey _ _ _ h1
    · exact partKey_ne_seenKey _ _ _ h1

/-- The part records of a sample store lie below the declared totals when every listed
group stores no more parts than the metadata read at its height declares. -/
theorem sampleStore_partsWithin (recorded : Int) (blocks : List (Int × Nat × Nat))
    (lo hi : Int)
    (h : ∀ b ∈ blocks,
      (b.2.2 : Int) ≤ declaredTotal sampleCollab (sampleStore recorded blocks) b.1) :
    PartsWithinTotal sampleCollab (sampleStore recorded blocks) lo hi := by
  intro k i _ _ hp
  obtain ⟨b, hb, hbk, h0, hlt⟩ := sampleStore_part hp
  have := h b hb
  rw [hbk] at this
  exact ⟨h0, by omega⟩

theorem gappedBlocks_group (k : Int) (h1 : 1 ≤ k) (h2 : k < 8) :
    (∃ m, LoadBlockMeta sampleCollab gappedBlocks k = .found m)
      ∨ (DB.has gappedBlocks (calcBlockMetaKey k) = false
          ∧ DB.has gappedBlocks (calcSeenCommitKey k) = false
          ∧ ∀ i : Int, DB.has gappedBlocks (calcBlockPartKey k i) = false) := by
  by_cases h5 : k = 5
  · subst h5
    exact Or.inr (sampleStore_absent _ _ 5 (by decide))
  · refine Or.inl ⟨⟨2, []⟩, ?_⟩
    interval_cases k <;> first | decide | exact absurd rfl h5

/-- C7 witness: the store of heights 1..4 and 6..10, purged below 8 with `skipMissing`,
holds no metadata, seen-commit or part record of the heights 1..7 afterwards. -/
theorem purge_skipMissing_witness :
    Height sampleCollab gappedBlocks = some 10 ∧ oldestHeight gappedBlocks = 1
      ∧ DB.has gappedBlocks (calcBlockMetaKey 5) = false
      ∧ (Purge sampleCollab gappedBlocks none 8 3 0 true true true true).outcome = .ok
      ∧ ∀ k : Int, 1 ≤ k → k < 8 →
        DB.has (Purge sampleCollab gappedBlocks none 8 3 0 true true true true).blockDB
            (calcBlockMetaKey k) = false
          ∧ DB.has (Purge sampleCollab gappedBlocks none 8 3 0 true true true true).blockDB
            (calcSeenCommitKey k) = false
          ∧ ∀ i : Int,
            DB.has (Purge sampleCollab gappedBlocks none 8 3 0 true true true true).blockDB
              (calcBlockPartKey k i) = false :=
  have ho : oldestHeight gappedBlocks = 1 := by decide
  have main := purge_skipMissing sampleCollab gappedBlocks 8 3 0 10 true true (by decide)
    (by decide) (by decide) (by decide) (by decide)
    (fun k h1 h2 => gappedBlocks_group k (by rw [ho] at h1; exact h1) h2)
    (sampleStore_partsWithin _ _ _ _ (by decide))
  ⟨by decide, ho, by decide, main.1, fun k h1 h2 => main.2 k (by rw [ho]; exact h1) h2⟩

/-- C7 counterexample: every height of the store either holds its metadata or no record at
all, the target 2 passes both checks, and after `Purge(2, nil, 1, 0, true, true)` the part
`P:1:0`, stored beyond the declared total of height 1, is still present. -/
theorem purge_skipMissing_leaves_undeclared_part :
    Height sampleCollab extraPartBelow = some 2 ∧ oldestHeight extraPartBelow = 1
      ∧ (∀ k : Int, DB.has extraPartBelow (calcBlockMetaKey k) = false →
          DB.has extraPartBelow (calcSeenCommitKey k) = false
            ∧ ∀ i : Int, DB.has extraPartBelow (calcBlockPartKey k i) = false)
      ∧ (Purge sampleCollab extraPartBelow none 2 1 0 true true true true).outcome = .ok
      ∧ DB.has (Purge sampleCollab extraPartBelow none 2 1 0 true true true true).blockDB
          (calcBlockPartKey 1 0) = true := by
  refine ⟨by decide, by decide, ?_, by decide, by decide⟩
  intro k hk
  have hne : ∀ b ∈ [((1 : Int), (0 : Nat), (1 : Nat)), (2, 1, 1)], b.1 ≠ k := by
    intro b hb hbk
    simp only [List.mem_cons, List.mem_singleton, List.not_mem_nil, or_false] at hb
    rcases hb with rfl | rfl
    · subst hbk
      exact absurd hk (by decide)
    · subst hbk
      exact absurd hk (by decide)
  exact (sampleStore_absent 2 _ k hne).2


/-! ## Purge stopping at a gap -/

theorem mem_takeWhile_descFrom (p : Int → Bool) : ∀ (n : Nat) (hi k : Int),
    (∀ j, k ≤ j → j ≤ hi → p j = true) → hi - n < k → k ≤ hi →
    k ∈ (descFrom hi n).takeWhile p := by
  intro n
  induction n with
  | zero => intro hi k _ h1 h2; simp at h1; omega
  | succ n ih =>
    intro hi k hp h1 h2
    rw [descFrom, List.takeWhile_cons, if_pos (hp hi h2 (le_refl _))]
    by_cases hk : k = hi
    · rw [hk]; exact List.mem_cons_self _ _
    · refine List.mem_cons_of_mem _ (ih (hi - 1) k (fun j hj1 hj2 => hp j hj1 (by omega)) ?_
        (by omega))
      push_cast at h1
      omega

theorem gt_of_mem_takeWhile_descFrom (p : Int → Bool) : ∀ (n : Nat) (hi k g : Int),
    k ∈ (descFrom hi n).takeWhile p → p g = false → g ≤ hi → g < k := by
  intro n
  induction n with
  | zero => intro hi k g h _ _; simp [descFrom] at h
  | succ n ih =>
    intro hi k g h hg hle
    rw [descFrom, List.takeWhile_cons] at h
    by_cases hp : p hi = true
    · rw [if_pos hp] at h
      have hne : g ≠ hi := by
        intro heq
        rw [heq, hp] at hg
        cases hg
      rcases List.mem_cons.1 h with h1 | h1
      · omega
      · exact ih (hi - 1) k g h1 hg (by omega)
    · rw [if_neg hp] at h
      cases h

/-- C3 (amended): for a target `t <= H`, computed oldest height `o` with `-2^63 < o < t`, a
non-zero batch size, and `g` the highest height in `[o, t)` without metadata (`g = o - 1`
when there is none), in a store whose metadata above `g` decodes and whose part records
there lie below the declared totals, `Purge(t, nil, batchSize, logLevel, skipMissing =
false, skipCompaction)` does not panic, leaves no metadata, seen-commit, commit (keyed by
`k - 1`) or part record of any height `k` in `(g, t)`, and leaves the records of the heights
up to `g` as they were. -/
theorem purge_stops_at_gap (c : Collab) (db : DB) (t batchSize logLevel H g : Int)
    (skipCompaction reopenOk compactOk : Bool)
    (hH : Height c db = some H) (ht : t ≤ H) (ho : oldestHeight db < t)
    (hmin : oldestHeight db ≠ -(2 : Int) ^ 63) (hbs : batchSize ≠ 0)
    (hg1 : oldestHeight db - 1 ≤ g) (hg2 : g < t)
    (hpresent : ∀ k : Int, g < k → k < t → ∃ m, LoadBlockMeta c db k = .found m)
    (hgap : oldestHeight db ≤ g → DB.has db (calcBlockMetaKey g) = false)
    (hparts : PartsWithinTotal c db g (t - 1)) :
    ((Purge c db none t batchSize logLevel false skipCompaction reopenOk compactOk).outcome
        = .ok ∨
      (Purge c db none t batchSize logLevel false skipCompaction reopenOk compactOk).outcome
        = .compactionError)
      ∧ (∀ k : Int, g < k → k < t →
        DB.has (Purge c db none t batchSize logLevel false skipCompaction reopenOk
            compactOk).blockDB (calcBlockMetaKey k) = false
          ∧ DB.has (Purge c db none t batchSize logLevel false skipCompaction reopenOk
            compactOk).blockDB (calcSeenCommitKey k) = false
          ∧ DB.has (Purge c db none t batchSize logLevel false skipCompaction reopenOk
            compactOk).blockDB (calcBlockCommitKey (k - 1)) = false
          ∧ ∀ i : Int,
            DB.has (Purge c db none t batchSize logLevel false skipCompaction reopenOk
              compactOk).blockDB (calcBlockPartKey k i) = false)
      ∧ (∀ k : Int, k ≤ g →
        DB.get (Purge c db none t batchSize logLevel false skipCompaction reopenOk
            compactOk).blockDB (calcBlockMetaKey k) = DB.get db (calcBlockMetaKey k)
          ∧ DB.get (Purge c db none t batchSize logLevel false skipCompaction reopenOk
            compactOk).blockDB (calcSeenCommitKey k) = DB.get db (calcSeenCommitKey k)
          ∧ ∀ i : Int,
            DB.get (Purge c db none t batchSize logLevel false skipCompaction reopenOk
              compactOk).blockDB (calcBlockPartKey k i) = DB.get db (calcBlockPartKey k i))
      ∧ (∀ k : Int, k < g →
        DB.get (Purge c db none t batchSize logLevel false skipCompaction reopenOk
          compactOk).blockDB (calcBlockCommitKey k) = DB.get db (calcBlockCommitKey k)) := by
  -- the purged heights are exactly those above `g`
  have habove : ∀ k ∈ purgedHeights db false (descFrom (t - 1) (t - oldestHeight db).toNat),
      g < k ∧ k < t := by
    intro k hk
    simp only [purgedHeights, Bool.false_eq_true, if_false] at hk
    have hmem := (mem_descFrom _ _ _).1 ((List.takeWhile_sublist _).subset hk)
    refine ⟨?_, by omega⟩
    by_cases hog : oldestHeight db ≤ g
    · exact gt_of_mem_takeWhile_descFrom _ _ _ k g hk (hgap hog) (by omega)
    · omega
  have hpurged : ∀ k : Int, g < k → k < t →
      k ∈ purgedHeights db false (descFrom (t - 1) (t - oldestHeight db).toNat) := by
    intro k hk1 hk2
    simp only [purgedHeights, Bool.false_eq_true, if_false]
    apply mem_takeWhile_descFrom
    · intro j hj1 hj2
      obtain ⟨m, hm⟩ := hpresent j (by omega) (by omega)
      exact has_meta_of_found hm
    · omega
    · omega
  have hres := purge_result c db t batchSize logLevel H false skipCompaction reopenOk compactOk
    hH ht ho hmin hbs (fun k hk => hpresent k (habove k hk).1 (habove k hk).2)
  rw [hres.1, hres.2]
  refine ⟨?_, ?_, ?_, ?_⟩
  · split <;> simp
  · intro k hk1 hk2
    have hin : ∀ key ∈ blockKeys k (declaredTotal c db k),
        key ∈ (purgedHeights db false (descFrom (t - 1) (t - oldestHeight db).toNat)).flatMap
          fun k => blockKeys k (declaredTotal c db k) :=
      fun key hkey => List.mem_flatMap.2 ⟨k, hpurged k hk1 hk2, hkey⟩
    refine ⟨has_write_dels_false _ _ _ (Or.inl (hin _ ((mem_blockKeys _ _ _).2 (Or.inl rfl)))),
      has_write_dels_false _ _ _
        (Or.inl (hin _ ((mem_blockKeys _ _ _).2 (Or.inr (Or.inr (Or.inr rfl)))))),
      has_write_dels_false _ _ _
        (Or.inl (hin _ ((mem_blockKeys _ _ _).2 (Or.inr (Or.inr (Or.inl rfl)))))), ?_⟩
    intro i
    by_cases hp : DB.has db (calcBlockPartKey k i) = true
    · have := hparts k i hk1 (by omega) hp
      exact has_write_dels_false _ _ _ (Or.inl (hin _ ((mem_blockKeys _ _ _).2
        (Or.inr (Or.inl ⟨i, this.1, this.2, rfl⟩)))))
    · exact has_write_dels_false _ _ _ (Or.inr (by simpa using hp))
  · intro k hk
    have keep : ∀ key : Bytes,
        (∀ j total, g < j → key ∉ blockKeys j total) →
        DB.get (DB.write db (((purgedHeights db false
            (descFrom (t - 1) (t - oldestHeight db).toNat)).flatMap
              fun k => blockKeys k (declaredTotal c db k)).map Op.del)) key
          = DB.get db key := by
      intro key hkey
      rw [DB.get_write_dels, if_neg]
      intro hmem
      obtain ⟨j, hj, hjk⟩ := List.mem_flatMap.1 hmem
      exact hkey j _ (habove j hj).1 hjk
    refine ⟨keep _ ?_, keep _ ?_, fun i => keep _ ?_⟩
    · intro j total hj
      exact metaKey_not_mem_blockKeys total (by omega)
    · intro j total hj hm
      rcases (mem_blockKeys _ _ _).1 hm with h1 | ⟨i, _, _, h1⟩ | h1 | h1
      · exact metaKey_ne_seenKey _ _ h1.symm
      · exact partKey_ne_seenKey _ _ _ h1.symm
      · exact commitKey_ne_seenKey _ _ h1.symm
      · have := seenKey_inj h1
        omega
    · intro j total hj hm
      rcases (mem_blockKeys _ _ _).1 hm with h1 | ⟨i1, _, _, h1⟩ | h1 | h1
      · exact metaKey_ne_partKey _ _ _ h1.symm
      · have := (partKey_inj h1).1
        omega
      · exact partKey_ne_commitKey _ _ _ h1
      · exact partKey_ne_seenKey _ _ _ h1
  · intro k hk
    rw [DB.get_write_dels, if_neg]
    intro hmem
    obtain ⟨j, hj, hjk⟩ := List.mem_flatMap.1 hmem
    have hj1 := (habove j hj).1
    rcases (mem_blockKeys _ _ _).1 hjk with h1 | ⟨i, _, _, h1⟩ | h1 | h1
    · exact metaKey_ne_commitKey _ _ h1.symm
    · exact partKey_ne_commitKey _ _ _ h1.symm
    · have := commitKey_inj h1
      omega
    · exact commitKey_ne_seenKey _ _ h1

/-- C3 witness: the store of heights 1..4 and 6..10, purged below 8 without `skipMissing`,
loses the groups of heights 6 and 7 and keeps the metadata of heights 1..4. -/
theorem purge_stops_at_gap_witness :
    Height sampleCollab gappedBlocks = some 10 ∧ oldestHeight gappedBlocks = 1
      ∧ DB.has gappedBlocks (calcBlockMetaKey 5) = false
      ∧ (∀ k : Int, 5 < k → k < 8 →
        DB.has (Purge sampleCollab gappedBlocks none 8 3 0 false true true true).blockDB
          (calcBlockMetaKey k) = false)
      ∧ (∀ k : Int, k ≤ 5 →
        DB.get (Purge sampleCollab gappedBlocks none 8 3 0 false true true true).blockDB
          (calcBlockMetaKey k) = DB.get gappedBlocks (calcBlockMetaKey k)) :=
  have main := purge_stops_at_gap sampleCollab gappedBlocks 8 3 0 10 5 true true true
    (by decide) (by decide) (by decide) (by decide) (by decide) (by decide) (by decide)
    (fun k h1 h2 => by
      refine ⟨⟨2, []⟩, ?_⟩
      interval_cases k <;> decide)
    (fun _ => by decide)
    (sampleStore_partsWithin _ _ _ _ (by decide))
  ⟨by decide, by decide, by decide, fun k h1 h2 => (main.2.1 k h1 h2).1,
    fun k hk => (main.2.2.1 k hk).1⟩

/-- C3 counterexample: in the store of heights 1..4 and 6..10 the oldest height is 1 and
the lowest missing height is 5, yet after `Purge(8, nil, 3, 0, false, true)` the heights
1..4 still hold their metadata: the walk descends from 7 and stops at the gap. -/
theorem purge_keeps_heights_below_gap :
    Height sampleCollab gappedBlocks = some 10 ∧ oldestHeight gappedBlocks = 1
      ∧ DB.has gappedBlocks (calcBlockMetaKey 1) = true
      ∧ DB.has gappedBlocks (calcBlockMetaKey 2) = true
      ∧ DB.has gappedBlocks (calcBlockMetaKey 3) = true
      ∧ DB.has gappedBlocks (calcBlockMetaKey 4) = true
      ∧ DB.has gappedBlocks (calcBlockMetaKey 5) = false
      ∧ (Purge sampleCollab gappedBlocks none 8 3 0 false true true true).outcome = .ok
      ∧ DB.has (Purge sampleCollab gappedBlocks none 8 3 0 false true true true).blockDB
          (calcBlockMetaKey 1) = true
      ∧ DB.has (Purge sampleCollab gappedBlocks none 8 3 0 false true true true).blockDB
          (calcBlockMetaKey 4) = true := by
  decide


/-! ## EVM state extraction -/

theorem entryPuts_batch (appVersion : Int) (key : Bytes) (value : Option Bytes)
    (batch : List Op) :
    (if decide (prefixKey [prefixStart, rootKey] = some key) = true then
        batch ++ [Op.put (evmRootKey appVersion) (putValue
          (if (decide (prefixKey [prefixStart, rootKey] = some key) && value.isNone) = true
            then some defaultRoot else value))]
      else batch)
      ++ [Op.put key (putValue
          (if (decide (prefixKey [prefixStart, rootKey] = some key) && value.isNone) = true
            then some defaultRoot else value))]
      = batch ++ entryPuts appVersion key value := by
  unfold entryPuts
  by_cases h : prefixKey [prefixStart, rootKey] = some key <;> simp [h]

/-- When the callback does not panic, the writes it makes and queues amount to the puts of
`copyPuts`, and it counts the leaves that have the prefix. -/
theorem copyEvmLoop_spec (writeFails : Nat → Bool) (appVersion : Int) (batchSize : Nat) :
    ∀ (leaves : List (Bytes × Option Bytes)) (st : CopyState),
    (copyEvmLoop writeFails appVersion batchSize leaves st).2 = false →
    DB.write (copyEvmLoop writeFails appVersion batchSize leaves st).1.dest
        (copyEvmLoop writeFails appVersion batchSize leaves st).1.batch
        = DB.write (DB.write st.dest st.batch) (copyPuts appVersion leaves)
      ∧ (copyEvmLoop writeFails appVersion batchSize leaves st).1.numKeys
        = st.numKeys + countCopied leaves := by
  intro leaves
  induction leaves with
  | nil => intro st _; simp [copyEvmLoop, copyPuts, countCopied, DB.write]
  | cons e rest ih =>
    obtain ⟨key, value⟩ := e
    intro st hok
    by_cases hp : hasPrefix key prefixStart = true
    · have hcount : countCopied ((key, value) :: rest) = countCopied rest + 1 := by
        simp [countCopied, hp]
      have hputs : copyPuts appVersion ((key, value) :: rest)
          = entryPuts appVersion key value ++ copyPuts appVersion rest := by
        simp [copyPuts, hp]
      rw [copyEvmLoop] at hok ⊢
      simp only [hp, Bool.not_true, Bool.false_eq_true, if_false, entryPuts_batch] at hok ⊢
      rw [hcount, hputs]
      split at hok
      · split at hok
        · cases hok
        · rename_i hlen hw
          rw [if_pos hlen, if_neg hw]
          have := ih _ hok
          simp only [DB.write_append] at this ⊢
          refine ⟨by simpa [DB.write] using this.1, ?_⟩
          rw [this.2]
          omega
      · rename_i hlen
        rw [if_neg hlen]
        have := ih _ hok
        simp only [DB.write_append] at this ⊢
        refine ⟨this.1, ?_⟩
        rw [this.2]
        omega
    · have hp1 : hasPrefix key prefixStart = false := by simpa using hp
      have hcount : countCopied ((key, value) :: rest) = countCopied rest := by
        simp [countCopied, hp1]
      have hputs : copyPuts appVersion ((key, value) :: rest) = copyPuts appVersion rest := by
        simp [copyPuts, hp1]
      rw [copyEvmLoop] at hok ⊢
      simp only [hp1, Bool.not_false, if_true] at hok ⊢
      rw [hcount, hputs]
      exact ih st hok

/-- The callback does not panic when no destination write fails. -/
theorem copyEvmLoop_no_fault (writeFails : Nat → Bool) (appVersion : Int) (batchSize : Nat)
    (hw : ∀ n, writeFails n = false) :
    ∀ (leaves : List (Bytes × Option Bytes)) (st : CopyState),
    (copyEvmLoop writeFails appVersion batchSize leaves st).2 = false := by
  intro leaves
  induction leaves with
  | nil => intro st; simp [copyEvmLoop]
  | cons e rest ih =>
    obtain ⟨key, value⟩ := e
    intro st
    rw [copyEvmLoop]
    by_cases hp : hasPrefix key prefixStart = true
    · simp only [hp, Bool.not_true, Bool.false_eq_true, if_false, entryPuts_batch, hw]
      split
      · exact ih _
      · exact ih _
    · have hp1 : hasPrefix key prefixStart = false := by simpa using hp
      simp only [hp1, Bool.not_false, if_true]
      exact ih _

/-- The destination after a run of `CopyEvmToLevelDb` that returns nil: the puts of the
visited leaves that have the prefix, and the default evmroot record when there is none. -/
theorem copyEvm_result (writeFails : Nat → Bool) (tree : Tree) (destDB : DB)
    (batchSize logLevel : Nat)
    (hok : (CopyEvmToLevelDb writeFails tree destDB batchSize logLevel).1 = .ok) :
    (CopyEvmToLevelDb writeFails tree destDB batchSize logLevel).2
      = DB.write destDB (copyPuts tree.version (tree.rangeLeaves prefixStart prefixEnd)
          ++ (if countCopied (tree.rangeLeaves prefixStart prefixEnd) = 0
              then [Op.put (evmRootKey tree.version) defaultRoot] else [])) := by
  unfold CopyEvmToLevelDb at hok ⊢
  split at hok
  · cases hok
  · rename_i st heq
    have hspec := copyEvmLoop_spec writeFails tree.version batchSize
      (tree.rangeLeaves prefixStart prefixEnd) ⟨destDB, [], 0, 0⟩ (by rw [heq])
    rw [heq] at hspec
    simp only [Nat.zero_add] at hspec
    have hwf : writeFails st.writes = false := by
      cases hq : writeFails st.writes
      · rfl
      · simp [hq] at hok
    simp only [heq, hwf, Bool.false_eq_true, if_false]
    rw [hspec.2]
    by_cases hc : countCopied (tree.rangeLeaves prefixStart prefixEnd) = 0
    · simp only [hc, if_true]
      rw [DB.write_append, hspec.1, DB.write_append]
      simp [DB.write]
    · simp only [hc, if_false, List.append_nil]
      rw [hspec.1]
      simp [DB.write]

theorem copyEvm_ok (writeFails : Nat → Bool) (tree : Tree) (destDB : DB)
    (batchSize logLevel : Nat) (hw : ∀ n, writeFails n = false) :
    (CopyEvmToLevelDb writeFails tree destDB batchSize logLevel).1 = .ok := by
  have h := copyEvmLoop_no_fault writeFails tree.version batchSize hw
    (tree.rangeLeaves prefixStart prefixEnd) ⟨destDB, [], 0, 0⟩
  unfold CopyEvmToLevelDb
  split
  · rename_i st heq
    rw [heq] at h
    cases h
  · simp [hw]


theorem DB.has_set (db : DB) (k1 v1 k : Bytes) :
    DB.has (DB.set db k1 v1) k = true ↔ k = k1 ∨ DB.has db k = true := by
  by_cases h : k = k1
  · subst h
    simp [DB.has, DB.get_set_self]
  · simp [DB.has, DB.get_set_ne db v1 h, h]

/-- After a batch of puts the store holds the keys put and the keys held before. -/
theorem DB.has_write_puts : ∀ (ops : List Op) (db : DB) (k : Bytes),
    (∀ op ∈ ops, ∃ k1 v1, op = Op.put k1 v1) →
    (DB.has (DB.write db ops) k = true ↔ (∃ v, Op.put k v ∈ ops) ∨ DB.has db k = true) := by
  intro ops
  induction ops with
  | nil => intro db k _; simp [DB.write]
  | cons op rest ih =>
    intro db k hall
    obtain ⟨k1, v1, rfl⟩ := hall op (List.mem_cons_self _ _)
    have hrest : ∀ op ∈ rest, ∃ k1 v1, op = Op.put k1 v1 :=
      fun op hop => hall op (List.mem_cons_of_mem _ hop)
    have hw : DB.write db (Op.put k1 v1 :: rest) = DB.write (DB.set db k1 v1) rest := by
      simp [DB.write, Op.apply]
    rw [hw, ih _ k hrest, DB.has_set]
    constructor
    · rintro (⟨v, hv⟩ | rfl | h)
      · exact Or.inl ⟨v, List.mem_cons_of_mem _ hv⟩
      · exact Or.inl ⟨v1, List.mem_cons_self _ _⟩
      · exact Or.inr h
    · rintro (⟨v, hv⟩ | h)
      · rcases List.mem_cons.1 hv with h1 | h1
        · injection h1 with h2 h3
          exact Or.inr (Or.inl h2)
        · exact Or.inl ⟨v, h1⟩
      · exact Or.inr (Or.inr h)

theorem mem_entryPuts {appVersion : Int} {key : Bytes} {value : Option Bytes} {op : Op}
    (h : op ∈ entryPuts appVersion key value) :
    ∃ v, op = Op.put (evmRootKey appVersion) v ∨ op = Op.put key v := by
  unfold entryPuts at h
  simp only [List.mem_append, List.mem_singleton] at h
  rcases h with h | h
  · split at h
    · simp only [List.mem_singleton] at h
      exact ⟨_, Or.inl h⟩
    · simp at h
  · exact ⟨_, Or.inr h⟩

theorem entryPuts_self (appVersion : Int) (key : Bytes) (value : Option Bytes) :
    ∃ v, Op.put key v ∈ entryPuts appVersion key value := by
  unfold entryPuts
  exact ⟨_, List.mem_append_right _ (List.mem_singleton.2 rfl)⟩

theorem mem_copyPuts (appVersion : Int) : ∀ (leaves : List (Bytes × Option Bytes)) (op : Op),
    op ∈ copyPuts appVersion leaves →
    ∃ k v, op = Op.put k v ∧
      (((∃ v1, (k, v1) ∈ leaves) ∧ hasPrefix k prefixStart = true)
        ∨ k = evmRootKey appVersion) := by
  intro leaves
  induction leaves with
  | nil => intro op h; simp [copyPuts] at h
  | cons e rest ih =>
    obtain ⟨key, value⟩ := e
    intro op h
    have lift : (∃ k v, op = Op.put k v ∧
        (((∃ v1, (k, v1) ∈ rest) ∧ hasPrefix k prefixStart = true)
          ∨ k = evmRootKey appVersion)) →
        ∃ k v, op = Op.put k v ∧
          (((∃ v1, (k, v1) ∈ (key, value) :: rest) ∧ hasPrefix k prefixStart = true)
            ∨ k = evmRootKey appVersion) := by
      rintro ⟨k, v, h1, ⟨⟨v1, h2⟩, h3⟩ | h2⟩
      · exact ⟨k, v, h1, Or.inl ⟨⟨v1, List.mem_cons_of_mem _ h2⟩, h3⟩⟩
      · exact ⟨k, v, h1, Or.inr h2⟩
    by_cases hp : hasPrefix key prefixStart = true
    · simp only [copyPuts, hp, if_true, List.mem_append] at h
      rcases h with h | h
      · obtain ⟨v, h1 | h1⟩ := mem_entryPuts h
        · exact ⟨_, v, h1, Or.inr rfl⟩
        · exact ⟨key, v, h1, Or.inl ⟨⟨value, List.mem_cons_self _ _⟩, hp⟩⟩
      · exact lift (ih op h)
    · simp only [copyPuts, hp, if_false, Bool.false_eq_true] at h
      exact lift (ih op h)

theorem copyPuts_of_mem (appVersion : Int) : ∀ (leaves : List (Bytes × Option Bytes))
    (k : Bytes) (v : Option Bytes), (k, v) ∈ leaves → hasPrefix k prefixStart = true →
    ∃ v1, Op.put k v1 ∈ copyPuts appVersion leaves := by
  intro leaves
  induction leaves with
  | nil => intro k v h; simp at h
  | cons e rest ih =>
    obtain ⟨key, value⟩ := e
    intro k v h hp
    rcases List.mem_cons.1 h with h1 | h1
    · injection h1 with h2 h3
      subst h2
      obtain ⟨v1, hv1⟩ := entryPuts_self appVersion k value
      exact ⟨v1, by simp only [copyPuts, hp, if_true]; exact List.mem_append_left _ hv1⟩
    · obtain ⟨v1, hv1⟩ := ih k v h1 hp
      refine ⟨v1, ?_⟩
      by_cases hq : hasPrefix key prefixStart = true
      · simp only [copyPuts, hq, if_true]
        exact List.mem_append_right _ hv1
      · simp only [copyPuts, hq, if_false, Bool.false_eq_true]
        exact hv1

theorem hasPrefix_vm (k : Bytes) : hasPrefix k prefixStart = bytesHasPrefix k vmSeparator := by
  simp [hasPrefix, prefixStart, vmSeparator]

theorem evmRootKey_eq (v : Int) :
    evmRootKey v = [118, 109, 0, 101, 118, 109, 114, 111, 111, 116, 0]
      ++ uint64ToByteBigEndian (uint64OfInt v) := by
  simp [evmRootKey, prefixKey, joinKeys, prefixStart, evmRootPrefix, uint64ToByteBigEndian]

theorem evmRootKey_prefix (v : Int) : bytesHasPrefix (evmRootKey v) vmSeparator = true := by
  rw [evmRootKey_eq]
  simp [bytesHasPrefix, vmSeparator]

/-- A key beginning with `"vm" 0x00` lies in the range `["vm", "vn")`. -/
theorem vm_prefix_in_range (k : Bytes) (h : bytesHasPrefix k vmSeparator = true) :
    bytesLe prefixStart k = true ∧ bytesLt k prefixEnd = true := by
  rcases k with _ | ⟨a, _ | ⟨b, _ | ⟨c, rest⟩⟩⟩ <;>
    simp [vmSeparator, bytesHasPrefix] at h
  obtain ⟨rfl, rfl, rfl⟩ := h
  simp [bytesLe, bytesLt, prefixStart, prefixEnd]


/-- C8: for every source tree version and every batch size, a run of `CopyEvmToLevelDb` into
an empty destination returns nil when no destination write fails, and after a run that
returns nil the destination holds a source key exactly when the key begins with the three
bytes `"vm" 0x00`, and every key it holds is such a source key or `evmRootKey(version)`. -/
theorem copyEvm_copies_prefixed_keys (writeFails : Nat → Bool) (tree : Tree)
    (batchSize logLevel : Nat) :
    ((∀ n, writeFails n = false) →
        (CopyEvmToLevelDb writeFails tree [] batchSize logLevel).1 = .ok)
      ∧ ((CopyEvmToLevelDb writeFails tree [] batchSize logLevel).1 = .ok →
        (∀ k : Bytes, (∃ v, (k, v) ∈ tree.leaves) →
          (DB.has (CopyEvmToLevelDb writeFails tree [] batchSize logLevel).2 k = true
            ↔ bytesHasPrefix k vmSeparator = true))
        ∧ (∀ k : Bytes,
          DB.has (CopyEvmToLevelDb writeFails tree [] batchSize logLevel).2 k = true →
          ((∃ v, (k, v) ∈ tree.leaves) ∧ bytesHasPrefix k vmSeparator = true)
            ∨ k = evmRootKey tree.version)) := by
  refine ⟨copyEvm_ok writeFails tree [] batchSize logLevel, ?_⟩
  intro hok
  rw [copyEvm_result writeFails tree [] batchSize logLevel hok]
  have hall : ∀ op ∈ copyPuts tree.version (tree.rangeLeaves prefixStart prefixEnd)
      ++ (if countCopied (tree.rangeLeaves prefixStart prefixEnd) = 0
          then [Op.put (evmRootKey tree.version) defaultRoot] else []),
      ∃ k v, op = Op.put k v ∧
        (((∃ v1, (k, v1) ∈ tree.leaves) ∧ bytesHasPrefix k vmSeparator = true)
          ∨ k = evmRootKey tree.version) := by
    intro op hop
    rcases List.mem_append.1 hop with h | h
    · obtain ⟨k, v, h1, ⟨⟨v1, h2⟩, h3⟩ | h2⟩ := mem_copyPuts _ _ op h
      · refine ⟨k, v, h1, Or.inl ⟨⟨v1, ?_⟩, by rw [← hasPrefix_vm]; exact h3⟩⟩
        exact (List.mem_filter.1 h2).1
      · exact ⟨k, v, h1, Or.inr h2⟩
    · split at h
      · simp only [List.mem_singleton] at h
        exact ⟨_, _, h, Or.inr rfl⟩
      · simp at h
  have hputs : ∀ op ∈ copyPuts tree.version (tree.rangeLeaves prefixStart prefixEnd)
      ++ (if countCopied (tree.rangeLeaves prefixStart prefixEnd) = 0
          then [Op.put (evmRootKey tree.version) defaultRoot] else []),
      ∃ k1 v1, op = Op.put k1 v1 := by
    intro op hop
    obtain ⟨k, v, h, _⟩ := hall op hop
    exact ⟨k, v, h⟩
  have hheld : ∀ k : Bytes,
      DB.has (DB.write [] (copyPuts tree.version (tree.rangeLeaves prefixStart prefixEnd)
        ++ (if countCopied (tree.rangeLeaves prefixStart prefixEnd) = 0
            then [Op.put (evmRootKey tree.version) defaultRoot] else []))) k = true →
      ((∃ v, (k, v) ∈ tree.leaves) ∧ bytesHasPrefix k vmSeparator = true)
        ∨ k = evmRootKey tree.version := by
    intro k hk
    rcases (DB.has_write_puts _ [] k hputs).1 hk with ⟨v, hv⟩ | h
    · obtain ⟨k1, v1, h1, h2⟩ := hall _ hv
      injection h1 with h3 h4
      rw [h3]
      exact h2
    · simp [DB.has, DB.get] at h
  refine ⟨?_, hheld⟩
  intro k hsrc
  constructor
  · intro hk
    rcases hheld k hk with h | h
    · exact h.2
    · rw [h]
      exact evmRootKey_prefix _
  · intro hpre
    obtain ⟨v, hv⟩ := hsrc
    have hrange : (k, v) ∈ tree.rangeLeaves prefixStart prefixEnd := by
      have := vm_prefix_in_range k hpre
      exact List.mem_filter.2 ⟨hv, by simp [this.1, this.2]⟩
    obtain ⟨v1, hv1⟩ := copyPuts_of_mem tree.version _ k v hrange
      (by rw [hasPrefix_vm]; exact hpre)
    exact (DB.has_write_puts _ [] k hputs).2 (Or.inl ⟨v1, List.mem_append_left _ hv1⟩)

/-- C8 witness: the 15 records of `TestCopyEvmToLevelDb` copied with batch size 2: the keys
`"vm"`, `"vmq"`, `"vm_ffff"`, `"vn"`, `"vn" 0x00 "2"` are absent from the destination and
`"vm" 0x00 "1"`, `"vm" 0x00 "ffff"`, `"vm" 0x00 "ggg"`, `"vm" 0x00 "hhh"` are present. -/
theorem copyEvm_copies_prefixed_keys_witness :
    (CopyEvmToLevelDb (fun _ => false) testTree [] 2 0).1 = .ok
      ∧ DB.has (CopyEvmToLevelDb (fun _ => false) testTree [] 2 0).2 [118, 109] = false
      ∧ DB.has (CopyEvmToLevelDb (fun _ => false) testTree [] 2 0).2 [118, 109, 113] = false
      ∧ DB.has (CopyEvmToLevelDb (fun _ => false) testTree [] 2 0).2
          [118, 109, 95, 102, 102, 102, 102] = false
      ∧ DB.has (CopyEvmToLevelDb (fun _ => false) testTree [] 2 0).2 [118, 110] = false
      ∧ DB.has (CopyEvmToLevelDb (fun _ => false) testTree [] 2 0).2 [118, 110, 0, 50] = false
      ∧ DB.has (CopyEvmToLevelDb (fun _ => false) testTree [] 2 0).2 [118, 109, 0, 49] = true
      ∧ DB.has (CopyEvmToLevelDb (fun _ => false) testTree [] 2 0).2
          [118, 109, 0, 102, 102, 102, 102] = true
      ∧ DB.has (CopyEvmToLevelDb (fun _ => false) testTree [] 2 0).2
          [118, 109, 0, 103, 103, 103] = true
      ∧ DB.has (CopyEvmToLevelDb (fun _ => false) testTree [] 2 0).2
          [118, 109, 0, 104, 104, 104] = true
      ∧ DB.has (CopyEvmToLevelDb (fun _ => false) testTree [] 2 0).2 (evmRootKey 1) = false :=
  have main := copyEvm_copies_prefixed_keys (fun _ => false) testTree 2 0
  have hok := main.1 (fun _ => rfl)
  have absent : ∀ k : Bytes, (∃ v, (k, v) ∈ testTree.leaves) →
      bytesHasPrefix k vmSeparator = false →
      DB.has (CopyEvmToLevelDb (fun _ => false) testTree [] 2 0).2 k = false := by
    intro k hsrc hpre
    cases hq : DB.has (CopyEvmToLevelDb (fun _ => false) testTree [] 2 0).2 k
    · rfl
    · have := ((main.2 hok).1 k hsrc).1 hq
      rw [hpre] at this
      cases this
  have present : ∀ k : Bytes, (∃ v, (k, v) ∈ testTree.leaves) →
      bytesHasPrefix k vmSeparator = true →
      DB.has (CopyEvmToLevelDb (fun _ => false) testTree [] 2 0).2 k = true :=
    fun k hsrc hpre => ((main.2 hok).1 k hsrc).2 hpre
  ⟨hok, absent _ ⟨some [99, 99], by decide⟩ (by decide),
    absent _ ⟨some [100, 100], by decide⟩ (by decide),
    absent _ ⟨some [102, 102], by decide⟩ (by decide),
    absent _ ⟨some [105, 105], by decide⟩ (by decide),
    absent _ ⟨some [108, 108], by decide⟩ (by decide),
    present _ ⟨some [101, 101], by decide⟩ (by decide),
    present _ ⟨some [102, 102], by decide⟩ (by decide),
    present _ ⟨some [103, 103], by decide⟩ (by decide),
    present _ ⟨some [104, 104], by decide⟩ (by decide), by decide⟩

/-- C9 (amended): for a tree at version `v` whose keys are exactly `"vm" -> a`,
`"vm" 0x00 "0" -> b`, `"vn" -> c`, a run of `CopyEvmToLevelDb` with no failing write leaves
in an empty destination the single record `"vm" 0x00 "0" -> b`: neither `"vm"` nor `"vn"` is
written, and no evmroot record either, since one key was copied. -/
theorem copyEvm_scenario (v : Int) (a b c : Option Bytes) (batchSize logLevel : Nat) :
    CopyEvmToLevelDb (fun _ => false) (scenarioTree v a b c) [] batchSize logLevel
      = (.ok, [([118, 109, 0, 48], putValue b)]) := by
  have hok := copyEvm_ok (fun _ => false) (scenarioTree v a b c) [] batchSize logLevel
    (fun _ => rfl)
  have hres := copyEvm_result (fun _ => false) (scenarioTree v a b c) [] batchSize logLevel hok
  have hrange : (scenarioTree v a b c).rangeLeaves prefixStart prefixEnd
      = [([118, 109], a), ([118, 109, 0, 48], b)] := by
    simp [Tree.rangeLeaves, scenarioTree, bytesLe, bytesLt, prefixStart, prefixEnd]
  have hputs : copyPuts v [([118, 109], a), ([118, 109, 0, 48], b)]
      = [Op.put [118, 109, 0, 48] (putValue b)] := by
    simp [copyPuts, entryPuts, hasPrefix, bytesHasPrefix, prefixStart, prefixKey, joinKeys,
      rootKey]
  have hcount : countCopied [(([118, 109] : Bytes), a), ([118, 109, 0, 48], b)] = 1 := by
    simp [countCopied, hasPrefix, bytesHasPrefix, prefixStart]
  have hv : (scenarioTree v a b c).version = v := rfl
  rw [hrange, hv, hputs, hcount] at hres
  refine Prod.ext hok ?_
  rw [hres]
  simp [DB.write, Op.apply, DB.set, DB.delete]

/-- C9 witness: the scenario at version 3 with values `a`, `b`, `c`, batch size 2. -/
theorem copyEvm_scenario_witness :
    CopyEvmToLevelDb (fun _ => false) (scenarioTree 3 (some [97]) (some [98]) (some [99])) []
      2 0 = (.ok, [([118, 109, 0, 48], [98])]) :=
  copyEvm_scenario 3 (some [97]) (some [98]) (some [99]) 2 0

/-- C9 counterexample: after the scenario run at version 3 the destination holds no record
under `evmRootKey(3)`. -/
theorem copyEvm_scenario_writes_no_evmroot :
    (CopyEvmToLevelDb (fun _ => false) (scenarioTree 3 (some [97]) (some [98]) (some [99])) []
        2 0).1 = .ok
      ∧ DB.get (CopyEvmToLevelDb (fun _ => false)
          (scenarioTree 3 (some [97]) (some [98]) (some [99])) [] 2 0).2 [118, 109, 0, 48]
        = some [98]
      ∧ DB.has (CopyEvmToLevelDb (fun _ => false)
          (scenarioTree 3 (some [97]) (some [98]) (some [99])) [] 2 0).2 (evmRootKey 3)
        = false := by
  decide

theorem copyEvmLoop_skip (writeFails : Nat → Bool) (appVersion : Int) (batchSize : Nat) :
    ∀ (leaves : List (Bytes × Option Bytes)) (st : CopyState),
    (∀ e ∈ leaves, bytesHasPrefix e.1 vmSeparator = false) →
    copyEvmLoop writeFails appVersion batchSize leaves st = (st, false) := by
  intro leaves
  induction leaves with
  | nil => intro st _; rfl
  | cons e rest ih =>
    obtain ⟨key, value⟩ := e
    intro st h
    have hp : hasPrefix key prefixStart = false := by
      rw [hasPrefix_vm]
      exact h (key, value) (List.mem_cons_self _ _)
    rw [copyEvmLoop]
    simp only [hp, Bool.not_false, if_true]
    exact ih st (fun e he => h e (List.mem_cons_of_mem _ he))

/-- C10: for a tree version `v` in which no key of the range `["vm", "vn")` begins with
`"vm" 0x00`, a run of `CopyEvmToLevelDb` whose one write succeeds returns nil and writes
exactly one entry, binding the key `"vm" 0x00 "evmroot" 0x00` followed by the 8-byte
big-endian encoding of `v` to the single byte 1; in an empty destination it is the only
record. -/
theorem copyEvm_empty_state (writeFails : Nat → Bool) (tree : Tree) (destDB : DB)
    (batchSize logLevel : Nat)
    (hempty : ∀ e ∈ tree.rangeLeaves prefixStart prefixEnd,
      bytesHasPrefix e.1 vmSeparator = false)
    (hw : writeFails 0 = false) :
    CopyEvmToLevelDb writeFails tree destDB batchSize logLevel
        = (.ok, DB.set destDB ([118, 109, 0, 101, 118, 109, 114, 111, 111, 116, 0]
            ++ uint64ToByteBigEndian (uint64OfInt tree.version)) [1])
      ∧ CopyEvmToLevelDb writeFails tree [] batchSize logLevel
        = (.ok, [([118, 109, 0, 101, 118, 109, 114, 111, 111, 116, 0]
            ++ uint64ToByteBigEndian (uint64OfInt tree.version), [1])]) := by
  have hrun : ∀ dest : DB, CopyEvmToLevelDb writeFails tree dest batchSize logLevel
      = (.ok, DB.set dest ([118, 109, 0, 101, 118, 109, 114, 111, 111, 116, 0]
          ++ uint64ToByteBigEndian (uint64OfInt tree.version)) [1]) := by
    intro dest
    unfold CopyEvmToLevelDb
    rw [copyEvmLoop_skip writeFails tree.version batchSize _ _ hempty]
    simp only [hw, Bool.false_eq_true, if_false, if_true, List.nil_append, ← evmRootKey_eq]
    simp [DB.write, Op.apply, defaultRoot]
  exact ⟨hrun destDB, by rw [hrun []]; rfl⟩

/-- C10 witness: a tree at version 5 with keys `"vl"`, `"vm"`, `"vmq"`, `"vn"` yields the one
record `"vm" 0x00 "evmroot" 0x00 0 0 0 0 0 0 0 5 -> 1`. -/
theorem copyEvm_empty_state_witness :
    (∀ e ∈ emptyEvmTree.rangeLeaves prefixStart prefixEnd,
        bytesHasPrefix e.1 vmSeparator = false)
      ∧ CopyEvmToLevelDb (fun _ => false) emptyEvmTree [] 2 0
        = (.ok, [([118, 109, 0, 101, 118, 109, 114, 111, 111, 116, 0, 0, 0, 0, 0, 0, 0, 0, 5],
            [1])]) :=
  ⟨by decide, (copyEvm_empty_state (fun _ => false) emptyEvmTree [] 2 0 (by decide) rfl).2⟩

/-! ## The range end of a prefix -/

theorem bytesLt_nil_right (k : Bytes) : bytesLt k [] = false := by
  cases k <;> rfl

theorem bytesLt_cons (b a : Nat) (ks e : Bytes) :
    bytesLt (b :: ks) (a :: e) = true ↔ b < a ∨ (b = a ∧ bytesLt ks e = true) := by
  simp [bytesLt]

theorem bytesLe_cons (a b : Nat) (rest ks : Bytes) :
    bytesLe (a :: rest) (b :: ks) = true ↔ a < b ∨ (a = b ∧ bytesLe rest ks = true) := by
  simp only [bytesLe, bytesLt, Bool.not_eq_true', Bool.or_eq_false_iff, Bool.and_eq_false_iff,
    decide_eq_false_iff_not, Bool.not_eq_false']
  constructor
  · rintro ⟨h1, h2 | h2⟩
    · exact Or.inl (by omega)
    · by_cases h3 : a = b
      · exact Or.inr ⟨h3, by simpa using h2⟩
      · exact Or.inl (by omega)
  · rintro (h | ⟨h1, h2⟩)
    · exact ⟨by omega, Or.inl (by omega)⟩
    · exact ⟨by omega, Or.inr (by simpa using h2)⟩

theorem bytesLe_nil_left (k : Bytes) : bytesLe [] k = true := by
  simp [bytesLe, bytesLt_nil_right]

theorem bytesLe_cons_nil (a : Nat) (rest : Bytes) : bytesLe (a :: rest) [] = false := by
  simp [bytesLe, bytesLt]

theorem rangeEndFront_append (last : Nat) : ∀ xs : Bytes,
    rangeEndFront (xs ++ [last])
      = if last ≠ 255 then some (xs ++ [last + 1]) else rangeEndFront xs := by
  intro xs
  induction xs with
  | nil => by_cases h : last = 255 <;> simp [rangeEndFront, h]
  | cons a t ih =>
    by_cases h : last = 255
    · simp only [h, ne_eq, not_true_eq_false, if_false] at ih ⊢
      rw [List.cons_append, rangeEndFront, ih, rangeEndFront]
    · simp only [h, ne_eq, not_false_eq_true, if_true] at ih ⊢
      rw [List.cons_append, rangeEndFront, ih, List.cons_append]

/-- The loop of `prefixRangeEnd`, run from the last byte, computes the range end read from
the front. -/
theorem prefixRangeEndRev_eq : ∀ r : Bytes, r ≠ [] →
    prefixRangeEndRev r = (match rangeEndFront r.reverse with
      | some e => RangeEnd.key e
      | none => RangeEnd.unbounded) := by
  intro r
  induction r with
  | nil => intro h; exact absurd rfl h
  | cons last front ih =>
    intro _
    rw [List.reverse_cons, rangeEndFront_append]
    by_cases h : last = 255
    · simp only [prefixRangeEndRev, h, ne_eq, not_true_eq_false, if_false]
      cases front with
      | nil => rfl
      | cons x xs => exact ih (List.cons_ne_nil _ _)
    · simp only [prefixRangeEndRev, ne_eq, h, not_false_eq_true, if_true]

theorem prefixRangeEnd_eq (p : Bytes) (hp : p ≠ []) :
    prefixRangeEnd (some p) = (match rangeEndFront p with
      | some e => RangeEnd.key e
      | none => RangeEnd.unbounded) := by
  have h := prefixRangeEndRev_eq p.reverse (by simpa using hp)
  rw [List.reverse_reverse] at h
  exact h

/-- A key of bytes lies between a prefix and its range end exactly when it has the
prefix. -/
theorem range_iff_prefix : ∀ (p k : Bytes), IsBytes k →
    ((bytesLe p k = true ∧ ∀ e, rangeEndFront p = some e → bytesLt k e = true)
      ↔ bytesHasPrefix k p = true) := by
  intro p
  induction p with
  | nil =>
    intro k _
    simp [bytesLe_nil_left, rangeEndFront, bytesHasPrefix]
  | cons a rest ih =>
    intro k hk
    cases k with
    | nil => simp [bytesLe_cons_nil, bytesHasPrefix]
    | cons b ks =>
      have hb : b < 256 := hk b (List.mem_cons_self _ _)
      have hks : IsBytes ks := fun x hx => hk x (List.mem_cons_of_mem _ hx)
      have ih1 := ih ks hks
      rw [bytesLe_cons]
      simp only [bytesHasPrefix, Bool.and_eq_true, decide_eq_true_eq]
      cases hr : rangeEndFront rest with
      | some e =>
        rw [hr] at ih1
        have hfront : rangeEndFront (a :: rest) = some (a :: e) := by
          simp [rangeEndFront, hr]
        rw [hfront]
        constructor
        · rintro ⟨h1, h2⟩
          have h3 := (bytesLt_cons _ _ _ _).1 (h2 _ rfl)
          rcases h1 with h1 | ⟨h1, h4⟩
          · omega
          · rcases h3 with h3 | ⟨_, h3⟩
            · omega
            · exact ⟨h1.symm, ih1.1 ⟨h4, fun e1 he1 => by
                injection he1 with he2
                rw [← he2]
                exact h3⟩⟩
        · rintro ⟨h1, h2⟩
          have := ih1.2 h2
          refine ⟨Or.inr ⟨h1.symm, this.1⟩, ?_⟩
          intro e1 he1
          injection he1 with he2
          rw [← he2]
          exact (bytesLt_cons _ _ _ _).2 (Or.inr ⟨h1, this.2 e rfl⟩)
      | none =>
        rw [hr] at ih1
        by_cases ha : a = 255
        · have hfront : rangeEndFront (a :: rest) = none := by
            simp [rangeEndFront, hr, ha]
          rw [hfront]
          constructor
          · rintro ⟨h1, _⟩
            rcases h1 with h1 | ⟨h1, h4⟩
            · omega
            · exact ⟨h1.symm, ih1.1 ⟨h4, fun e1 he1 => by cases he1⟩⟩
          · rintro ⟨h1, h2⟩
            exact ⟨Or.inr ⟨h1.symm, (ih1.2 h2).1⟩, fun e1 he1 => by cases he1⟩
        · have hfront : rangeEndFront (a :: rest) = some [a + 1] := by
            simp [rangeEndFront, hr, ha]
          rw [hfront]
          constructor
          · rintro ⟨h1, h2⟩
            have h3 := (bytesLt_cons _ _ _ _).1 (h2 _ rfl)
            rw [bytesLt_nil_right] at h3
            rcases h1 with h1 | ⟨h1, h4⟩
            · rcases h3 with h3 | ⟨_, h3⟩
              · omega
              · cases h3
            · exact ⟨h1.symm, ih1.1 ⟨h4, fun e1 he1 => by cases he1⟩⟩
          · rintro ⟨h1, h2⟩
            refine ⟨Or.inr ⟨h1.symm, (ih1.2 h2).1⟩, ?_⟩
            intro e1 he1
            injection he1 with he2
            rw [← he2]
            exact (bytesLt_cons _ _ _ _).2 (Or.inl (by omega))

theorem bytesHasPrefix_iff : ∀ (k p : Bytes), bytesHasPrefix k p = true ↔ p <+: k := by
  intro k p
  induction p generalizing k with
  | nil => simp [bytesHasPrefix]
  | cons a rest ih =>
    cases k with
    | nil => simp [bytesHasPrefix]
    | cons b ks =>
      simp only [bytesHasPrefix, Bool.and_eq_true, decide_eq_true_eq, ih, List.cons_prefix_cons]
      constructor
      · rintro ⟨h1, h2⟩
        exact ⟨h1.symm, h2⟩
      · rintro ⟨h1, h2⟩
        exact ⟨h1.symm, h2⟩

/-- A key that has the prefix lies between the prefix and its range end. -/
theorem prefix_in_range : ∀ (p k : Bytes), bytesHasPrefix k p = true →
    bytesLe p k = true ∧ ∀ e, rangeEndFront p = some e → bytesLt k e = true := by
  intro p
  induction p with
  | nil =>
    intro k _
    exact ⟨bytesLe_nil_left k, fun e he => by simp [rangeEndFront] at he⟩
  | cons a rest ih =>
    intro k hk
    cases k with
    | nil => simp [bytesHasPrefix] at hk
    | cons b ks =>
      simp only [bytesHasPrefix, Bool.and_eq_true, decide_eq_true_eq] at hk
      obtain ⟨h1, h2⟩ := hk
      have ih1 := ih ks h2
      refine ⟨(bytesLe_cons _ _ _ _).2 (Or.inr ⟨h1.symm, ih1.1⟩), ?_⟩
      intro e he
      cases hr : rangeEndFront rest with
      | some e1 =>
        simp only [rangeEndFront, hr, Option.some.injEq] at he
        rw [← he]
        exact (bytesLt_cons _ _ _ _).2 (Or.inr ⟨h1, ih1.2 e1 hr⟩)
      | none =>
        simp only [rangeEndFront, hr] at he
        split at he
        · injection he with he1
          rw [← he1]
          exact (bytesLt_cons _ _ _ _).2 (Or.inl (by omega))
        · cases he

/-- C12: for a byte string `front ++ [last]` whose last byte is not 0xFF, `prefixRangeEnd`
returns `front ++ [last + 1]`: the same length, the same bytes but the last, the last byte
raised by one; and every key that has the prefix lies at or above the prefix and strictly
below that range end in byte order. -/
theorem prefixRangeEnd_increments_last (front : Bytes) (last : Nat) (hlast : last ≠ 255) :
    prefixRangeEnd (some (front ++ [last])) = .key (front ++ [last + 1])
      ∧ (front ++ [last + 1]).length = (front ++ [last]).length
      ∧ (front ++ [last + 1]).dropLast = (front ++ [last]).dropLast
      ∧ (front ++ [last + 1]).getLast? = some (last + 1)
      ∧ ∀ k : Bytes, front ++ [last] <+: k →
          bytesLe (front ++ [last]) k = true ∧ bytesLt k (front ++ [last + 1]) = true := by
  have hend : rangeEndFront (front ++ [last]) = some (front ++ [last + 1]) := by
    rw [rangeEndFront_append, if_pos hlast]
  refine ⟨?_, by simp, by simp, by simp, ?_⟩
  · rw [prefixRangeEnd_eq _ (by simp), hend]
  · intro k hk
    have := prefix_in_range _ k ((bytesHasPrefix_iff _ _).2 hk)
    exact ⟨this.1, this.2 _ hend⟩

/-- C12 witness: the range end of `"H:"` is `"H;"`, and the key `"H:10"` lies in
`["H:", "H;")`. -/
theorem prefixRangeEnd_increments_last_witness :
    prefixRangeEnd (some [72, 58]) = .key [72, 59]
      ∧ bytesLe [72, 58] [72, 58, 49, 48] = true
      ∧ bytesLt [72, 58, 49, 48] [72, 59] = true :=
  have h := prefixRangeEnd_increments_last [72] 58 (by decide)
  have hk := h.2.2.2.2 [72, 58, 49, 48] ⟨[49, 48], rfl⟩
  ⟨h.1, hk.1, hk.2⟩

theorem rangeEndFront_all_ff : ∀ p : Bytes, (∀ x ∈ p, x = 255) → rangeEndFront p = none := by
  intro p
  induction p with
  | nil => intro _; rfl
  | cons a rest ih =>
    intro h
    have ha : a = 255 := h a (List.mem_cons_self _ _)
    have hr := ih (fun x hx => h x (List.mem_cons_of_mem _ hx))
    simp [rangeEndFront, hr, ha]

/-- C13 (amended): `prefixRangeEnd` returns nil, the unbounded upper end, without faulting
for a nil prefix and for every non-empty prefix that consists only of 0xFF bytes. -/
theorem prefixRangeEnd_unbounded :
    prefixRangeEnd none = .unbounded
      ∧ ∀ p : Bytes, p ≠ [] → (∀ x ∈ p, x = 255) → prefixRangeEnd (some p) = .unbounded := by
  refine ⟨rfl, ?_⟩
  intro p hp hall
  rw [prefixRangeEnd_eq p hp, rangeEndFront_all_ff p hall]

/-- C13 witness: the prefix of three 0xFF bytes has no upper end. -/
theorem prefixRangeEnd_unbounded_witness :
    prefixRangeEnd (some [255, 255, 255]) = .unbounded :=
  prefixRangeEnd_unbounded.2 [255, 255, 255] (by decide) (by decide)

/-- C13 counterexample: on a zero-length prefix that is not nil the loop indexes
`end[len(end)-1]` with -1 and panics. -/
theorem prefixRangeEnd_faults_on_empty : prefixRangeEnd (some []) = .fault := by
  decide

/-- C14: for every non-empty byte string `p`, with or without trailing 0xFF bytes, and every
key `k` of bytes, `k` lies in the half-open interval from `p` to `prefixRangeEnd(p)` (a nil
end being no upper bound) exactly when `p` is a byte-prefix of `k`. -/
theorem prefix_range_exact (p k : Bytes) (hp : p ≠ []) (hk : IsBytes k) :
    inPrefixRange p (prefixRangeEnd (some p)) k = true ↔ p <+: k := by
  rw [← bytesHasPrefix_iff, ← range_iff_prefix p k hk, prefixRangeEnd_eq p hp]
  cases hr : rangeEndFront p with
  | some e => simp [inPrefixRange]
  | none => simp [inPrefixRange]

/-- C14 witness: for the prefix `[1, 255]`, whose range end is `[2]`, the key `[1, 255, 7]`
is in the range and has the prefix, the key `[1, 254, 9]` is neither. -/
theorem prefix_range_exact_witness :
    prefixRangeEnd (some [1, 255]) = .key [2]
      ∧ inPrefixRange [1, 255] (prefixRangeEnd (some [1, 255])) [1, 255, 7] = true
      ∧ inPrefixRange [1, 255] (prefixRangeEnd (some [1, 255])) [1, 254, 9] = false
      ∧ ¬ ([1, 255] <+: [1, 254, 9]) :=
  have h1 := prefix_range_exact [1, 255] [1, 255, 7] (by decide) (by
    intro x hx
    simp only [List.mem_cons, List.mem_singleton, List.not_mem_nil, or_false] at hx
    omega)
  have h2 := prefix_range_exact [1, 255] [1, 254, 9] (by decide) (by
    intro x hx
    simp only [List.mem_cons, List.mem_singleton, List.not_mem_nil, or_false] at hx
    omega)
  ⟨by decide, h1.2 ⟨[7], rfl⟩, by decide, fun hpre => absurd (h2.2 hpre) (by decide)⟩

/-! ## Composing and decomposing keys -/

/-- C15: for every byte string `a` (non-empty or not) and every byte string `b`,
`prefixKey(a, b)` returns a key on which `unprefixKey(key, a)` succeeds and returns exactly
`b`. -/
theorem unprefixKey_prefixKey (a b : Bytes) :
    prefixKey [a, b] = some (a ++ 0 :: b)
      ∧ unprefixKey (a ++ 0 :: b) a = some b
      ∧ (prefixKey [a, b]).bind (fun key => unprefixKey key a) = some b := by
  have h1 : prefixKey [a, b] = some (a ++ 0 :: b) := by
    simp [prefixKey, joinKeys]
  have h2 : unprefixKey (a ++ 0 :: b) a = some b := by
    have hlen : ¬ a.length + 1 > (a ++ 0 :: b).length := by
      simp only [List.length_append, List.length_cons]
      omega
    have hdrop : (a ++ 0 :: b).drop (a.length + 1) = b := by
      rw [List.drop_append_eq_append_drop]
      simp
    simp only [unprefixKey, hlen, if_false, hdrop]
  exact ⟨h1, h2, by rw [h1]; exact h2⟩

/-- C16: `unprefixKey(key, prefix)` returns its error exactly when
`len(key) < len(prefix) + 1`; otherwise it returns the bytes of `key` from index
`len(prefix) + 1` on, whatever the first `len(prefix) + 1` bytes are. -/
theorem unprefixKey_error_iff (key pre : Bytes) :
    (unprefixKey key pre = none ↔ key.length < pre.length + 1)
      ∧ (pre.length + 1 ≤ key.length →
          unprefixKey key pre = some (key.drop (pre.length + 1)))
      ∧ (∀ head tail : Bytes, head.length = pre.length + 1 →
          unprefixKey (head ++ tail) pre = some tail) := by
  refine ⟨?_, ?_, ?_⟩
  · by_cases h : pre.length + 1 > key.length
    · simp only [unprefixKey, h, if_true, true_iff]
    · have h1 : ¬ key.length < pre.length + 1 := by omega
      simp only [unprefixKey, h, if_false, h1, iff_false]
      intro h2
      cases h2
  · intro h
    have h1 : ¬ pre.length + 1 > key.length := by omega
    simp only [unprefixKey, h1, if_false]
  · intro head tail hlen
    have h1 : ¬ pre.length + 1 > (head ++ tail).length := by
      simp only [List.length_append]
      omega
    have hdrop : (head ++ tail).drop (pre.length + 1) = tail := by
      rw [← hlen, List.drop_left]
    simp only [unprefixKey, h1, if_false, hdrop]

/-- C16 witness: with the prefix `"vm"` a two-byte key is refused, and the keys
`"vm" 0x00 "ab"` and `"xy" 0x07 "ab"` both give `"ab"`. -/
theorem unprefixKey_error_iff_witness :
    unprefixKey [118, 109] [118, 109] = none
      ∧ unprefixKey [118, 109, 0, 97, 98] [118, 109] = some [97, 98]
      ∧ unprefixKey [120, 121, 7, 97, 98] [118, 109] = some [97, 98] :=
  have h1 := unprefixKey_error_iff [118, 109] [118, 109]
  have h2 := unprefixKey_error_iff [118, 109, 0, 97, 98] [118, 109]
  ⟨h1.1.2 (by decide), h2.2.2 [118, 109, 0] [97, 98] rfl,
    h2.2.2 [120, 121, 7] [97, 98] rfl⟩

theorem joinKeys_cons_cons (k k2 : Bytes) (rest : List Bytes) :
    joinKeys (k :: k2 :: rest) = k ++ 0 :: joinKeys (k2 :: rest) := by
  simp [joinKeys]

theorem joinKeys_eq_intercalate : ∀ xs : List Bytes, joinKeys xs = [0].intercalate xs := by
  intro xs
  induction xs with
  | nil => rfl
  | cons k rest ih =>
    cases rest with
    | nil => simp [joinKeys, List.intercalate]
    | cons k2 rest2 =>
      rw [joinKeys_cons_cons, ih]
      simp [List.intercalate, List.intersperse]

theorem foldl_enumFrom_succ (n : Nat) : ∀ (keys : List Bytes) (buf : Bytes),
    (keys.enumFrom (n + 1)).foldl
        (fun buf ik => (if ik.1 > 0 then buf ++ [0] else buf) ++ ik.2) buf
      = buf ++ (keys.map fun k => 0 :: k).flatten := by
  intro keys
  induction keys generalizing n with
  | nil => intro buf; simp
  | cons k rest ih =>
    intro buf
    simp only [List.enumFrom_cons, List.foldl_cons, List.map_cons, List.flatten_cons]
    rw [ih]
    simp

theorem joinKeys_cons (k : Bytes) : ∀ rest : List Bytes,
    joinKeys (k :: rest) = k ++ (rest.map fun k => 0 :: k).flatten := by
  intro rest
  induction rest generalizing k with
  | nil => simp [joinKeys]
  | cons k2 rest2 ih =>
    rw [joinKeys_cons_cons, ih]
    simp

/-- The exported `PrefixKey` and the package's `prefixKey` compute the same key. -/
theorem PrefixKey_eq_prefixKey (keys : List Bytes) : PrefixKey keys = prefixKey keys := by
  cases keys with
  | nil => rfl
  | cons k rest =>
    simp only [PrefixKey, prefixKey, List.length_cons, Nat.add_one_ne_zero, if_false,
      List.enum, List.enumFrom_cons, List.foldl_cons, Nat.zero_add]
    rw [foldl_enumFrom_succ, joinKeys_cons]
    simp

theorem splitBytes_zero_free : ∀ k : Bytes, 0 ∉ k → splitBytes 0 k = [k] := by
  intro k
  induction k with
  | nil => intro _; rfl
  | cons b r ih =>
    intro h
    have hb : b ≠ 0 := fun hb => h (by rw [hb]; exact List.mem_cons_self _ _)
    have hr := ih (fun hm => h (List.mem_cons_of_mem _ hm))
    simp [splitBytes, hb, hr]

theorem splitBytes_append_zero (rest : Bytes) : ∀ k : Bytes, 0 ∉ k →
    splitBytes 0 (k ++ 0 :: rest) = k :: splitBytes 0 rest := by
  intro k
  induction k with
  | nil => intro _; simp [splitBytes]
  | cons b r ih =>
    intro h
    have hb : b ≠ 0 := fun hb => h (by rw [hb]; exact List.mem_cons_self _ _)
    have hr := ih (fun hm => h (List.mem_cons_of_mem _ hm))
    simp [splitBytes, hb, hr]

/-- Splitting a joined key at its zero bytes gives back the parts when none holds a zero. -/
theorem splitBytes_joinKeys : ∀ xs : List Bytes, xs ≠ [] → (∀ x ∈ xs, 0 ∉ x) →
    splitBytes 0 (joinKeys xs) = xs := by
  intro xs
  induction xs with
  | nil => intro h; exact absurd rfl h
  | cons k rest ih =>
    intro _ hfree
    have hk : 0 ∉ k := hfree k (List.mem_cons_self _ _)
    cases rest with
    | nil => simp [joinKeys, splitBytes_zero_free k hk]
    | cons k2 rest2 =>
      rw [joinKeys_cons_cons, splitBytes_append_zero _ k hk,
        ih (List.cons_ne_nil _ _) (fun x hx => hfree x (List.mem_cons_of_mem _ hx))]

/-- C17: for every non-empty list of byte strings, `prefixKey` and the exported `PrefixKey`
return the parts concatenated with exactly one zero byte between neighbours; and on
non-empty lists of byte strings that hold no zero byte, `prefixKey` is injective. -/
theorem prefixKey_join_injective :
    (∀ xs : List Bytes, xs ≠ [] →
        prefixKey xs = some ([0].intercalate xs) ∧ PrefixKey xs = some ([0].intercalate xs))
      ∧ ∀ xs ys : List Bytes, xs ≠ [] → ys ≠ [] → (∀ x ∈ xs, 0 ∉ x) → (∀ y ∈ ys, 0 ∉ y) →
          prefixKey xs = prefixKey ys → xs = ys := by
  have hjoin : ∀ xs : List Bytes, xs ≠ [] → prefixKey xs = some (joinKeys xs) := by
    intro xs hxs
    have : xs.length ≠ 0 := fun h => hxs (List.length_eq_zero.1 h)
    simp only [prefixKey, this, if_false]
  refine ⟨?_, ?_⟩
  · intro xs hxs
    have h := hjoin xs hxs
    rw [joinKeys_eq_intercalate] at h
    exact ⟨h, by rw [PrefixKey_eq_prefixKey, h]⟩
  · intro xs ys hxs hys hx hy heq
    rw [hjoin xs hxs, hjoin ys hys] at heq
    have h1 := Option.some.inj heq
    rw [← splitBytes_joinKeys xs hxs hx, ← splitBytes_joinKeys ys hys hy, h1]

/-- C17 witness: `prefixKey("vm", "evmroot")` is `"vm" 0x00 "evmroot"`, and the parts
`"ab"`, `"c"` and `"a"`, `"bc"` compose to different keys. -/
theorem prefixKey_join_injective_witness :
    prefixKey [[118, 109], [101, 118, 109, 114, 111, 111, 116]]
        = some [118, 109, 0, 101, 118, 109, 114, 111, 111, 116]
      ∧ PrefixKey [[118, 109], [101, 118, 109, 114, 111, 111, 116]]
        = some [118, 109, 0, 101, 118, 109, 114, 111, 111, 116]
      ∧ prefixKey [[97, 98], [99]] ≠ prefixKey [[97], [98, 99]] :=
  have h := prefixKey_join_injective
  have h1 := h.1 [[118, 109], [101, 118, 109, 114, 111, 111, 116]] (by decide)
  ⟨h1.1.trans (by decide), h1.2.trans (by decide), fun heq =>
    absurd (h.2 [[97, 98], [99]] [[97], [98, 99]] (by decide) (by decide) (by decide)
      (by decide) heq) (by decide)⟩

/-! ## The auxiliary-data key rewrite -/

theorem isBytes_cons {x : Nat} {s : Bytes} (h : IsBytes (x :: s)) : x < 256 ∧ IsBytes s :=
  ⟨h x (List.mem_cons_self _ _), fun y hy => h y (List.mem_cons_of_mem _ hy)⟩

/-- Reading 8 bytes little-endian and writing the number big-endian reverses them. -/
theorem bigEndian_of_littleEndian (s : Bytes) (hs : s.length = 8) (hb : IsBytes s) :
    ∃ n, byteToUint64LittleEndian s = some n ∧ n < 2 ^ 64
      ∧ uint64ToByteBigEndian n = s.reverse := by
  match s, hs, hb with
  | [s0, s1, s2, s3, s4, s5, s6, s7], _, hb =>
    obtain ⟨h0, hb⟩ := isBytes_cons hb
    obtain ⟨h1, hb⟩ := isBytes_cons hb
    obtain ⟨h2, hb⟩ := isBytes_cons hb
    obtain ⟨h3, hb⟩ := isBytes_cons hb
    obtain ⟨h4, hb⟩ := isBytes_cons hb
    obtain ⟨h5, hb⟩ := isBytes_cons hb
    obtain ⟨h6, hb⟩ := isBytes_cons hb
    obtain ⟨h7, _⟩ := isBytes_cons hb
    refine ⟨_, rfl, by omega, ?_⟩
    simp only [uint64ToByteBigEndian, List.reverse_cons, List.reverse_nil, List.nil_append,
      List.cons_append, List.cons.injEq, and_true]
    refine ⟨?_, ?_, ?_, ?_, ?_, ?_, ?_, ?_⟩ <;> omega

/-- C18: for every `oldPrefix`, `newPrefix` and every key `oldPrefix ++ [b] ++ s` with `b`
any byte and `s` exactly 8 bytes, `formatPrefixes` succeeds and returns
`newPrefix ++ 0x00 ++ reverse(s)`, the reversed bytes being the big-endian encoding of the
64-bit number that `s` encodes little-endian. -/
theorem formatPrefixes_reverses (oldPrefix newPrefix s : Bytes) (b : Nat)
    (hs : s.length = 8) (hb : IsBytes s) :
    formatPrefixes (oldPrefix ++ [b] ++ s) oldPrefix newPrefix
        = .ok (newPrefix ++ [0] ++ s.reverse)
      ∧ ∃ n, byteToUint64LittleEndian s = some n ∧ n < 2 ^ 64
          ∧ uint64ToByteBigEndian n = s.reverse := by
  obtain ⟨n, h1, h2, h3⟩ := bigEndian_of_littleEndian s hs hb
  refine ⟨?_, n, h1, h2, h3⟩
  have hun : unprefixKey (oldPrefix ++ [b] ++ s) oldPrefix = some s :=
    (unprefixKey_error_iff (oldPrefix ++ [b] ++ s) oldPrefix).2.2 (oldPrefix ++ [b]) s
      (by simp)
  simp only [formatPrefixes, hun, h1, h3, prefixKey, joinKeys, List.length_cons,
    List.length_nil]
  simp

/-- C18 witness: the bloom filter key of height 1, stored little-endian, becomes
`"bf" 0x00` followed by the big-endian bytes of 1. -/
theorem formatPrefixes_reverses_witness :
    formatPrefixes ([98, 108, 111, 111, 109, 70, 105, 108, 116, 101, 114] ++ [0]
        ++ [1, 0, 0, 0, 0, 0, 0, 0])
        [98, 108, 111, 111, 109, 70, 105, 108, 116, 101, 114] [98, 102]
      = .ok [98, 102, 0, 0, 0, 0, 0, 0, 0, 0, 1] :=
  (formatPrefixes_reverses [98, 108, 111, 111, 109, 70, 105, 108, 116, 101, 114] [98, 102]
    [1, 0, 0, 0, 0, 0, 0, 0] 0 rfl (by
      intro x hx
      simp only [List.mem_cons, List.mem_singleton, List.not_mem_nil, or_false] at hx
      omega)).1

/-! ## Deleting from the tx index -/

/-- With every present primary entry decodable, the loop of `TxIndexStore.Delete` queues the
deletions of `txDeleteKeys`. -/
theorem txDeleteBatch_eq (c : Collab) (db : DB) : ∀ (txs : List Bytes) (batch : List Op),
    (∀ tx ∈ txs, ∀ raw, DB.get db (c.txHash tx) = some raw → raw.length > 0 →
      ∃ r, c.unmarshalTxResult raw = some r) →
    txDeleteBatch c db txs batch = some (batch ++ (txDeleteKeys c db txs).map Op.del) := by
  intro txs
  induction txs with
  | nil => intro batch _; simp [txDeleteBatch, txDeleteKeys]
  | cons tx rest ih =>
    intro batch hdec
    have hrest : ∀ tx ∈ rest, ∀ raw, DB.get db (c.txHash tx) = some raw → raw.length > 0 →
        ∃ r, c.unmarshalTxResult raw = some r :=
      fun t ht => hdec t (List.mem_cons_of_mem _ ht)
    cases hg : DB.get db (c.txHash tx) with
    | none =>
      simp only [txDeleteBatch, txDeleteKeys, hg, List.nil_append]
      exact ih batch hrest
    | some raw =>
      by_cases hlen : raw.length > 0
      · obtain ⟨r, hr⟩ := hdec tx (List.mem_cons_self _ _) raw hg hlen
        simp only [txDeleteBatch, txDeleteKeys, hg, hlen, if_true, hr]
        rw [ih _ hrest]
        simp
      · simp only [txDeleteBatch, txDeleteKeys, hg, hlen, if_false, List.nil_append]
        exact ih batch hrest

/-- Where no transaction has a non-empty primary entry, the loop queues nothing. -/
theorem txDeleteBatch_skip (c : Collab) (db : DB) : ∀ (txs : List Bytes) (batch : List Op),
    (∀ tx ∈ txs, ∀ raw, DB.get db (c.txHash tx) = some raw → raw.length = 0) →
    txDeleteBatch c db txs batch = some batch := by
  intro txs
  induction txs with
  | nil => intro batch _; rfl
  | cons tx rest ih =>
    intro batch h
    have hrest : ∀ tx ∈ rest, ∀ raw, DB.get db (c.txHash tx) = some raw → raw.length = 0 :=
      fun t ht => h t (List.mem_cons_of_mem _ ht)
    cases hg : DB.get db (c.txHash tx) with
    | none =>
      simp only [txDeleteBatch, hg]
      exact ih batch hrest
    | some raw =>
      have hlen : ¬ raw.length > 0 := by
        have := h tx (List.mem_cons_self _ _) raw hg
        omega
      simp only [txDeleteBatch, hg, hlen, if_false]
      exact ih batch hrest

theorem mem_txDeleteKeys (c : Collab) (db : DB) (key : Bytes) : ∀ txs : List Bytes,
    key ∈ txDeleteKeys c db txs ↔
      ∃ tx ∈ txs, ∃ raw r, DB.get db (c.txHash tx) = some raw ∧ raw.length > 0
        ∧ c.unmarshalTxResult raw = some r
        ∧ (key = c.txHash tx ∨ key = txIndexHeightKey c r) := by
  intro txs
  induction txs with
  | nil => simp [txDeleteKeys]
  | cons tx rest ih =>
    rw [txDeleteKeys, List.mem_append, ih]
    constructor
    · rintro (h | ⟨t, ht, h⟩)
      · cases hg : DB.get db (c.txHash tx) with
        | none => simp [hg] at h
        | some raw =>
          rw [hg] at h
          by_cases hlen : raw.length > 0
          · simp only [hlen, if_true] at h
            cases hr : c.unmarshalTxResult raw with
            | none => simp [hr] at h
            | some r =>
              simp only [hr, List.mem_cons, List.mem_singleton, List.not_mem_nil,
                or_false] at h
              exact ⟨tx, List.mem_cons_self _ _, raw, r, hg, hlen, hr, h⟩
          · simp [hlen] at h
      · exact ⟨t, List.mem_cons_of_mem _ ht, h⟩
    · rintro ⟨t, ht, raw, r, hg, hlen, hr, hkey⟩
      rcases List.mem_cons.1 ht with rfl | ht1
      · left
        simp only [hg, hlen, if_true, hr, List.mem_cons, List.mem_singleton,
          List.not_mem_nil, or_false]
        exact hkey
      · exact Or.inr ⟨t, ht1, raw, r, hg, hlen, hr, hkey⟩

/-- C20: for a tx index and transactions whose present, non-empty primary entries all
decode, `TxIndexStore.Delete(txs)` succeeds; afterwards the primary entry and the height key
of every transaction whose primary entry was present and non-empty are gone; every key whose
value changed is such a primary or height key (so a transaction whose primary entry is
absent causes no deletion); and running `Delete(txs)` again succeeds and leaves the store
exactly as it is.  The height key of a result is `<TxHeightKey>/<height>/<height>/<index>`
in decimal. -/
theorem txIndex_delete_idempotent (c : Collab) (db : DB) (txs : List Bytes)
    (hdec : ∀ tx ∈ txs, ∀ raw, DB.get db (c.txHash tx) = some raw → raw.length > 0 →
      ∃ r, c.unmarshalTxResult raw = some r) :
    (∀ r : TxResult, txIndexHeightKey c r
        = c.txHeightKey ++ [47] ++ formatInt r.height ++ [47] ++ formatInt r.height
          ++ [47] ++ formatInt (r.index : Int))
    ∧ ∃ db1 : DB, TxIndexStore.Delete c db txs = some db1
      ∧ (∀ tx ∈ txs, ∀ raw r, DB.get db (c.txHash tx) = some raw → raw.length > 0 →
          c.unmarshalTxResult raw = some r →
          DB.get db1 (c.txHash tx) = none ∧ DB.get db1 (txIndexHeightKey c r) = none)
      ∧ (∀ key : Bytes, DB.get db1 key ≠ DB.get db key →
          DB.get db1 key = none ∧
          ∃ tx ∈ txs, ∃ raw r, DB.get db (c.txHash tx) = some raw ∧ raw.length > 0
            ∧ c.unmarshalTxResult raw = some r
            ∧ (key = c.txHash tx ∨ key = txIndexHeightKey c r))
      ∧ ((∀ tx ∈ txs, DB.get db (c.txHash tx) = none) → db1 = db)
      ∧ TxIndexStore.Delete c db1 txs = some db1 := by
  refine ⟨fun _ => rfl, DB.write db ((txDeleteKeys c db txs).map Op.del), ?_, ?_, ?_, ?_, ?_⟩
  · simp only [TxIndexStore.Delete, txDeleteBatch_eq c db txs [] hdec, List.nil_append,
      Option.map_some']
  · intro tx htx raw r hg hlen hr
    constructor
    · rw [DB.get_write_dels, if_pos]
      exact (mem_txDeleteKeys c db _ txs).2 ⟨tx, htx, raw, r, hg, hlen, hr, Or.inl rfl⟩
    · rw [DB.get_write_dels, if_pos]
      exact (mem_txDeleteKeys c db _ txs).2 ⟨tx, htx, raw, r, hg, hlen, hr, Or.inr rfl⟩
  · intro key hne
    rw [DB.get_write_dels] at hne ⊢
    by_cases hmem : key ∈ txDeleteKeys c db txs
    · exact ⟨by rw [if_pos hmem], (mem_txDeleteKeys c db key txs).1 hmem⟩
    · rw [if_neg hmem] at hne
      exact absurd rfl hne
  · intro habs
    have hnil : txDeleteKeys c db txs = [] := by
      rw [List.eq_nil_iff_forall_not_mem]
      intro key hkey
      obtain ⟨tx, htx, raw, r, hg, _⟩ := (mem_txDeleteKeys c db key txs).1 hkey
      rw [habs tx htx] at hg
      cases hg
    rw [hnil]
    rfl
  · have hskip := txDeleteBatch_skip c (DB.write db ((txDeleteKeys c db txs).map Op.del)) txs []
      (by
        intro tx htx raw hg
        rw [DB.get_write_dels] at hg
        by_cases hmem : c.txHash tx ∈ txDeleteKeys c db txs
        · rw [if_pos hmem] at hg
          cases hg
        · rw [if_neg hmem] at hg
          by_contra hlen
          have hpos : raw.length > 0 := by omega
          obtain ⟨r, hr⟩ := hdec tx htx raw hg hpos
          exact hmem ((mem_txDeleteKeys c db _ txs).2
            ⟨tx, htx, raw, r, hg, hpos, hr, Or.inl rfl⟩))
    simp only [TxIndexStore.Delete, hskip, Option.map_some']
    rfl

/-- C20 witness: deleting the transactions `[7]` (indexed) and `[8]` (not indexed) from the
sample tx index removes the hash key and the height key of `[7]`, keeps the unrelated record,
and a second run changes nothing. -/
theorem txIndex_delete_idempotent_witness :
    TxIndexStore.Delete sampleCollab sampleTxIndex [[7], [8]] = some [([9], [5, 5])]
      ∧ TxIndexStore.Delete sampleCollab [([9], [5, 5])] [[7], [8]] = some [([9], [5, 5])] := by
  obtain ⟨_, db1, h1, _, _, _, h5⟩ := txIndex_delete_idempotent sampleCollab sampleTxIndex
    [[7], [8]] (by
      intro tx htx raw hg _
      simp only [List.mem_cons, List.mem_singleton, List.not_mem_nil, or_false] at htx
      rcases htx with rfl | rfl
      · have : raw = [1, 0] := by
          have h : DB.get sampleTxIndex [7] = some [1, 0] := by decide
          rw [show sampleCollab.txHash [7] = [7] from rfl, h] at hg
          exact (Option.some.inj hg).symm
        exact ⟨⟨1, 0⟩, by rw [this]; rfl⟩
      · have h : DB.get sampleTxIndex [8] = none := by decide
        rw [show sampleCollab.txHash [8] = [8] from rfl, h] at hg
        cases hg)
  have hval : TxIndexStore.Delete sampleCollab sampleTxIndex [[7], [8]]
      = some [([9], [5, 5])] := by decide
  have hdb : db1 = [([9], [5, 5])] := by
    rw [hval] at h1
    exact (Option.some.inj h1).symm
  rw [hdb] at h5
  exact ⟨hval, h5⟩

/-! ## Failed flushes and the block index -/

/-- C19 (failing inputs): with the first destination write failing, `CopyEvmToLevelDb` on
the records of `TestCopyEvmToLevelDb` (batch size 2) and `CopyEvmAuxiliary` on a tree with
one bloom filter key (batch size 0) both panic at the intermediate flush, where the callback
assigns through the nil pointer `itError`; neither returns an error value. -/
theorem copy_faults_on_failed_flush :
    CopyEvmToLevelDb (fun n => n == 0) testTree [] 2 0 = (.fault, [])
      ∧ CopyEvmAuxiliary (fun n => n == 0) auxTree [] 0 0 true true = (.fault, [])
      ∧ (CopyEvmToLevelDb (fun _ => false) testTree [] 2 0).1 = .ok
      ∧ (CopyEvmAuxiliary (fun _ => false) auxTree [] 0 0 true true).1 = .ok := by
  decide

/-- C11 (failing input): on the block store of `TestIndexBlockStore` (10 blocks, recorded
height 11, batch size 5) `IndexBlockStore` returns nil, and for each of the ten hashes the
destination holds nothing under the hash itself: the big-endian height is stored under
`"BH:"` followed by the hash. -/
theorem indexBlockStore_keys_carry_prefix :
    (IndexBlockStore sampleCollab indexTestStore (fun _ => false) [] 5 0).1 = .ok
      ∧ ∀ ih ∈ indexTestHashes.enum,
        DB.get (IndexBlockStore sampleCollab indexTestStore (fun _ => false) [] 5 0).2 ih.2
            = none
          ∧ DB.get (IndexBlockStore sampleCollab indexTestStore (fun _ => false) [] 5 0).2
              (hashKey ih.2) = some (uint64ToByteBigEndian (ih.1 + 1)) := by
  decide

/-! ## Big-endian heights and the order of evmroot keys -/

theorem beValue_lt : ∀ s : Bytes, IsBytes s → beValue s < 256 ^ s.length := by
  intro s
  induction s with
  | nil => intro _; simp [beValue]
  | cons x xs ih =>
    intro hs
    obtain ⟨hx, hxs⟩ := isBytes_cons hs
    have h1 := ih hxs
    have h2 : x * 256 ^ xs.length ≤ 255 * 256 ^ xs.length :=
      Nat.mul_le_mul_right _ (by omega)
    simp only [beValue, List.length_cons, pow_succ]
    omega

theorem bytesLt_iff_beValue : ∀ a b : Bytes, a.length = b.length → IsBytes a → IsBytes b →
    (bytesLt a b = true ↔ beValue a < beValue b) := by
  intro a
  induction a with
  | nil =>
    intro b hl _ _
    cases b with
    | nil => simp [bytesLt, beValue]
    | cons y ys => simp at hl
  | cons x xs ih =>
    intro b hl ha hb
    cases b with
    | nil => simp at hl
    | cons y ys =>
      have hl1 : xs.length = ys.length := by simpa using hl
      obtain ⟨_, hxs⟩ := isBytes_cons ha
      obtain ⟨_, hys⟩ := isBytes_cons hb
      have h1 := beValue_lt xs hxs
      have h2 := beValue_lt ys hys
      have h3 := ih ys hl1 hxs hys
      rw [bytesLt_cons]
      simp only [beValue]
      rw [hl1] at h1 ⊢
      generalize 256 ^ ys.length = P at h1 h2 ⊢
      rcases Nat.lt_trichotomy x y with hxy | hxy | hxy
      · have h4 : (x + 1) * P ≤ y * P := Nat.mul_le_mul_right _ hxy
        have h5 : (x + 1) * P = x * P + P := by ring
        constructor
        · intro _; omega
        · intro _; exact Or.inl hxy
      · subst hxy
        constructor
        · rintro (h | ⟨_, h⟩)
          · omega
          · have := h3.1 h; omega
        · intro h
          exact Or.inr ⟨rfl, h3.2 (by omega)⟩
      · have h4 : (y + 1) * P ≤ x * P := Nat.mul_le_mul_right _ hxy
        have h5 : (y + 1) * P = y * P + P := by ring
        constructor
        · rintro (h | ⟨h, _⟩) <;> omega
        · intro _; omega

theorem beValue_bigEndian (m : Nat) (h : m < 2 ^ 64) :
    beValue (uint64ToByteBigEndian m) = m := by
  simp only [uint64ToByteBigEndian, beValue, List.length_cons, List.length_nil]
  norm_num
  omega

theorem isBytes_bigEndian (m : Nat) : IsBytes (uint64ToByteBigEndian m) := by
  intro x hx
  simp only [uint64ToByteBigEndian, List.mem_cons, List.mem_singleton, List.not_mem_nil,
    or_false] at hx
  omega

theorem bytesLt_append_left : ∀ p a b : Bytes, bytesLt (p ++ a) (p ++ b) = bytesLt a b := by
  intro p
  induction p with
  | nil => intro a b; rfl
  | cons x xs ih => intro a b; simp [bytesLt, ih]

theorem bigEndian_lt_iff (m n : Nat) (hm : m < 2 ^ 64) (hn : n < 2 ^ 64) :
    bytesLt (uint64ToByteBigEndian m) (uint64ToByteBigEndian n) = true ↔ m < n := by
  rw [bytesLt_iff_beValue _ _ (by simp [uint64ToByteBigEndian]) (isBytes_bigEndian m)
    (isBytes_bigEndian n), beValue_bigEndian m hm, beValue_bigEndian n hn]

theorem uint64OfInt_lt (x : Int) : uint64OfInt x < 2 ^ 64 := by
  unfold uint64OfInt
  omega

/-- C22, as amended: `uint64ToByteBigEndian` returns 8 bytes and, on uint64 values, `m < n`
exactly when the bytes of `m` are lexicographically smaller than those of `n`; for every
int64 `h1` and every int64 `h2` that is not negative, `evmRootKey h1` precedes
`evmRootKey h2` in byte order exactly when `0 ≤ h1 < h2`. -/
theorem evmRootKey_order (m n : Nat) (h1 h2 : Int) (hm : m < 2 ^ 64) (hn : n < 2 ^ 64)
    (hlo : -2 ^ 63 ≤ h1) (hhi : h1 < 2 ^ 63) (h2lo : 0 ≤ h2) (h2hi : h2 < 2 ^ 63) :
    (uint64ToByteBigEndian m).length = 8
    ∧ (m < n ↔ bytesLt (uint64ToByteBigEndian m) (uint64ToByteBigEndian n) = true)
    ∧ (bytesLt (evmRootKey h1) (evmRootKey h2) = true ↔ 0 ≤ h1 ∧ h1 < h2) := by
  refine ⟨by simp [uint64ToByteBigEndian], (bigEndian_lt_iff m n hm hn).symm, ?_⟩
  rw [evmRootKey_eq, evmRootKey_eq, bytesLt_append_left,
    bigEndian_lt_iff _ _ (uint64OfInt_lt h1) (uint64OfInt_lt h2)]
  unfold uint64OfInt
  omega

theorem evmRootKey_order_witness :
    (uint64ToByteBigEndian 255).length = 8
    ∧ ((255 : Nat) < 256 ↔
        bytesLt (uint64ToByteBigEndian 255) (uint64ToByteBigEndian 256) = true)
    ∧ (bytesLt (evmRootKey (-1)) (evmRootKey 7) = true ↔ (0 : Int) ≤ -1 ∧ (-1 : Int) < 7) :=
  evmRootKey_order 255 256 (-1) 7 (by norm_num) (by norm_num) (by norm_num) (by norm_num)
    (by norm_num) (by norm_num)

/-- C22, as stated, fails for a negative second height: the key of height 5 precedes the key
of height -1, whose uint64 conversion is `2^64 - 1`, although `5 < -1` is false. -/
theorem evmRootKey_negative_height_sorts_last :
    bytesLt (evmRootKey 5) (evmRootKey (-1)) = true ∧ ¬ ((0 : Int) ≤ 5 ∧ (5 : Int) < -1) := by
  decide

/-! ## Progress sampling -/

theorem debugPeriod_eq (size logLevel : Nat) :
    debugPeriod size logLevel
      = some (if size / 10 ^ logLevel = 0 then 10 else size / 10 ^ logLevel) := by
  have h : 10 ^ logLevel ≠ 0 := by positivity
  simp [debugPeriod, powTen, h]

theorem debugPeriod_pos (size logLevel p : Nat) (h : debugPeriod size logLevel = some p) :
    1 ≤ p := by
  rw [debugPeriod_eq] at h
  injection h with h
  subst h
  generalize size / 10 ^ logLevel = q
  split <;> omega

theorem totalDataLoop_samples (logLevel p N : Nat) (hp : 1 ≤ p) (hN : N < 2 ^ 64) :
    ∀ (leaves : List (Bytes × Option Bytes)) (st : TotalState),
      st.numKeys + leaves.length ≤ N →
      (∀ c ∈ st.samples, 1 ≤ c ∧ c ≤ N ∧ c % p = 0) →
      ∃ st1, totalDataLoop logLevel p leaves st = some st1
        ∧ (∀ c ∈ st1.samples, 1 ≤ c ∧ c ≤ N ∧ c % p = 0)
        ∧ (logLevel = 0 → st1.samples = st.samples) := by
  intro leaves
  induction leaves with
  | nil => intro st _ hs; exact ⟨st, rfl, hs, fun _ => rfl⟩
  | cons e rest ih =>
    intro st hb hs
    obtain ⟨key, value⟩ := e
    simp only [List.length_cons] at hb
    have hn : (st.numKeys + 1) % 2 ^ 64 = st.numKeys + 1 := Nat.mod_eq_of_lt (by omega)
    have hp0 : p ≠ 0 := by omega
    simp only [totalDataLoop, hn, hp0, if_false]
    by_cases hl : logLevel > 0
    · simp only [hl, if_true]
      by_cases hm : (st.numKeys + 1) % p = 0
      · simp only [hm, if_true]
        obtain ⟨st1, h1, h2, h3⟩ := ih
          ⟨st.numKeys + 1, (st.keyTotal + key.length) % 2 ^ 64,
            (st.valueTotal + (value.getD []).length) % 2 ^ 64,
            st.samples ++ [st.numKeys + 1]⟩ (by simp only; omega)
          (by
            intro c hc
            rcases List.mem_append.1 hc with hc | hc
            · exact hs c hc
            · rw [List.mem_singleton] at hc
              subst hc
              exact ⟨by omega, by omega, hm⟩)
        exact ⟨st1, h1, h2, fun h0 => by omega⟩
      · simp only [hm, if_false]
        obtain ⟨st1, h1, h2, h3⟩ := ih
          ⟨st.numKeys + 1, (st.keyTotal + key.length) % 2 ^ 64,
            (st.valueTotal + (value.getD []).length) % 2 ^ 64, st.samples⟩
          (by simp only; omega) hs
        exact ⟨st1, h1, h2, h3⟩
    · simp only [hl, if_false]
      obtain ⟨st1, h1, h2, h3⟩ := ih
        ⟨st.numKeys + 1, (st.keyTotal + key.length) % 2 ^ 64,
          (st.valueTotal + (value.getD []).length) % 2 ^ 64, st.samples⟩
        (by simp only; omega) hs
      exact ⟨st1, h1, h2, h3⟩

theorem cloneHook_samples (p N : Nat) (hp : 1 ≤ p) (hN : N < 2 ^ 64) :
    ∀ (visits : List Int) (leafCount : Nat) (samples : List Nat),
      leafCount + visits.length ≤ N →
      (∀ c ∈ samples, 1 ≤ c ∧ c % p = 0) →
      ∃ out, cloneHook p visits leafCount samples = some out
        ∧ ∀ c ∈ out, 1 ≤ c ∧ c % p = 0 := by
  intro visits
  induction visits with
  | nil => intro _ samples _ hs; exact ⟨samples, rfl, hs⟩
  | cons height rest ih =>
    intro leafCount samples hb hs
    simp only [List.length_cons] at hb
    have hn : (leafCount + 1) % 2 ^ 64 = leafCount + 1 := Nat.mod_eq_of_lt (by omega)
    have hp0 : p ≠ 0 := by omega
    simp only [cloneHook, hn]
    split_ifs with hh hm
    · exact ih leafCount samples (by omega) hs
    · exact ih (leafCount + 1) samples (by omega) hs
    · refine ih (leafCount + 1) (samples ++ [leafCount + 1]) (by omega) ?_
      intro c hc
      rcases List.mem_append.1 hc with hc | hc
      · exact hs c hc
      · rw [List.mem_singleton] at hc
        subst hc
        exact ⟨by omega, by omega⟩

theorem rangeInclusive_length_le (tree : Tree) (start : Option Bytes) (stop : RangeEnd) :
    (tree.rangeInclusive start stop).length ≤ tree.leaves.length :=
  List.length_filter_le _ _

theorem totalData_range_end (pre : Bytes) :
    prefixRangeEnd (if pre.length > 0 then some pre else none) ≠ RangeEnd.fault := by
  by_cases h : pre.length > 0
  · have hne : pre ≠ [] := by
      intro h0; subst h0; simp at h
    simp only [h, if_true, prefixRangeEnd_eq pre hne]
    cases rangeEndFront pre <;> simp
  · simp [h, prefixRangeEnd]

/-- C24: for a tree of `total` leaves (an int64 size) and a `logLevel` with
`10^logLevel < 2^64`, the period of `TotalData` and `CloneIAVLTreeFromDB` is
`total / 10^logLevel` when that is not zero and 10 otherwise, hence at least 1; neither run
panics; every progress line is logged at a count that is at least 1 and a multiple of the
period (in `TotalData` also at most `total`, so the fraction done is not zero); and with
`logLevel = 0` no progress line is logged. -/
theorem progress_sampling (total logLevel : Nat) (tree : Tree) (pre : Bytes)
    (visits : List Int) (_hlog : 10 ^ logLevel < 2 ^ 64) (htotal : total < 2 ^ 63)
    (hsize : tree.leaves.length = total) (hvisits : visits.length < 2 ^ 64) :
    ∃ period st samples,
      debugPeriod total logLevel = some period
      ∧ period = (if total / 10 ^ logLevel = 0 then 10 else total / 10 ^ logLevel)
      ∧ 1 ≤ period
      ∧ totalDataRun tree pre logLevel = some st
      ∧ (∀ c ∈ st.samples, 1 ≤ c ∧ c ≤ total ∧ c % period = 0)
      ∧ cloneSamples total logLevel visits = some samples
      ∧ (∀ c ∈ samples, 1 ≤ c ∧ c % period = 0)
      ∧ (logLevel = 0 → st.samples = [] ∧ samples = []) := by
  have hp := debugPeriod_eq total logLevel
  have hpos := debugPeriod_pos total logLevel _ hp
  obtain ⟨st, hst, hs1, hs2⟩ := totalDataLoop_samples logLevel _ total hpos (by omega)
    (tree.rangeInclusive (if pre.length > 0 then some pre else none)
      (prefixRangeEnd (if pre.length > 0 then some pre else none))) ⟨0, 0, 0, []⟩
    (by
      have := rangeInclusive_length_le tree (if pre.length > 0 then some pre else none)
        (prefixRangeEnd (if pre.length > 0 then some pre else none))
      simp only
      omega)
    (by simp)
  have hrun : totalDataRun tree pre logLevel = some st := by
    have hf := totalData_range_end pre
    simp only [totalDataRun, hsize, hp]
    revert hf hst
    generalize prefixRangeEnd (if pre.length > 0 then some pre else none) = stop
    intro hst hf
    cases stop with
    | fault => exact absurd rfl hf
    | key k => exact hst
    | unbounded => exact hst
  by_cases hl : logLevel < 1
  · refine ⟨_, st, [], hp, rfl, hpos, hrun, hs1, by simp [cloneSamples, hl], by simp, ?_⟩
    intro h0
    exact ⟨by simpa using hs2 h0, rfl⟩
  · obtain ⟨out, ho1, ho2⟩ := cloneHook_samples _ visits.length hpos hvisits visits 0 []
      (by omega) (by simp)
    refine ⟨_, st, out, hp, rfl, hpos, hrun, hs1, by simp [cloneSamples, hl, hp, ho1], ho2, ?_⟩
    intro h0
    omega

theorem progress_sampling_witness :
    ∃ period st samples,
      debugPeriod 15 1 = some period
      ∧ period = (if 15 / 10 ^ 1 = 0 then 10 else 15 / 10 ^ 1)
      ∧ 1 ≤ period
      ∧ totalDataRun testTree prefixStart 1 = some st
      ∧ (∀ c ∈ st.samples, 1 ≤ c ∧ c ≤ 15 ∧ c % period = 0)
      ∧ cloneSamples 15 1 [0, 1, 0] = some samples
      ∧ (∀ c ∈ samples, 1 ≤ c ∧ c % period = 0)
      ∧ ((1 : Nat) = 0 → st.samples = [] ∧ samples = []) :=
  progress_sampling 15 1 testTree prefixStart [0, 1, 0] (by norm_num) (by norm_num) rfl
    (by simp)

theorem bytesLe_iff_lt_or_eq : ∀ k e : Bytes,
    bytesLe k e = true ↔ bytesLt k e = true ∨ k = e := by
  intro k
  induction k with
  | nil =>
    intro e
    cases e with
    | nil => simp [bytesLe, bytesLt]
    | cons b bs => simp [bytesLe, bytesLt]
  | cons a as ih =>
    intro e
    cases e with
    | nil => simp [bytesLe, bytesLt]
    | cons b bs =>
      rw [bytesLe_cons, bytesLt_cons, ih bs]
      constructor
      · rintro (h | ⟨h1, h2 | h2⟩)
        · exact Or.inl (Or.inl h)
        · exact Or.inl (Or.inr ⟨h1, h2⟩)
        · exact Or.inr (by rw [h1, h2])
      · rintro ((h | ⟨h1, h2⟩) | h)
        · exact Or.inl h
        · exact Or.inr ⟨h1, Or.inl h2⟩
        · injection h with h1 h2
          exact Or.inr ⟨h1, Or.inr h2⟩

theorem bytesLe_rangeEndFront : ∀ p e : Bytes, rangeEndFront p = some e →
    bytesLe p e = true := by
  intro p
  induction p with
  | nil => intro e h; simp [rangeEndFront] at h
  | cons a rest ih =>
    intro e h
    rw [rangeEndFront] at h
    cases hr : rangeEndFront rest with
    | some e1 =>
      rw [hr] at h
      simp only [Option.some.injEq] at h
      subst h
      rw [bytesLe_cons]
      exact Or.inr ⟨rfl, ih e1 hr⟩
    | none =>
      rw [hr] at h
      simp only at h
      split at h
      · simp only [Option.some.injEq] at h
        subst h
        rw [bytesLe_cons]
        exact Or.inl (by omega)
      · cases h

/-- A key of bytes is visited by the inclusive scan of `TotalData` exactly when it has the
prefix or is the range end of the prefix. -/
theorem rangeInclusive_eq_filter (tree : Tree) (pre : Bytes)
    (hk : ∀ e ∈ tree.leaves, IsBytes e.1) :
    tree.rangeInclusive (if pre.length > 0 then some pre else none)
        (prefixRangeEnd (if pre.length > 0 then some pre else none))
      = tree.leaves.filter fun e => bytesHasPrefix e.1 pre
          || decide (prefixRangeEnd (if pre.length > 0 then some pre else none)
              = RangeEnd.key e.1) := by
  unfold Tree.rangeInclusive
  apply List.filter_congr
  intro e he
  have hb := hk e he
  by_cases h : pre.length > 0
  · have hne : pre ≠ [] := by
      intro h0; subst h0; simp at h
    have hr := range_iff_prefix pre e.1 hb
    simp only [h, if_true, prefixRangeEnd_eq pre hne]
    cases hf : rangeEndFront pre with
    | some stop =>
      rw [hf] at hr
      simp only [Option.some.injEq, forall_eq'] at hr
      have hle := bytesLe_rangeEndFront pre stop hf
      have h1 := bytesLe_iff_lt_or_eq e.1 stop
      rw [Bool.eq_iff_iff]
      simp only [Bool.and_eq_true, Bool.or_eq_true, decide_eq_true_eq, RangeEnd.key.injEq]
      constructor
      · rintro ⟨h2, h3⟩
        rcases h1.1 h3 with h4 | h4
        · exact Or.inl (hr.1 ⟨h2, h4⟩)
        · exact Or.inr h4.symm
      · rintro (h2 | h2)
        · exact ⟨(hr.2 h2).1, h1.2 (Or.inl (hr.2 h2).2)⟩
        · rw [← h2]
          exact ⟨hle, (bytesLe_iff_lt_or_eq stop stop).2 (Or.inr rfl)⟩
    | none =>
      rw [hf] at hr
      simp only [reduceCtorEq, false_implies, implies_true, and_true] at hr
      rw [Bool.eq_iff_iff]
      simp only [Bool.and_true, Bool.or_eq_true, decide_eq_true_eq, reduceCtorEq, or_false]
      exact hr
  · have h0 : pre = [] := by
      cases pre with
      | nil => rfl
      | cons a t => simp at h
    subst h0
    simp [prefixRangeEnd, bytesHasPrefix]

theorem totalDataLoop_stats (logLevel p : Nat) (hp : p ≠ 0) :
    ∀ (leaves : List (Bytes × Option Bytes)) (st : TotalState),
      st.numKeys < 2 ^ 64 → st.keyTotal < 2 ^ 64 → st.valueTotal < 2 ^ 64 →
      ∃ st1, totalDataLoop logLevel p leaves st = some st1
        ∧ st1.numKeys = (st.numKeys + (leafStats leaves).NumKeys) % 2 ^ 64
        ∧ st1.keyTotal = (st.keyTotal + (leafStats leaves).TotalKeyBytes) % 2 ^ 64
        ∧ st1.valueTotal = (st.valueTotal + (leafStats leaves).TotalValueBytes) % 2 ^ 64 := by
  intro leaves
  induction leaves with
  | nil =>
    intro st h1 h2 h3
    refine ⟨st, rfl, ?_, ?_, ?_⟩ <;> simp only [leafStats, List.length_nil, List.map_nil,
      List.sum_nil, Nat.add_zero] <;> omega
  | cons e rest ih =>
    intro st h1 h2 h3
    obtain ⟨key, value⟩ := e
    have hstep : ∀ samples, ∃ st1,
        totalDataLoop logLevel p rest ⟨(st.numKeys + 1) % 2 ^ 64,
          (st.keyTotal + key.length) % 2 ^ 64,
          (st.valueTotal + (value.getD []).length) % 2 ^ 64, samples⟩ = some st1
        ∧ st1.numKeys = (st.numKeys + (leafStats ((key, value) :: rest)).NumKeys) % 2 ^ 64
        ∧ st1.keyTotal
          = (st.keyTotal + (leafStats ((key, value) :: rest)).TotalKeyBytes) % 2 ^ 64
        ∧ st1.valueTotal
          = (st.valueTotal + (leafStats ((key, value) :: rest)).TotalValueBytes) % 2 ^ 64 := by
      intro samples
      obtain ⟨st1, h4, h5, h6, h7⟩ := ih ⟨(st.numKeys + 1) % 2 ^ 64,
          (st.keyTotal + key.length) % 2 ^ 64,
          (st.valueTotal + (value.getD []).length) % 2 ^ 64, samples⟩
        (Nat.mod_lt _ (by norm_num)) (Nat.mod_lt _ (by norm_num)) (Nat.mod_lt _ (by norm_num))
      refine ⟨st1, h4, ?_, ?_, ?_⟩
      · rw [h5]
        simp only [leafStats, List.length_cons]
        omega
      · rw [h6]
        simp only [leafStats, List.map_cons, List.sum_cons]
        omega
      · rw [h7]
        simp only [leafStats, List.map_cons, List.sum_cons]
        omega
    simp only [totalDataLoop, hp, if_false]
    split_ifs
    · exact hstep _
    · exact hstep _
    · exact hstep _

/-- What `TotalData` returns for keys of bytes: it never panics, and its counters are those
of the keys that have the prefix together with the key equal to the range end of the prefix,
each reduced to 64 bits. -/
theorem totalData_spec (tree : Tree) (pre : Bytes) (logLevel : Nat)
    (hk : ∀ e ∈ tree.leaves, IsBytes e.1) :
    TotalData tree pre logLevel
      = some ⟨(leafStats (tree.leaves.filter fun e => bytesHasPrefix e.1 pre
            || decide (prefixRangeEnd (if pre.length > 0 then some pre else none)
                = RangeEnd.key e.1))).NumKeys % 2 ^ 64,
          (leafStats (tree.leaves.filter fun e => bytesHasPrefix e.1 pre
            || decide (prefixRangeEnd (if pre.length > 0 then some pre else none)
                = RangeEnd.key e.1))).TotalKeyBytes % 2 ^ 64,
          (leafStats (tree.leaves.filter fun e => bytesHasPrefix e.1 pre
            || decide (prefixRangeEnd (if pre.length > 0 then some pre else none)
                = RangeEnd.key e.1))).TotalValueBytes % 2 ^ 64⟩ := by
  have hp := debugPeriod_eq tree.leaves.length logLevel
  have hpos := debugPeriod_pos tree.leaves.length logLevel _ hp
  obtain ⟨st, hst, h1, h2, h3⟩ := totalDataLoop_stats logLevel _ (Nat.pos_iff_ne_zero.1 hpos)
    (tree.rangeInclusive (if pre.length > 0 then some pre else none)
      (prefixRangeEnd (if pre.length > 0 then some pre else none))) ⟨0, 0, 0, []⟩
    (by norm_num) (by norm_num) (by norm_num)
  have hrun : totalDataRun tree pre logLevel = some st := by
    have hf := totalData_range_end pre
    simp only [totalDataRun, hp]
    revert hf hst
    generalize prefixRangeEnd (if pre.length > 0 then some pre else none) = stop
    intro hst hf
    cases stop with
    | fault => exact absurd rfl hf
    | key k => exact hst
    | unbounded => exact hst
  rw [rangeInclusive_eq_filter tree pre hk] at h1 h2 h3
  simp only [Nat.zero_add] at h1 h2 h3
  simp only [TotalData, hrun, Option.map_some', h1, h2, h3]

/-! ## Store statistics -/

/-- C21 fails on the tree of `TestCopyEvmToLevelDb` with the prefix `"vm"`: eight keys have
the prefix (38 key bytes, 16 value bytes), but `TotalData` returns 9 keys, 40 key bytes and
18 value bytes, because the inclusive range also visits the range end `"vn"`. -/
theorem totalData_counts_range_end :
    TotalData testTree prefixStart 0 = some ⟨9, 40, 18⟩
    ∧ leafStats (testTree.leaves.filter fun e => bytesHasPrefix e.1 prefixStart) = ⟨8, 38, 16⟩
    ∧ testTree.rangeInclusive (some prefixStart) (prefixRangeEnd (some prefixStart))
      = (testTree.leaves.filter fun e => bytesHasPrefix e.1 prefixStart)
        ++ [(prefixEnd, some [105, 105])] := by
  decide

/-! ## Malformed auxiliary keys -/

theorem byteToUint64LittleEndian_none (s : Bytes) :
    byteToUint64LittleEndian s = none ↔ s.length < 8 := by
  rcases s with _ | ⟨b0, _ | ⟨b1, _ | ⟨b2, _ | ⟨b3, _ | ⟨b4, _ | ⟨b5, _ | ⟨b6, _ | ⟨b7, t⟩⟩⟩⟩⟩⟩⟩⟩ <;>
    simp [byteToUint64LittleEndian]

/-- A key that passes `hasPrefix` never makes `formatPrefixes` return its error: it panics
when fewer than 8 bytes follow the separator and returns a key otherwise. -/
theorem formatPrefixes_of_hasPrefix (key oldPrefix newPrefix : Bytes)
    (h : hasPrefix key oldPrefix = true) :
    (key.length < oldPrefix.length + 9 →
        formatPrefixes key oldPrefix newPrefix = Formatted.fault)
    ∧ (oldPrefix.length + 9 ≤ key.length →
        ∃ k, formatPrefixes key oldPrefix newPrefix = Formatted.ok k) := by
  unfold hasPrefix at h
  split at h
  · cases h
  · rw [bytesHasPrefix_iff] at h
    obtain ⟨t, ht⟩ := h
    subst ht
    have hu : unprefixKey (oldPrefix ++ [0] ++ t) oldPrefix = some t := by
      have hd : (oldPrefix ++ [0] ++ t).drop (oldPrefix.length + 1) = t := by
        have : oldPrefix.length + 1 = (oldPrefix ++ [0]).length := by simp
        rw [this, List.drop_left]
      simp [unprefixKey, hd]
    constructor
    · intro hlen
      have ht8 : t.length < 8 := by
        simp only [List.length_append, List.length_singleton] at hlen
        omega
      have hn := (byteToUint64LittleEndian_none t).2 ht8
      unfold formatPrefixes
      rw [hu]
      simp [hn]
    · intro hlen
      have ht8 : ¬ t.length < 8 := by
        simp only [List.length_append, List.length_singleton] at hlen
        omega
      have hn : byteToUint64LittleEndian t ≠ none := fun h0 =>
        ht8 ((byteToUint64LittleEndian_none t).1 h0)
      obtain ⟨n, hn1⟩ := Option.ne_none_iff_exists'.1 hn
      refine ⟨joinKeys [newPrefix, uint64ToByteBigEndian n], ?_⟩
      unfold formatPrefixes
      rw [hu]
      simp [hn1, prefixKey]

/-- C25 fails on the bloom filter key `"bloomFilter" 0x00 0x00 0x01`: it passes `hasPrefix`,
`formatPrefixes` panics on it where it reads the 8 height bytes, and the run of
`CopyEvmAuxiliary` over a tree holding it panics instead of skipping to the well-formed key
behind it, so nothing is written. -/
theorem formatPrefixes_faults_on_short_height :
    hasPrefix (bfPrefixStart ++ [0] ++ [0, 1]) bfPrefixStart = true
    ∧ formatPrefixes (bfPrefixStart ++ [0] ++ [0, 1]) bfPrefixStart newBfPrefix
      = Formatted.fault
    ∧ CopyEvmAuxiliary (fun _ => false) shortAuxTree [] 10 0 true true
      = (CopyOutcome.fault, []) := by
  decide

/-! ## Batched writing -/

/-- While the extraction callback does not panic, the batches flushed so far followed by the
pending batch are the puts of the leaves visited, in order; a flushed batch holds one put
more than `batchSize`, the pending batch at most `batchSize`, and the destination holds
what was flushed. -/
theorem extractLoop_spec (writeFails : Nat → Bool) (batchSize : Int) (d0 : DB) :
    ∀ (leaves : List (Bytes × Option Bytes)) (st : ExtractState),
    (extractLoop writeFails batchSize leaves st).2 = false →
    (st.batch.length : Int) ≤ batchSize →
    st.dest = DB.write d0 st.flushed.flatten →
    (∀ b ∈ st.flushed, (b.length : Int) = batchSize + 1) →
    (extractLoop writeFails batchSize leaves st).1.flushed.flatten
        ++ (extractLoop writeFails batchSize leaves st).1.batch
        = st.flushed.flatten ++ st.batch ++ leafPuts leaves
      ∧ ((extractLoop writeFails batchSize leaves st).1.batch.length : Int) ≤ batchSize
      ∧ (extractLoop writeFails batchSize leaves st).1.dest
        = DB.write d0 (extractLoop writeFails batchSize leaves st).1.flushed.flatten
      ∧ (∀ b ∈ (extractLoop writeFails batchSize leaves st).1.flushed,
          (b.length : Int) = batchSize + 1) := by
  intro leaves
  induction leaves with
  | nil =>
    intro st _ hb hd hf
    exact ⟨by simp [extractLoop, leafPuts], by simpa [extractLoop] using hb,
      by simpa [extractLoop] using hd, by simpa [extractLoop] using hf⟩
  | cons e rest ih =>
    obtain ⟨key, value⟩ := e
    intro st hok hb hd hf
    rw [extractLoop] at hok ⊢
    have hputs : leafPuts ((key, value) :: rest)
        = [Op.put key (putValue value)] ++ leafPuts rest := by
      simp [leafPuts]
    rw [hputs]
    split at hok
    · rename_i hlen
      split at hok
      · cases hok
      · rename_i hw
        rw [if_pos hlen, if_neg hw]
        have hlen1 : ((st.batch ++ [Op.put key (putValue value)]).length : Int)
            = batchSize + 1 := by
          simp only [List.length_append, List.length_singleton, Nat.cast_add,
            Nat.cast_one] at hlen ⊢
          omega
        have := ih ⟨DB.write st.dest (st.batch ++ [Op.put key (putValue value)]), [],
          st.flushed ++ [st.batch ++ [Op.put key (putValue value)]], st.writes + 1⟩ hok
          (by simp only [List.length_nil, Nat.cast_zero]; omega)
          (by simp [hd, DB.write_append])
          (by
            intro b hbm
            rcases List.mem_append.1 hbm with hbm | hbm
            · exact hf b hbm
            · rw [List.mem_singleton] at hbm
              subst hbm
              exact hlen1)
        refine ⟨?_, this.2.1, this.2.2.1, this.2.2.2⟩
        rw [this.1]
        simp
    · rename_i hlen
      rw [if_neg hlen]
      have := ih ⟨st.dest, st.batch ++ [Op.put key (putValue value)], st.flushed, st.writes⟩
        hok (by simp only at hlen ⊢; omega) hd hf
      refine ⟨?_, this.2.1, this.2.2.1, this.2.2.2⟩
      rw [this.1]
      simp

/-- The extraction callback does not panic when no destination write fails. -/
theorem extractLoop_no_fault (writeFails : Nat → Bool) (batchSize : Int)
    (hw : ∀ n, writeFails n = false) :
    ∀ (leaves : List (Bytes × Option Bytes)) (st : ExtractState),
    (extractLoop writeFails batchSize leaves st).2 = false := by
  intro leaves
  induction leaves with
  | nil => intro st; simp [extractLoop]
  | cons e rest ih =>
    obtain ⟨key, value⟩ := e
    intro st
    rw [extractLoop]
    simp only [hw]
    split
    · exact ih _
    · exact ih _

/-- For `ExtractIAVLTreeValuesFromDB` the batching loses nothing: when no write fails the
run returns nil, every intermediate flush writes `batchSize + 1` puts, and the flushed
batches followed by the final durable batch are the puts of all leaves in scan order and
then the version record; the destination holds exactly these writes. -/
theorem extract_batches_complete (writeFails : Nat → Bool) (tree : Tree) (destDB : DB)
    (logLevel batchSize : Int) (hb : 0 ≤ batchSize) (hw : ∀ n, writeFails n = false) :
    (ExtractIAVLTreeValuesFromDB writeFails tree destDB logLevel batchSize).outcome
        = CopyOutcome.ok
      ∧ (ExtractIAVLTreeValuesFromDB writeFails tree destDB logLevel batchSize).flushed.flatten
          ++ (ExtractIAVLTreeValuesFromDB writeFails tree destDB logLevel batchSize).final
        = leafPuts tree.leaves
          ++ [Op.put valueDBVersionKey (uint64ToByteBigEndian (uint64OfInt tree.version))]
      ∧ (∀ b ∈ (ExtractIAVLTreeValuesFromDB writeFails tree destDB logLevel batchSize).flushed,
          (b.length : Int) = batchSize + 1)
      ∧ (ExtractIAVLTreeValuesFromDB writeFails tree destDB logLevel batchSize).dest
        = DB.write destDB (leafPuts tree.leaves
          ++ [Op.put valueDBVersionKey (uint64ToByteBigEndian (uint64OfInt tree.version))]) := by
  have hnf := extractLoop_no_fault writeFails batchSize hw tree.leaves ⟨destDB, [], [], 0⟩
  have hs := extractLoop_spec writeFails batchSize destDB tree.leaves ⟨destDB, [], [], 0⟩ hnf
    (by simpa using hb) (by simp [DB.write]) (by simp)
  unfold ExtractIAVLTreeValuesFromDB
  revert hnf hs
  generalize extractLoop writeFails batchSize tree.leaves ⟨destDB, [], [], 0⟩ = r
  obtain ⟨st, flag⟩ := r
  intro hnf hs
  simp only at hnf hs
  subst hnf
  simp only [hw, Bool.false_eq_true, if_false]
  simp only [List.flatten_nil, List.nil_append] at hs
  refine ⟨trivial, ?_, hs.2.2.2, ?_⟩
  · rw [← List.append_assoc, hs.1]
  · rw [hs.2.2.1, ← DB.write_append, ← List.append_assoc, hs.1]

/-- C23 fails for a run of `CopyEvmAuxiliary` that makes both scans.  On a tree with one
bloom filter and one tx hash list and `batchSize` 10 no intermediate flush happens; the
durable write of the first scan writes the bloom filter put and leaves it in the batch, so
the durable write of the second scan writes the bloom filter put again before the tx hash
put: the written batches hold three puts where the scans produced two. -/
theorem auxiliary_rewrites_first_scan_batch :
    auxPhase (fun _ => false) auxTree 10 bfPrefixStart bfPrefixEnd bfPrefixStart newBfPrefix
        ⟨[], [], 0, 0⟩
      = (⟨[([98, 102, 0, 0, 0, 0, 0, 0, 0, 0, 1], [11])],
          [Op.put [98, 102, 0, 0, 0, 0, 0, 0, 0, 0, 1] [11]], 1, 1⟩, none)
    ∧ auxLoop (fun _ => false) 10 txHashPrefixStart newThPrefix
        (auxTree.rangeLeaves txHashPrefixStart txHashPrefixEnd)
        ⟨[([98, 102, 0, 0, 0, 0, 0, 0, 0, 0, 1], [11])],
          [Op.put [98, 102, 0, 0, 0, 0, 0, 0, 0, 0, 1] [11]], 1, 1⟩
      = (⟨[([98, 102, 0, 0, 0, 0, 0, 0, 0, 0, 1], [11])],
          [Op.put [98, 102, 0, 0, 0, 0, 0, 0, 0, 0, 1] [11],
            Op.put [116, 104, 0, 0, 0, 0, 0, 0, 0, 0, 2] [22]], 2, 1⟩, false)
    ∧ (CopyEvmAuxiliary (fun _ => false) auxTree [] 10 0 true true).1 = CopyOutcome.ok := by
  decide

end ClusterTools
